import Mathlib

/-!
Verification development for dirage2: the directory tree with its merging subtree iterator
(dirtree.cpp), the age chart (agechart.cpp), the chart calculator
(chartcalculatorservice.cpp), the scanner (scannerservice.cpp), the report generator
(savereportservice.cpp) and the search worker (searchservice.cpp), embedded as Lean
definitions, followed by the theorems that settle the claims of the specification.
-/

set_option autoImplicit false
namespace StdHeap

/-- Exchange of the array slots `i` and `j` (std::swap of two elements of the range). -/
def swapAt {α : Type} (xs : List α) (i j : Nat) : List α :=
  match xs[i]?, xs[j]? with
  | some a, some b => (xs.set i b).set j a
  | _, _ => xs

/-- Comparison `comp(xs[i], xs[j])` of two slots of the range. -/
def compAt {α : Type} (comp : α → α → Bool) (xs : List α) (i j : Nat) : Bool :=
  match xs[i]?, xs[j]? with
  | some a, some b => comp a b
  | _, _ => false

/-- Sift-up loop of std::push_heap: the element at `i` moves towards the root while
its parent compares less than it. -/
def siftUp {α : Type} (comp : α → α → Bool) : Nat → List α → Nat → List α
  | 0, xs, _ => xs
  | fuel + 1, xs, i =>
    if i = 0 then xs
    else if compAt comp xs ((i - 1) / 2) i then
      siftUp comp fuel (swapAt xs ((i - 1) / 2) i) ((i - 1) / 2)
    else xs

/-- Model of std::push_heap(first, last, comp): the last element of the range is
inserted into the heap formed by the elements before it. -/
def push_heap {α : Type} (comp : α → α → Bool) (xs : List α) : List α :=
  siftUp comp xs.length xs (xs.length - 1)

/-- Slot among `i` and its children below `n` that no other of them compares greater than. -/
def topOfThree {α : Type} (comp : α → α → Bool) (xs : List α) (i n : Nat) : Nat :=
  let l := 2 * i + 1
  let r := 2 * i + 2
  let m := if l < n ∧ compAt comp xs i l then l else i
  if r < n ∧ compAt comp xs m r then r else m

/-- Sift-down loop of std::pop_heap over the first `n` slots, starting at `i`. -/
def siftDown {α : Type} (comp : α → α → Bool) : Nat → List α → Nat → Nat → List α
  | 0, xs, _, _ => xs
  | fuel + 1, xs, i, n =>
    let m := topOfThree comp xs i n
    if m = i then xs else siftDown comp fuel (swapAt xs i m) m n

/-- Model of std::pop_heap(first, last, comp): the top of the heap is moved to the
last slot and the slots before it are made a heap again. -/
def pop_heap {α : Type} (comp : α → α → Bool) (xs : List α) : List α :=
  if xs.length ≤ 1 then xs
  else siftDown comp xs.length (swapAt xs 0 (xs.length - 1)) 0 (xs.length - 1)

/-- Heap property of the first `n` slots for a key with `comp a b ↔ key b < key a`:
no child has a smaller key than its parent. -/
def IsHeapN {α : Type} (key : α → Int) (n : Nat) (xs : List α) : Prop :=
  ∀ p c a b, (c = 2 * p + 1 ∨ c = 2 * p + 2) → c < n →
    xs[p]? = some a → xs[c]? = some b → key a ≤ key b

/-- Heap property of a whole list. -/
def IsHeap {α : Type} (key : α → Int) (xs : List α) : Prop :=
  IsHeapN key xs.length xs

end StdHeap

/-! Data model (dirtree.h, agechart.h) -/

/-- Record `DirTree::FileInfo`: one weight cluster of a directory. Both fields are
`qint64` in the source; they are modelled by unbounded integers, byte totals are assumed
to stay inside the 64-bit range. -/
structure FileInfo where
  size : Int
  time : Int
deriving DecidableEq, Repr

/-- Read-only view of a finished `DirTree`: a node together with the subtree it owns
(`m_subdirs` holds owned pointers, deleted by the destructor). The back links `m_parent`
and `m_parentPos` play no part in the readers and live in the store model below. -/
inductive DirTree where
  | mk (m_name : String) (m_files : List FileInfo) (m_subdirs : List DirTree)
      (m_filesSize : Int) (m_subtreeSize : Int)

namespace DirTree

/-- Accessor `name()`. -/
def name : DirTree → String
  | mk n _ _ _ _ => n

/-- Accessor `files()`. -/
def files : DirTree → List FileInfo
  | mk _ f _ _ _ => f

/-- Child list `m_subdirs`. -/
def subdirs : DirTree → List DirTree
  | mk _ _ s _ _ => s

/-- Accessor `filesSize()`. -/
def filesSize : DirTree → Int
  | mk _ _ _ a _ => a

/-- Accessor `subtreeSize()`. -/
def subtreeSize : DirTree → Int
  | mk _ _ _ _ b => b

/-- Accessor `numChildren()`. -/
def numChildren (t : DirTree) : Nat := t.subdirs.length

/-- Accessor `numFiles()`. -/
def numFiles (t : DirTree) : Nat := t.files.length

mutual
/-- Every directory of the subtree of a node, the node first. -/
def dirs : DirTree → List DirTree
  | mk n f s a b => mk n f s a b :: dirsOfList s
/-- Directories of the subtrees of a list of nodes. -/
def dirsOfList : List DirTree → List DirTree
  | [] => []
  | c :: cs => dirs c ++ dirsOfList cs
end

/-- Every FileInfo reachable from a node: the concatenation of `files(d)` over the
directories `d` of its subtree. -/
def allFiles (t : DirTree) : List FileInfo := t.dirs.flatMap files

/-- Ascending order of a file sequence by `time`. -/
def timeSorted (l : List FileInfo) : Prop := l.Pairwise (fun a b => a.time ≤ b.time)

instance (l : List FileInfo) : Decidable (timeSorted l) := by
  unfold timeSorted; infer_instance

/-- A subtree is finalised when the files of each of its directories are in
non-decreasing `time` order, which is what `finalize()` establishes per directory. -/
def finalised (t : DirTree) : Prop := ∀ d ∈ t.dirs, timeSorted d.files

instance (t : DirTree) : Decidable (finalised t) := by
  unfold finalised; infer_instance

/-- Class `DirTree::iterator`. `m_current` is the entry the iterator points at (`none`
for the null pointer), `m_subs` the array of the first `m_subsSize` child iterators. -/
inductive iterator where
  | mk (m_tree : DirTree) (m_current : Option FileInfo) (m_subs : List iterator) (m_pos : Nat)

namespace iterator

/-- Field `m_tree`. -/
def tree : iterator → DirTree
  | mk t _ _ _ => t

/-- Value of `operator->`, the field `m_current`. -/
def cur : iterator → Option FileInfo
  | mk _ c _ _ => c

/-- Field `m_subs`, restricted to its first `m_subsSize` slots. -/
def subs : iterator → List iterator
  | mk _ _ s _ => s

/-- Field `m_pos`. -/
def pos : iterator → Nat
  | mk _ _ _ p => p

/-- Comparison `it == end()`: `operator==` against `iterator(nullptr)` holds
exactly when `m_current` is null. -/
def isEnd (i : iterator) : Bool := i.cur.isNone

/-- Expression `a->time` for a child iterator. Only iterators that are not at the end are
kept in `m_subs`, so the null case is never evaluated by the source. -/
def time (i : iterator) : Int :=
  match i.cur with
  | some f => f.time
  | none => 0

/-- Function `heap_comp_asc_time`. -/
def heap_comp_asc_time (a b : iterator) : Bool := decide (a.time > b.time)

/-- Method `DirTree::iterator::operator++`. In the subdirectory branch `std::pop_heap`
moves `best` (the first slot) to the back, where it is advanced and then either pushed back
into the heap or dropped. -/
def next : iterator → iterator
  | mk t _ subs pos =>
    match subs with
    | [] =>
      match t.files[pos]? with
      | some f => mk t (some f) [] (pos + 1)
      | none => mk t none [] pos
    | best :: rest =>
      let direct : Option FileInfo :=
        match t.files[pos]? with
        | some f => if f.time < best.time then some f else none
        | none => none
      match direct with
      | some f => mk t (some f) (best :: rest) (pos + 1)
      | none =>
        let popped := StdHeap.pop_heap heap_comp_asc_time (best :: rest)
        let back := next best
        if back.isEnd then mk t best.cur popped.dropLast pos
        else mk t best.cur (StdHeap.push_heap heap_comp_asc_time (popped.dropLast ++ [back])) pos

/-- Loop `for (; i != end(); ++i)` collecting the entries it visits; `none` when the end is
not reached within `fuel` steps. -/
def drain : Nat → iterator → Option (List FileInfo)
  | 0, _ => none
  | fuel + 1, i =>
    match i.cur with
    | none => some []
    | some f => (drain fuel i.next).map (fun l => f :: l)

mutual
/-- Entries an iterator has still to deliver, the current one included. -/
def remaining : iterator → List FileInfo
  | mk t c subs pos => c.toList ++ (t.files.drop pos ++ remainingAll subs)
/-- Entries the iterators of a list have still to deliver. -/
def remainingAll : List iterator → List FileInfo
  | [] => []
  | s :: ss => remaining s ++ remainingAll ss
end

/-- Entries an iterator delivers after the current one. -/
def pending (i : iterator) : List FileInfo :=
  i.tree.files.drop i.pos ++ remainingAll i.subs

/-- State invariant of an iterator: the unread direct files are in order, the child
iterators form a heap by the time of their current entry, and each child iterator is itself
in a good state, points at an entry, and that entry is no later than what it still holds. -/
inductive WF : iterator → Prop
  | mk (t : DirTree) (c : Option FileInfo) (subs : List iterator) (pos : Nat)
      (hsorted : timeSorted (t.files.drop pos))
      (hheap : StdHeap.IsHeap time subs)
      (hsub : ∀ s ∈ subs, WF s)
      (hfront : ∀ s ∈ subs, ∃ f, s.cur = some f ∧ ∀ g ∈ s.pending, f.time ≤ g.time) :
      WF (mk t c subs pos)

/-- State of an iterator that delivers exactly the entries `l`: it is well formed, what
it still holds is `l` up to order, its current entry is no later than the rest, and it is at
the end only when nothing is left. -/
def Delivers (i : iterator) (l : List FileInfo) : Prop :=
  i.WF ∧ i.remaining.Perm l ∧
  (∀ f, i.cur = some f → ∀ g ∈ i.pending, f.time ≤ g.time) ∧
  (i.cur = none → l = [])

end iterator

mutual
/-- Method `begin()`: constructor `iterator(this)` followed by `_init`. -/
def begin : DirTree → iterator
  | mk n f s a b =>
    match s with
    | [] => iterator.next (iterator.mk (mk n f [] a b) none [] 0)
    | c :: cs => iterator.next (iterator.mk (mk n f (c :: cs) a b) none (initSubs (c :: cs) []) 0)
/-- Loop of `_init` over `m_subdirs`: each child iterator that is not at its end is
constructed at the back of `m_subs` and pushed into the heap. -/
def initSubs : List DirTree → List iterator → List iterator
  | [], acc => acc
  | j :: js, acc =>
    let b := begin j
    if b.isEnd then initSubs js acc
    else initSubs js (StdHeap.push_heap iterator.heap_comp_asc_time (acc ++ [b]))
end

end DirTree

/-- Constant `LOW`, the lowest `qint64`. -/
def LOW : Int := -9223372036854775808

/-- Struct `AgeChart`. -/
structure AgeChart where
  min : Int
  lowerWhisker : Int
  lowerQuartile : Int
  median : Int
  upperQuartile : Int
  upperWhisker : Int
  max : Int
deriving DecidableEq, Repr

namespace AgeChart

/-- Default constructor `AgeChart::AgeChart()`. -/
def unset : AgeChart :=
  { min := LOW, lowerWhisker := LOW, lowerQuartile := LOW, median := LOW,
    upperQuartile := LOW, upperWhisker := LOW, max := LOW }

/-- Method `AgeChart::valid`. -/
def valid (c : AgeChart) : Bool :=
  decide (c.min > LOW) && decide (c.lowerWhisker ≥ c.min) &&
  decide (c.lowerQuartile ≥ c.lowerWhisker) && decide (c.median ≥ c.lowerWhisker) &&
  decide (c.upperQuartile ≥ c.median) && decide (c.upperWhisker ≥ c.upperQuartile) &&
  decide (c.max ≥ c.upperQuartile)

/-- Method `AgeChart::singleton`. -/
def singleton (c : AgeChart) : Bool :=
  decide (c.min > LOW) && decide (c.lowerWhisker = c.min) &&
  decide (c.lowerQuartile = c.lowerWhisker) && decide (c.median = c.lowerWhisker) &&
  decide (c.upperQuartile = c.median) && decide (c.upperWhisker = c.upperQuartile) &&
  decide (c.max = c.upperQuartile)

/-- The ordering the data model asks of a valid chart:
`min ≤ p5 ≤ p25 ≤ p50 ≤ p75 ≤ p95 ≤ max`. -/
def ordered (c : AgeChart) : Prop :=
  c.min ≤ c.lowerWhisker ∧ c.lowerWhisker ≤ c.lowerQuartile ∧ c.lowerQuartile ≤ c.median ∧
  c.median ≤ c.upperQuartile ∧ c.upperQuartile ≤ c.upperWhisker ∧ c.upperWhisker ≤ c.max

instance (c : AgeChart) : Decidable (ordered c) := by
  unfold ordered; infer_instance

/-- Every field lies strictly above the sentinel `LOW`. -/
def aboveLow (c : AgeChart) : Prop :=
  LOW < c.min ∧ LOW < c.lowerWhisker ∧ LOW < c.lowerQuartile ∧ LOW < c.median ∧
  LOW < c.upperQuartile ∧ LOW < c.upperWhisker ∧ LOW < c.max

instance (c : AgeChart) : Decidable (aboveLow c) := by
  unfold aboveLow; infer_instance

end AgeChart

/-! Chart calculator (chartcalculatorservice.cpp) -/

/-- What a calculation task leaves in its promise when it returns: `addResult(chart)`
followed by `finish()`, or `finish()` alone after a cancellation was seen. -/
inductive TaskResult where
  | result (chart : AgeChart)
  | noResult
deriving DecidableEq, Repr

/-- The five local threshold variables of `runPriv`. -/
structure Weights where
  lowerWhiskerWeight : Int
  lowerQuartileWeight : Int
  medianWeight : Int
  upperQuartileWeight : Int
  upperWhiskerWeight : Int
deriving DecidableEq, Repr

namespace SubtreeCalculationTask

/-- Body of the `for` loop of `SubtreeCalculationTask::runPriv` after the cancellation
test, for the entry `f` the iterator points at. -/
def step (w : Weights) (f : FileInfo) (accumulatedWeights : Int) (ret : AgeChart) :
    Int × AgeChart :=
  let accumulatedWeights := accumulatedWeights + f.size
  let ret := if ret.lowerWhisker = LOW ∧ accumulatedWeights ≥ w.lowerWhiskerWeight
    then { ret with lowerWhisker := f.time } else ret
  let ret := if ret.lowerQuartile = LOW ∧ accumulatedWeights ≥ w.lowerQuartileWeight
    then { ret with lowerQuartile := f.time } else ret
  let ret := if ret.median = LOW ∧ accumulatedWeights ≥ w.medianWeight
    then { ret with median := f.time } else ret
  let ret := if ret.upperQuartile = LOW ∧ accumulatedWeights ≥ w.upperQuartileWeight
    then { ret with upperQuartile := f.time } else ret
  let ret := if ret.upperWhisker = LOW ∧ accumulatedWeights ≥ w.upperWhiskerWeight
    then { ret with upperWhisker := f.time } else ret
  (accumulatedWeights, { ret with max := f.time })

/-- Loop `for (; i != m_tree->end(); ++i)` of `SubtreeCalculationTask::runPriv`.
`isCanceled k` is what the `k`-th call of `m_pro.isCanceled()` returns; the result is `none`
when the end is not reached within `fuel` iterations. -/
def loop (isCanceled : Nat → Bool) (w : Weights) :
    Nat → Nat → DirTree.iterator → Int → AgeChart → Option TaskResult
  | 0, _, _, _, _ => none
  | fuel + 1, k, i, accumulatedWeights, ret =>
    match i.cur with
    | none => some (TaskResult.result ret)
    | some f =>
      if isCanceled k then some TaskResult.noResult
      else
        loop isCanceled w fuel (k + 1) i.next (step w f accumulatedWeights ret).1
          (step w f accumulatedWeights ret).2

/-- Method `SubtreeCalculationTask::runPriv`. -/
def runPriv (isCanceled : Nat → Bool) (fuel : Nat) (m_tree : DirTree) : Option TaskResult :=
  let ret := AgeChart.unset
  if m_tree.subtreeSize = 0 then some (TaskResult.result AgeChart.unset)
  else
    let totalWeight := m_tree.subtreeSize
    let w : Weights :=
      { lowerWhiskerWeight := totalWeight.tdiv 20
        lowerQuartileWeight := totalWeight.tdiv 4
        medianWeight := totalWeight.tdiv 2
        upperQuartileWeight := totalWeight - totalWeight.tdiv 4
        upperWhiskerWeight := totalWeight - totalWeight.tdiv 20 }
    if isCanceled 0 then some TaskResult.noResult
    else
      let i := m_tree.begin
      let ret := match i.cur with
        | some f => { ret with min := f.time }
        | none => ret
      loop isCanceled w fuel 1 i 0 ret

end SubtreeCalculationTask

namespace FilesCalculationTask

/-- Body of the `for` loop of `FilesCalculationTask::runPriv` after the cancellation
test, for the entry `f`. -/
def step (w : Weights) (f : FileInfo) (accumulatedWeights : Int) (ret : AgeChart) :
    Int × AgeChart :=
  let accumulatedWeights := accumulatedWeights + f.size
  let ret := if ret.lowerWhisker = LOW ∧ accumulatedWeights ≥ w.lowerWhiskerWeight
    then { ret with lowerWhisker := f.time } else ret
  let ret := if ret.lowerQuartile = LOW ∧ accumulatedWeights ≥ w.lowerQuartileWeight
    then { ret with lowerQuartile := f.time } else ret
  let ret := if ret.median = LOW ∧ accumulatedWeights ≥ w.medianWeight
    then { ret with median := f.time } else ret
  let ret := if ret.upperQuartile = LOW ∧ accumulatedWeights ≥ w.upperQuartileWeight
    then { ret with upperQuartile := f.time } else ret
  let ret := if ret.upperWhisker = LOW ∧ accumulatedWeights ≥ w.upperWhiskerWeight
    then { ret with upperWhisker := f.time } else ret
  (accumulatedWeights, { ret with max := f.time })

/-- Loop `for (; i != files.end(); ++i)` of `FilesCalculationTask::runPriv` over the
entries from `i` on. `isCanceled k` is what the `k`-th call of `m_pro.isCanceled()` returns. -/
def loop (isCanceled : Nat → Bool) (w : Weights) :
    Nat → List FileInfo → Int → AgeChart → TaskResult
  | _, [], _, ret => TaskResult.result ret
  | k, f :: fs, accumulatedWeights, ret =>
    if isCanceled k then TaskResult.noResult
    else
      loop isCanceled w (k + 1) fs (step w f accumulatedWeights ret).1
        (step w f accumulatedWeights ret).2

/-- Method `FilesCalculationTask::runPriv`. -/
def runPriv (isCanceled : Nat → Bool) (m_tree : DirTree) : TaskResult :=
  let ret := AgeChart.unset
  let files := m_tree.files
  if files.length = 0 then TaskResult.result AgeChart.unset
  else
    let totalWeight := m_tree.filesSize
    let w : Weights :=
      { lowerWhiskerWeight := totalWeight.tdiv 20
        lowerQuartileWeight := totalWeight.tdiv 4
        medianWeight := totalWeight.tdiv 2
        upperQuartileWeight := totalWeight - totalWeight.tdiv 4
        upperWhiskerWeight := totalWeight - totalWeight.tdiv 20 }
    if isCanceled 0 then TaskResult.noResult
    else
      let ret := match files.head? with
        | some f => { ret with min := f.time }
        | none => ret
      loop isCanceled w 1 files 0 ret

end FilesCalculationTask

/-- The flag of a promise that is never cancelled. -/
def neverCanceled : Nat → Bool := fun _ => false

/-- Time of the earliest entry of `l` at which the running sum of sizes, started at `acc`
and with that entry included, is at least `threshold`. -/
def earliestReach (threshold : Int) : Int → List FileInfo → Option Int
  | _, [] => none
  | acc, f :: fs =>
    if acc + f.size ≥ threshold then some f.time else earliestReach threshold (acc + f.size) fs

/-- Sum of the sizes of a file sequence. -/
def totalSize (l : List FileInfo) : Int := (l.map FileInfo.size).sum

/-- The chart the calculator is specified to return for the entry sequence `l` of total
weight `W`: first and last time, and the earliest threshold crossings for
`W/20, W/4, W/2, W - W/4, W - W/20`. -/
def ChartOf (l : List FileInfo) (W : Int) (c : AgeChart) : Prop :=
  l.head?.map FileInfo.time = some c.min ∧
  l.getLast?.map FileInfo.time = some c.max ∧
  earliestReach (W.tdiv 20) 0 l = some c.lowerWhisker ∧
  earliestReach (W.tdiv 4) 0 l = some c.lowerQuartile ∧
  earliestReach (W.tdiv 2) 0 l = some c.median ∧
  earliestReach (W - W.tdiv 4) 0 l = some c.upperQuartile ∧
  earliestReach (W - W.tdiv 20) 0 l = some c.upperWhisker

instance (l : List FileInfo) (W : Int) (c : AgeChart) : Decidable (ChartOf l W c) := by
  unfold ChartOf; infer_instance

/-- The five thresholds both `runPriv` bodies derive from the total weight. -/
def thresholdsOf (totalWeight : Int) : Weights :=
  { lowerWhiskerWeight := totalWeight.tdiv 20
    lowerQuartileWeight := totalWeight.tdiv 4
    medianWeight := totalWeight.tdiv 2
    upperQuartileWeight := totalWeight - totalWeight.tdiv 4
    upperWhiskerWeight := totalWeight - totalWeight.tdiv 20 }

/-- Value a percentile field ends with after the loop has run over `fs`: the field itself
when it was set already, otherwise the earliest threshold crossing. -/
def settle (field threshold acc : Int) (fs : List FileInfo) : Int :=
  if field = LOW then (earliestReach threshold acc fs).getD LOW else field

/-- Value `ret.max` ends with after the loop has run over `fs`. -/
def lastTime (d : Int) (fs : List FileInfo) : Int :=
  (fs.getLast?.map FileInfo.time).getD d

/-- Chart `ret` at loop entry: the default chart with `min` set from the first entry. -/
def entryChart (l : List FileInfo) : AgeChart :=
  match l.head? with
  | some f => { AgeChart.unset with min := f.time }
  | none => AgeChart.unset

namespace DirTree

/-- Size bookkeeping of a subtree as the appends maintain it: in every directory
`filesSize` is the sum of the sizes of its files and
`subtreeSize = filesSize + Σ subtreeSize(c)` over its children `c`. -/
def sizesExact (t : DirTree) : Prop :=
  ∀ d ∈ t.dirs, d.filesSize = totalSize d.files ∧
    d.subtreeSize = d.filesSize + (d.subdirs.map subtreeSize).sum

instance (t : DirTree) : Decidable (sizesExact t) := by
  unfold sizesExact; infer_instance

end DirTree

/-! Scenario inputs of the specification. -/

/-- The tree of the heap-merge scenario: a parent with one direct file at time 3 and two
children with file times `[1,5,9]` and `[2,6,10]`, every file of size 1. -/
def heapMergeTree : DirTree :=
  DirTree.mk "parent" [⟨1, 3⟩]
    [DirTree.mk "A" [⟨1, 1⟩, ⟨1, 5⟩, ⟨1, 9⟩] [] 3 3,
     DirTree.mk "B" [⟨1, 2⟩, ⟨1, 6⟩, ⟨1, 10⟩] [] 3 3] 1 7

/-- The directory of the percentile-truncation scenario: four files of size 1 at the
times 10, 20, 30, 40. -/
def fourFiles : DirTree :=
  DirTree.mk "d" [⟨1, 10⟩, ⟨1, 20⟩, ⟨1, 30⟩, ⟨1, 40⟩] [] 4 4

/-- The directory of the singleton scenario: one file of size 100 at time 555. -/
def oneFile : DirTree := DirTree.mk "d" [⟨100, 555⟩] [] 100 100

/-- A directory whose only file is empty: size 0 at time 5. -/
def emptyFileDir : DirTree := DirTree.mk "d" [⟨0, 5⟩] [] 0 0

/-- A directory with no files and no subdirectories. -/
def emptyDir : DirTree := DirTree.mk "d" [] [] 0 0

/-! Mutable tree (dirtree.cpp): objects with back pointers in a store -/

/-- Address of a `DirTree` object: its index in the store. -/
abbrev Ptr := Nat

/-- Object of class `DirTree` as it lives in memory while the tree is built: `m_subdirs`
and `m_parent` hold addresses (`none` is the null pointer). -/
structure DirNode where
  m_name : String
  m_files : List FileInfo
  m_subdirs : List Ptr
  m_parent : Option Ptr
  m_parentPos : Nat
  m_filesSize : Int
  m_subtreeSize : Int
deriving DecidableEq, Repr

/-- Constructor `DirTree::DirTree()`. -/
def DirNode.new : DirNode :=
  { m_name := "", m_files := [], m_subdirs := [], m_parent := none, m_parentPos := 0,
    m_filesSize := 0, m_subtreeSize := 0 }

/-- The objects allocated so far; `new DirTree()` adds one at the end. -/
abbrev Store := List DirNode

namespace Store

/-- Expression `new DirTree()`: the store with the fresh object, and its address. -/
def alloc (H : Store) : Store × Ptr := (H ++ [DirNode.new], H.length)

/-- Value of `c->subtreeSize()` for the object at address `c`. -/
def subtreeSizeAt (H : Store) (c : Ptr) : Int :=
  match H[c]? with
  | some cn => cn.m_subtreeSize
  | none => 0

/-- Loop `while (p != nullptr) { p->m_subtreeSize += size; p = p->m_parent; }` of
`DirTree::append(file_size_t, file_time_t)`; `none` when it has not left the loop within
`fuel` iterations. -/
def addUp : Nat → Store → Option Ptr → Int → Option Store
  | _, H, none, _ => some H
  | 0, _, some _, _ => none
  | fuel + 1, H, some p, size =>
    match H[p]? with
    | none => none
    | some nd =>
      addUp fuel (H.set p { nd with m_subtreeSize := nd.m_subtreeSize + size }) nd.m_parent size

/-- File list after `append(size, time)`: the last entry grows when it has the same time,
otherwise a new entry is pushed at the back. -/
def pushFile (files : List FileInfo) (size time : Int) : List FileInfo :=
  match files.getLast? with
  | some last =>
    if last.time = time then files.dropLast ++ [{ last with size := last.size + size }]
    else files ++ [{ size := size, time := time }]
  | none => files ++ [{ size := size, time := time }]

/-- Method `DirTree::append(file_size_t size, file_time_t time)` on the object at `this`. -/
def append (fuel : Nat) (H : Store) (this : Ptr) (size time : Int) : Option Store :=
  match H[this]? with
  | none => none
  | some nd =>
    addUp fuel
      (H.set this { nd with m_files := pushFile nd.m_files size time,
                            m_filesSize := nd.m_filesSize + size })
      (some this) size

/-- Loop `while (p != nullptr) { p->m_subtreeSize += b->subtreeSize(); p = p->m_parent; }`
of `DirTree::append(DirTree*)`. -/
def addUpFrom : Nat → Store → Option Ptr → Ptr → Option Store
  | _, H, none, _ => some H
  | 0, _, some _, _ => none
  | fuel + 1, H, some p, b =>
    match H[p]? with
    | none => none
    | some nd =>
      addUpFrom fuel (H.set p { nd with m_subtreeSize := nd.m_subtreeSize + subtreeSizeAt H b })
        nd.m_parent b

/-- Method `DirTree::append(DirTree *subdir)` on the object at `this`. -/
def appendDir (fuel : Nat) (H : Store) (this subdir : Ptr) : Option Store :=
  match H[this]? with
  | none => none
  | some nd =>
    let H1 := H.set this { nd with m_subdirs := nd.m_subdirs ++ [subdir] }
    match H1[subdir]? with
    | none => none
    | some b =>
      let H2 := H1.set subdir { b with m_parent := some this, m_parentPos := nd.m_subdirs.length }
      addUpFrom fuel H2 (some this) subdir

/-- Relation "`a` is `p` or an ancestor of `p`" along the `m_parent` pointers. -/
inductive Above (H : Store) : Ptr → Ptr → Prop
  | self (p : Ptr) : Above H p p
  | step (a p q : Ptr) (nd : DirNode) (hp : H[p]? = some nd) (hq : nd.m_parent = some q)
      (h : Above H a q) : Above H a p

/-- Shape invariants of the data model: (c) every child link is answered by the child's
`m_parent` and `m_parentPos`, every parent pointer is answered by a child link, and (d) there
are no cycles, `rank` decreasing along parent pointers. -/
structure WellFormed (H : Store) (rank : Ptr → Nat) : Prop where
  links : ∀ (p : Ptr) (nd : DirNode) (i : Nat) (c : Ptr), H[p]? = some nd →
    nd.m_subdirs[i]? = some c →
    ∃ cn : DirNode, H[c]? = some cn ∧ cn.m_parent = some p ∧ cn.m_parentPos = i
  backlinks : ∀ (c : Ptr) (cn : DirNode) (q : Ptr), H[c]? = some cn → cn.m_parent = some q →
    ∃ qn : DirNode, H[q]? = some qn ∧ qn.m_subdirs[cn.m_parentPos]? = some c
  ranked : ∀ (c : Ptr) (cn : DirNode) (q : Ptr), H[c]? = some cn → cn.m_parent = some q →
    rank q < rank c

/-- Size invariant (a): for every object,
`subtreeSize(n) = filesSize(n) + Σ subtreeSize(c)` over its children `c`. -/
def SizeInv (H : Store) : Prop :=
  ∀ (p : Ptr) (nd : DirNode), H[p]? = some nd →
    nd.m_subtreeSize = nd.m_filesSize + (nd.m_subdirs.map (subtreeSizeAt H)).sum

/-- Size invariant that fails at `p` only, where `subtreeSize` is short by `d`: the state
inside the propagation loops. -/
def SizeInvShort (H : Store) (p : Ptr) (d : Int) : Prop :=
  ∀ (q : Ptr) (nd : DirNode), H[q]? = some nd →
    nd.m_subtreeSize + (if q = p then d else 0) =
      nd.m_filesSize + (nd.m_subdirs.map (subtreeSizeAt H)).sum

/-- Stores the program can reach from a single empty root by `new DirTree()`, by
`append(size, time)` on any object and by `append(child)` of a parentless object that is not
above the receiver, each append having returned. -/
inductive Built : Store → Prop
  | root : Built [DirNode.new]
  | alloc (H : Store) (h : Built H) : Built (alloc H).1
  | append (H H2 : Store) (fuel : Nat) (this : Ptr) (size time : Int) (h : Built H)
      (hrun : append fuel H this size time = some H2) : Built H2
  | appendDir (H H2 : Store) (fuel : Nat) (this subdir : Ptr) (b : DirNode) (h : Built H)
      (hb : H[subdir]? = some b) (hparent : b.m_parent = none) (habove : ¬ Above H subdir this)
      (hrun : appendDir fuel H this subdir = some H2) : Built H2

end Store

namespace Store

/-- The store `append(DirTree*)` has made before its loop starts: `subdir` pushed at the
back of the child list of `this` and the back links of `subdir` set. -/
def linkChild (H : Store) (this subdir : Ptr) (nd bn : DirNode) : Store :=
  (H.set this { nd with m_subdirs := nd.m_subdirs ++ [subdir] }).set subdir
    { bn with m_parent := some this, m_parentPos := nd.m_subdirs.length }

/-- Insertion of `f` into a list in ascending `time` order, before the first entry that
is not earlier than `f`. -/
def insertByTime (f : FileInfo) : List FileInfo → List FileInfo
  | [] => [f]
  | g :: gs => if g.time < f.time then g :: insertByTime f gs else f :: g :: gs

/-- Model of `std::sort(m_files.begin(), m_files.end(), a.time < b.time)`. The order
`std::sort` leaves among entries of equal time is unspecified; this model keeps them in
their previous order. -/
def sortByTime : List FileInfo → List FileInfo
  | [] => []
  | f :: fs => insertByTime f (sortByTime fs)

/-- Method `DirTree::finalize()` on the object at `this`; `shrink_to_fit` has no effect
on the contents. -/
def finalize (H : Store) (this : Ptr) : Option Store :=
  match H[this]? with
  | none => none
  | some nd => some (H.set this { nd with m_files := sortByTime nd.m_files })

/-- Only the cached subtree size differs between two objects. -/
def SameButSubtreeSize (y y2 : DirNode) : Prop :=
  y2.m_name = y.m_name ∧ y2.m_files = y.m_files ∧ y2.m_subdirs = y.m_subdirs ∧
  y2.m_parent = y.m_parent ∧ y2.m_parentPos = y.m_parentPos ∧ y2.m_filesSize = y.m_filesSize

end Store

/-! Scanner (scannerservice.cpp) over a modelled filesystem. -/

/-- What the scanner sees of a directory entry: its `d_name` and what `lstat` reports for
it. For a directory, `opens` tells whether the later `opendir` succeeds and `entries` is what
`readdir` then returns, in its order (the entries `.` and `..` included where present). -/
inductive FsEntry where
  | statError (name : String)
  | file (name : String) (size : Int) (mtime : Int)
  | dir (name : String) (opens : Bool) (entries : List FsEntry)
  | other (name : String)

namespace FsEntry

/-- Field `d_name` of the entry. -/
def name : FsEntry → String
  | statError n => n
  | file n _ _ => n
  | dir n _ _ => n
  | other n => n

/-- Result of `opendir` on the path of the entry: the entries `readdir` will return, or
`none` when it fails. -/
def opendir : FsEntry → Option (List FsEntry)
  | dir _ true entries => some entries
  | _ => none

mutual
/-- Number of entries in the filesystem tree below and including an entry. -/
def weight : FsEntry → Nat
  | statError _ => 1
  | file _ _ _ => 1
  | dir _ _ entries => 1 + weightAll entries
  | other _ => 1
/-- Sum of the weights of a list of entries. -/
def weightAll : List FsEntry → Nat
  | [] => 0
  | e :: es => weight e + weightAll es
end

end FsEntry

/-- Struct `ScannerService::Progress`. -/
structure Progress where
  numFiles : Nat
  numDirs : Nat
  numSkipped : Nat
  numErrors : Nat
deriving DecidableEq, Repr

/-- State of `ScanWorker::scanPriv` between two statements of its loops. `stack` pairs each
stacked `DirTree*` with the directory that `nameStack` names for it, top first. `polls` counts
the calls of `promise.isCanceled()` made so far and `visited` lists the objects taken off the
stack so far, oldest first; both are bookkeeping of the model. -/
structure ScanState where
  store : Store
  stack : List (Ptr × FsEntry)
  progress : Progress
  polls : Nat
  visited : List Ptr

/-- Outcome of the inner `readdir` loop. -/
inductive EntriesResult where
  | done (st : ScanState)
  | canceled (st : ScanState)
  | stuck

/-- Outcome of `scanPriv`: `return root.release()` with the final state, `return nullptr`
after a cancellation was seen, or `stuck` when a loop of the model ran out of fuel or
followed a dangling pointer. -/
inductive ScanResult where
  | tree (root : Ptr) (st : ScanState)
  | null (st : ScanState)
  | stuck

namespace ScanWorker

/-- Body of the `readdir` loop after the cancellation test and the filter of `.` and
`..`: `lstat` and the three branches on the file type. `none` when an append does not return. -/
def scanEntry (top : Ptr) (ent : FsEntry) (st : ScanState) : Option ScanState :=
  match ent with
  | FsEntry.statError _ =>
    some { st with progress := { st.progress with numErrors := st.progress.numErrors + 1 } }
  | FsEntry.dir name _ _ =>
    let p := st.store.length
    let H1 := st.store ++ [{ DirNode.new with m_name := name }]
    match Store.appendDir H1.length H1 top p with
    | some H2 =>
      some { st with store := H2, stack := (p, ent) :: st.stack,
                     progress := { st.progress with numDirs := st.progress.numDirs + 1 } }
    | none => none
  | FsEntry.file _ size mtime =>
    match Store.append st.store.length st.store top size mtime with
    | some H2 =>
      some { st with store := H2,
                     progress := { st.progress with numFiles := st.progress.numFiles + 1 } }
    | none => none
  | FsEntry.other _ =>
    some { st with progress := { st.progress with numSkipped := st.progress.numSkipped + 1 } }

/-- Loop `while ((ent = readdir(dir)) != nullptr)` of `scanPriv` for the directory object
`top`. `isCanceled k` is what the `k`-th call of `promise.isCanceled()` returns. -/
def scanEntries (isCanceled : Nat → Bool) (top : Ptr) :
    List FsEntry → ScanState → EntriesResult
  | [], st => EntriesResult.done st
  | ent :: rest, st =>
    if isCanceled st.polls then EntriesResult.canceled st
    else
      let st := { st with polls := st.polls + 1 }
      if ent.name = "." ∨ ent.name = ".." then scanEntries isCanceled top rest st
      else
        match scanEntry top ent st with
        | some st2 => scanEntries isCanceled top rest st2
        | none => EntriesResult.stuck

/-- Loop `while (!stack.empty())` of `scanPriv`, for at most `fuel` iterations. -/
def scanLoop (isCanceled : Nat → Bool) (root : Ptr) : Nat → ScanState → ScanResult
  | 0, st =>
    match st.stack with
    | [] => ScanResult.tree root st
    | _ :: _ => ScanResult.stuck
  | fuel + 1, st =>
    match st.stack with
    | [] => ScanResult.tree root st
    | (top, dirEnt) :: stack =>
      if isCanceled st.polls then ScanResult.null st
      else
        let st := { st with stack := stack, polls := st.polls + 1,
                            visited := st.visited ++ [top] }
        match dirEnt.opendir with
        | none =>
          scanLoop isCanceled root fuel
            { st with progress := { st.progress with numErrors := st.progress.numErrors + 1 } }
        | some entries =>
          match scanEntries isCanceled top entries st with
          | EntriesResult.done st2 =>
            match Store.finalize st2.store top with
            | some H2 => scanLoop isCanceled root fuel { st2 with store := H2 }
            | none => ScanResult.stuck
          | EntriesResult.canceled st2 => ScanResult.null st2
          | EntriesResult.stuck => ScanResult.stuck

/-- Method `ScanWorker::scanPriv` for the root path `m_rootPath`, where `root` is what the
filesystem holds at that path. -/
def scanPriv (isCanceled : Nat → Bool) (fuel : Nat) (m_rootPath : String) (root : FsEntry) :
    ScanResult :=
  scanLoop isCanceled 0 fuel
    { store := [{ DirNode.new with m_name := m_rootPath }]
      stack := [(0, root)]
      progress := { numFiles := 0, numDirs := 0, numSkipped := 0, numErrors := 0 }
      polls := 0
      visited := [] }

/-- The tree `ScanWorker::run` hands to the promise as a result: the store and the root
when `scanPriv` returned the root, nothing when it returned `nullptr`. -/
def run (isCanceled : Nat → Bool) (fuel : Nat) (m_rootPath : String) (root : FsEntry) :
    Option (Store × Ptr) :=
  match scanPriv isCanceled fuel m_rootPath root with
  | ScanResult.tree r st => some (st.store, r)
  | ScanResult.null _ => none
  | ScanResult.stuck => none

/-- Total weight of the directories on the stack, a bound on the iterations left. -/
def stackWeight : List (Ptr × FsEntry) → Nat
  | [] => 0
  | (_, e) :: rest => e.weight + stackWeight rest

/-- Invariant of the scan state: the store is well formed with parents at lower addresses
than their children, satisfies the size invariant, every stacked pointer is allocated, and
the directories taken off the stack and those still on it are the root and the directories
counted in `numDirs`. -/
def Inv (st : ScanState) : Prop :=
  Store.WellFormed st.store (fun x => x) ∧ Store.SizeInv st.store ∧
  (∀ pe ∈ st.stack, pe.1 < st.store.length) ∧
  st.visited.length + st.stack.length = st.progress.numDirs + 1

end ScanWorker

/-- The filesystem of the scan scenario: a root holding one regular file of size 42 and
mtime 1000, one empty subdirectory and one symbolic link. -/
def scanScenario : FsEntry :=
  FsEntry.dir "root" true
    [FsEntry.dir "." true [], FsEntry.dir ".." true [], FsEntry.file "a.txt" 42 1000,
     FsEntry.dir "sub" true [], FsEntry.other "link"]

/-! Report generator (savereportservice.cpp). -/

/-- Class `QJsonValue` as far as the report uses it: integers (the report stores `qint64`
values only), strings, arrays and objects. An object is the list of its members, one per
key, in the order in which the keys were first assigned; the report is read by key only. -/
inductive QJsonValue where
  | num (n : Int)
  | str (s : String)
  | arr (items : List QJsonValue)
  | obj (members : List (String × QJsonValue))

/-- Class `QJsonArray`. -/
abbrev QJsonArray := List QJsonValue

/-- Class `QJsonObject`. -/
abbrev QJsonObject := List (String × QJsonValue)

/-- Method `QJsonObject::contains`. -/
def QJsonObject.contains (o : QJsonObject) (key : String) : Bool :=
  o.any (fun kv => kv.1 == key)

/-- Method `QJsonObject::value`, `none` standing for the undefined value. -/
def QJsonObject.value (o : QJsonObject) (key : String) : Option QJsonValue :=
  (o.find? (fun kv => kv.1 == key)).map Prod.snd

/-- Assignment `o[key] = v`: the member with this key is replaced, or added when there is
none. -/
def QJsonObject.set (o : QJsonObject) (key : String) (v : QJsonValue) : QJsonObject :=
  if QJsonObject.contains o key then o.map (fun kv => if kv.1 == key then (key, v) else kv)
  else o ++ [(key, v)]

/-- The object found in a report document by following the `subdirs` arrays along a list
of child indices. -/
def QJsonObject.subdoc : List Nat → QJsonObject → Option QJsonObject
  | [], o => some o
  | i :: p, o =>
    match QJsonObject.value o "subdirs" with
    | some (QJsonValue.arr items) =>
      match items[i]? with
      | some (QJsonValue.obj o2) => QJsonObject.subdoc p o2
      | _ => none
    | _ => none

/-- Accessor `child(i)`, `none` when `i` is out of range. -/
def DirTree.child (t : DirTree) (i : Nat) : Option DirTree := t.subdirs[i]?

/-- The node reached from a node by following `child(i)` along a list of child indices. -/
def DirTree.nodeAt : List Nat → DirTree → Option DirTree
  | [], t => some t
  | i :: p, t =>
    match t.child i with
    | some c => DirTree.nodeAt p c
    | none => none

namespace JsonReportGenerator

/-- Struct `TmpFuts` once both futures are finished: what each calculation task left in its
promise. -/
structure TmpFuts where
  subtreeChart : TaskResult
  filesChart : TaskResult

/-- Method `chartToJson`. -/
def chartToJson (chart : AgeChart) : QJsonValue :=
  QJsonValue.arr [QJsonValue.num chart.min, QJsonValue.num chart.lowerWhisker,
    QJsonValue.num chart.lowerQuartile, QJsonValue.num chart.median,
    QJsonValue.num chart.upperQuartile, QJsonValue.num chart.upperWhisker,
    QJsonValue.num chart.max]

mutual
/-- Method `comp`. `isCanceled k` is what the `k`-th call of `m_promise.isCanceled()`
returns and `polls` counts the calls made so far; the count after the call is returned with
the result. `node path tree` is what the two futures started by `node(tree)` hold when
`waitForFinished` returns, `path` (the child indices from the root) standing for the
address of the node. The `for` loop does nothing on a node without children, so it is
entered in both cases, and `chArr` has a value exactly when `numChildren() > 0`. -/
def comp (isCanceled : Nat → Bool) (node : List Nat → DirTree → TmpFuts) (path : List Nat) :
    DirTree → Nat → Option QJsonObject × Nat
  | DirTree.mk m_name m_files m_subdirs m_filesSize m_subtreeSize, polls =>
    let tree := DirTree.mk m_name m_files m_subdirs m_filesSize m_subtreeSize
    if isCanceled polls then (none, polls + 1)
    else
      let tmp := node path tree
      match compChildren isCanceled node path 0 m_subdirs [] (polls + 1) with
      | (none, polls) => (none, polls)
      | (some items, polls) =>
        let chArr : Option QJsonArray := if tree.numChildren > 0 then some items else none
        let rv : QJsonObject := []
        let rv := QJsonObject.set rv "name" (QJsonValue.str tree.name)
        let rv := QJsonObject.set rv "numFiles" (QJsonValue.num tree.numFiles)
        let rv := QJsonObject.set rv "subtreeSize" (QJsonValue.num tree.subtreeSize)
        let rv := QJsonObject.set rv "filesSize" (QJsonValue.num tree.filesSize)
        match tmp.subtreeChart with
        | TaskResult.noResult => (none, polls)
        | TaskResult.result subtreeChart =>
          let rv := QJsonObject.set rv "subtreeChart" (chartToJson subtreeChart)
          match tmp.filesChart with
          | TaskResult.noResult => (none, polls)
          | TaskResult.result filesChart =>
            let rv := QJsonObject.set rv "filesChart" (chartToJson filesChart)
            match chArr with
            | some a => (some (QJsonObject.set rv "subdirs" (QJsonValue.arr a)), polls)
            | none => (some rv, polls)
/-- Loop `for (size_t i = 0; i < tree->numChildren(); ++i)` of `comp` from index `i` on,
`chArr` holding the documents appended so far; `none` stands for `return {}`. -/
def compChildren (isCanceled : Nat → Bool) (node : List Nat → DirTree → TmpFuts)
    (path : List Nat) (i : Nat) : List DirTree → QJsonArray → Nat → Option QJsonArray × Nat
  | [], chArr, polls => (some chArr, polls)
  | child :: rest, chArr, polls =>
    match comp isCanceled node (path ++ [i]) child polls with
    | (some ch, polls) =>
      if isCanceled polls then (none, polls + 1)
      else compChildren isCanceled node path (i + 1) rest (chArr ++ [QJsonValue.obj ch])
        (polls + 1)
    | (none, polls) => (none, polls)
end

/-- What `run` leaves in the promise of the report. -/
inductive RunOutcome where
  | result (obj : QJsonObject)
  | exception
  | canceled

/-- Method `run`. -/
def run (isCanceled : Nat → Bool) (node : List Nat → DirTree → TmpFuts) (m_tree : DirTree) :
    RunOutcome :=
  match comp isCanceled node [] m_tree 0 with
  | (some obj, _) => RunOutcome.result obj
  | (none, polls) => if isCanceled polls then RunOutcome.canceled else RunOutcome.exception

/-- The futures of a node when the service runs both calculation tasks to their end without
cancelling them, the subtree task with fuel for every file of the subtree. -/
def calculated (_path : List Nat) (tree : DirTree) : TmpFuts :=
  { subtreeChart :=
      match SubtreeCalculationTask.runPriv neverCanceled (tree.allFiles.length + 1) tree with
      | some r => r
      | none => TaskResult.noResult
    filesChart := FilesCalculationTask.runPriv neverCanceled tree }

end JsonReportGenerator

/-- Tree of the report scenario: a root with two files and one child directory holding one
file. -/
def reportScenario : DirTree :=
  DirTree.mk "root" [⟨10, 100⟩, ⟨30, 200⟩] [DirTree.mk "sub" [⟨5, 150⟩] [] 5 5] 40 45

/-! Search (searchservice.cpp), one worker without steals. -/

/-- Read-only view of the object at address `p` of a store with the subtree it owns, for
trees of depth below `fuel`. -/
def Store.view (H : Store) : Nat → Ptr → Option DirTree
  | 0, _ => none
  | fuel + 1, p =>
    match H[p]? with
    | none => none
    | some nd =>
      match nd.m_subdirs.mapM (Store.view H fuel) with
      | some subdirs =>
        some (DirTree.mk nd.m_name nd.m_files subdirs nd.m_filesSize nd.m_subtreeSize)
      | none => none

/-- One item of a wildcard pattern. -/
inductive WildcardItem where
  | star
  | question
  | literal (c : Char)
deriving DecidableEq, Repr

/-- Class `QRegularExpression` of the Qt library, for the expressions `fromWildcard`
makes. -/
structure QRegularExpression where
  items : List WildcardItem
deriving DecidableEq, Repr

namespace QRegularExpression

/-- Library function `QRegularExpression::fromWildcard(pattern)` of Qt with its default
arguments, as the Qt documentation describes it: the expression is anchored at both ends
and case-insensitive, `*` stands for any run of characters other than the path separator
`/`, `?` for one such character, any other character for itself. Patterns with a bracket
expression or a backslash are outside the model (`none`). -/
def fromWildcard (pattern : String) : Option QRegularExpression :=
  if pattern.toList.any (fun c => c = '[' || c = ']' || c.toNat = 92) then none
  else some { items := pattern.toList.map (fun c =>
    if c = '*' then WildcardItem.star
    else if c = '?' then WildcardItem.question
    else WildcardItem.literal c) }

/-- The suffixes of a string that a `*` can leave: the string itself and what follows each
run of characters other than `/` at its start. -/
def starSuffixes : List Char → List (List Char)
  | [] => [[]]
  | c :: cs => if c = '/' then [c :: cs] else (c :: cs) :: starSuffixes cs

/-- Anchored match of a list of items against a string. -/
def matchItems : List WildcardItem → List Char → Bool
  | [], cs => cs.isEmpty
  | WildcardItem.star :: ps, cs => (starSuffixes cs).any (matchItems ps)
  | WildcardItem.question :: ps, cs =>
    match cs with
    | c :: cs => c ≠ '/' && matchItems ps cs
    | [] => false
  | WildcardItem.literal a :: ps, cs =>
    match cs with
    | c :: cs => a.toLower = c.toLower && matchItems ps cs
    | [] => false

/-- Expression `m_regex.match(subject).hasMatch()`. -/
def hasMatch (re : QRegularExpression) (subject : String) : Bool :=
  matchItems re.items subject.toList

end QRegularExpression

/-- Method `WildcardSearchWorker::process`: whether the node is added to the results. -/
def WildcardSearchWorker.process (m_regex : QRegularExpression) (tree : DirTree) : Bool :=
  m_regex.hasMatch tree.name

namespace SearchWorker

/-- State of one worker: its queue, front first, and the nodes passed to
`promise->addResult` so far, oldest first. -/
structure WorkerState where
  m_queue : List DirTree
  results : List DirTree

/-- Call `process(tree)` of a worker whose `process` adds the nodes that `isMatch`
accepts. -/
def process (isMatch : DirTree → Bool) (tree : DirTree) (st : WorkerState) : WorkerState :=
  if isMatch tree then { st with results := st.results ++ [tree] } else st

mutual
/-- Method `processChildren`, `capacity` being `m_queue.capacity()`. -/
def processChildren (isMatch : DirTree → Bool) (capacity : Nat) :
    DirTree → WorkerState → WorkerState
  | DirTree.mk _ _ m_subdirs _ _, st => processChildrenLoop isMatch capacity m_subdirs st
/-- Loop of `processChildren` over the children not yet handled. -/
def processChildrenLoop (isMatch : DirTree → Bool) (capacity : Nat) :
    List DirTree → WorkerState → WorkerState
  | [], st => st
  | child :: rest, st =>
    if st.m_queue.length < capacity then
      processChildrenLoop isMatch capacity rest { st with m_queue := st.m_queue ++ [child] }
    else
      processChildrenLoop isMatch capacity rest
        (processChildren isMatch capacity child (process isMatch child st))
end

/-- Loop of `run` while the promise is not cancelled and no other worker steals: the front
of the queue is taken, processed and its children handled, until the queue is empty, for at
most `fuel` iterations. -/
def drain (isMatch : DirTree → Bool) (capacity : Nat) : Nat → WorkerState → Option WorkerState
  | 0, st =>
    match st.m_queue with
    | [] => some st
    | _ :: _ => none
  | fuel + 1, st =>
    match st.m_queue with
    | [] => some st
    | t :: queue =>
      drain isMatch capacity fuel
        (processChildren isMatch capacity t (process isMatch t { st with m_queue := queue }))

end SearchWorker

/-- Filesystem of the search scenario: a root holding the directories `src` (which holds
`lib`), `docs` and `build`. -/
def searchScenario : FsEntry :=
  FsEntry.dir "work" true
    [FsEntry.dir "." true [], FsEntry.dir ".." true [],
     FsEntry.dir "src" true [FsEntry.dir "." true [], FsEntry.dir ".." true [],
       FsEntry.dir "lib" true [FsEntry.dir "." true [], FsEntry.dir ".." true []]],
     FsEntry.dir "docs" true [FsEntry.dir "." true [], FsEntry.dir ".." true []],
     FsEntry.dir "build" true [FsEntry.dir "." true [], FsEntry.dir ".." true []]]

/-- Tree of the search scenario, as the scanner builds it for the root path `/work`. -/
def searchTree : DirTree :=
  DirTree.mk "/work" []
    [DirTree.mk "src" [] [DirTree.mk "lib" [] [] 0 0] 0 0,
     DirTree.mk "docs" [] [] 0 0,
     DirTree.mk "build" [] [] 0 0] 0 0

/-- Tree of the tie scenario: a node with one direct file at time 5 and one child
directory holding one file at the same time 5; the sizes tell the two entries apart. -/
def tieTree : DirTree :=
  DirTree.mk "n" [⟨1, 5⟩] [DirTree.mk "c" [⟨2, 5⟩] [] 2 2] 1 3

/-- Method `SearchWorker::stealFrom(SearchWorker *thief)` run on the victim, between its
`lock()` and `unlock()`: the node handed to the thief, the queue of the victim and the value
of `busyCounter` afterwards (`fetchAndAddRelaxed(1)` on a successful steal). -/
def SearchWorker.stealFrom (m_queue : List DirTree) (busyCounter : Int) :
    Option DirTree × List DirTree × Int :=
  if m_queue.length > 1 then
    match m_queue with
    | p :: rest => (some p, rest, busyCounter + 1)
    | [] => (none, m_queue, busyCounter)
  else (none, m_queue, busyCounter)

/-- Store the scanner builds for the scan scenario: the root at address 0 with the file of
size 42 and the child `sub` at address 1. -/
def scannedStore : Store :=
  [{ DirNode.new with m_name := "root", m_files := [⟨42, 1000⟩], m_subdirs := [1],
                      m_filesSize := 42, m_subtreeSize := 42 },
   { DirNode.new with m_name := "sub", m_parent := some 0, m_parentPos := 0 }]

/-- Method `SplitMixRNG::rand` on the 64-bit state `m_state`: the value returned and the new
state. -/
def SplitMixRNG.rand (m_state : Nat) : Nat × Nat :=
  let m_state := (m_state + 0x9E3779B97F4A7C15) % 2 ^ 64
  let z := m_state
  let z := ((z ^^^ (z >>> 30)) * 0xBF58476D1CE4E5B9) % 2 ^ 64
  let z := ((z ^^^ (z >>> 27)) * 0x94D049BB133111EB) % 2 ^ 64
  (z ^^^ (z >>> 31), m_state)

namespace SearchWorker

/-- Loop `do { victim = m_rng.rand() % s; } while (victim == m_num);` of `run`, for at
most `fuel` iterations: the victim chosen and the state of the generator, or `none` when
the loop has not exited. -/
def selectVictim (s : Nat) (m_num : Nat) : Nat → Nat → Option (Nat × Nat)
  | 0, _ => none
  | fuel + 1, m_state =>
    let victim := (SplitMixRNG.rand m_state).1 % s
    if victim = m_num then selectVictim s m_num fuel (SplitMixRNG.rand m_state).2
    else some (victim, (SplitMixRNG.rand m_state).2)

/-- What `run` of one worker works on: its own state, the queues of all workers by their
number (the slot of the worker itself is not used), the busy counter, the state of its
random number generator and the number of polls of the cancellation flag made so far. -/
structure RunState where
  worker : WorkerState
  workers : List (List DirTree)
  busyCounter : Int
  m_rng : Nat
  polls : Nat

/-- Method `run` of the worker number `m_num` while the other workers stand still, for at
most `fuel` iterations of its loops: the state in which it calls `gracefulEnd()` and
returns, or `none` when it has not returned. -/
def run (isMatch : DirTree → Bool) (capacity : Nat) (isCanceled : Nat → Bool) (m_num : Nat) :
    Nat → RunState → Option RunState
  | 0, _ => none
  | fuel + 1, rs =>
    if isCanceled rs.polls then some { rs with polls := rs.polls + 1 }
    else
      match rs.worker.m_queue with
      | t :: queue =>
        let w := processChildren isMatch capacity t
          (process isMatch t { rs.worker with m_queue := queue })
        run isMatch capacity isCanceled m_num fuel
          { rs with worker := w, polls := rs.polls + 1,
                    busyCounter := if w.m_queue.isEmpty then rs.busyCounter - 1
                                   else rs.busyCounter }
      | [] =>
        match selectVictim rs.workers.length m_num fuel rs.m_rng with
        | none => none
        | some (victim, m_rng) =>
          match stealFrom (rs.workers.getD victim []) rs.busyCounter with
          | (some t, rest, busy) =>
            let w := processChildren isMatch capacity t (process isMatch t rs.worker)
            run isMatch capacity isCanceled m_num fuel
              { worker := w, workers := rs.workers.set victim rest, m_rng := m_rng,
                polls := rs.polls + 1,
                busyCounter := if w.m_queue.isEmpty then busy - 1 else busy }
          | (none, _, _) =>
            if rs.busyCounter = 0 then
              some { rs with m_rng := m_rng, polls := rs.polls + 1 }
            else
              run isMatch capacity isCanceled m_num fuel
                { rs with m_rng := m_rng, polls := rs.polls + 1 }

end SearchWorker

/-! Item model (dirmodel.cpp). -/

/-- Constant `HIGH`, the greatest `qint64`. -/
def HIGH : Int := 9223372036854775807

/-- Class `QModelIndex` of Qt: row, column, internal pointer (an address of the store, `none`
for null) and whether the index belongs to a model. Rows are the integer values of child
positions; the numbers of children are taken to fit the type `int`. -/
structure QModelIndex where
  r : Int
  c : Int
  i : Option Ptr
  m : Bool
deriving DecidableEq, Repr

namespace QModelIndex

/-- Method `QModelIndex::isValid`. -/
def isValid (x : QModelIndex) : Bool := decide (0 ≤ x.r) && decide (0 ≤ x.c) && x.m

/-- Default constructor `QModelIndex()`, the invalid index. -/
def invalid : QModelIndex := { r := -1, c := -1, i := none, m := false }

end QModelIndex

/-- Method `QAbstractItemModel::createIndex(row, column, ptr)`. -/
def createIndex (row column : Int) (ptr : Option Ptr) : QModelIndex :=
  { r := row, c := column, i := ptr, m := true }

/-- Enumeration `DirModel::IndexTarget`. -/
inductive IndexTarget where
  | INVALID
  | ITSELF
  | FILES
deriving DecidableEq, Repr

/-- Fields of class `DirModel` other than the reset time: the tree (an address of the
store), the two aggregates and the cache `m_charts`, a hash from indexes to charts kept as
a list of key and value with one entry per key. -/
structure DirModel where
  m_tree : Option Ptr
  m_chartsMin : Int
  m_chartsMax : Int
  m_charts : List (QModelIndex × AgeChart)

namespace DirModel

/-- Method `DirModel::reset`; the old tree is deleted, which the store does not show. -/
def reset (_self : DirModel) (newTree : Option Ptr) : DirModel :=
  { m_tree := newTree, m_chartsMin := HIGH, m_chartsMax := LOW, m_charts := [] }

/-- Method `DirModel::indexToDirTree` over the store `H`; a null pointer in the first
component of the pair is `none`. -/
def indexToDirTree (H : Store) (self : DirModel) (index : QModelIndex) :
    Option Ptr × IndexTarget :=
  if ¬ index.isValid then (none, IndexTarget.INVALID)
  else
    match index.i with
    | some inPtr =>
      if 0 ≤ index.r then
        match H[inPtr]? with
        | some nd =>
          if index.r < nd.m_subdirs.length then (nd.m_subdirs[index.r.toNat]?, IndexTarget.ITSELF)
          else if index.r = nd.m_subdirs.length then (some inPtr, IndexTarget.FILES)
          else (none, IndexTarget.INVALID)
        | none => (none, IndexTarget.INVALID)
      else (none, IndexTarget.INVALID)
    | none => (self.m_tree, IndexTarget.ITSELF)

/-- Method `DirModel::dirTreeToIndex` for the object at the address `tree`; `none` when
there is no object at that address. -/
def dirTreeToIndex (H : Store) (tree : Ptr) : Option QModelIndex :=
  match H[tree]? with
  | some nd => some (createIndex nd.m_parentPos 0 nd.m_parent)
  | none => none

/-- Method `DirModel::index`. -/
def index (H : Store) (self : DirModel) (row column : Int) (parent : QModelIndex) :
    QModelIndex :=
  if ¬ parent.isValid then createIndex row column none
  else
    match indexToDirTree H self parent with
    | (p, IndexTarget.ITSELF) => createIndex row column p
    | _ => QModelIndex.invalid

/-- Method `DirModel::parent`. -/
def parent (H : Store) (self : DirModel) (index : QModelIndex) : QModelIndex :=
  if ¬ index.isValid then QModelIndex.invalid
  else
    match indexToDirTree H self index with
    | (_, IndexTarget.INVALID) => QModelIndex.invalid
    | (some p, IndexTarget.FILES) =>
      match H[p]? with
      | some nd => createIndex nd.m_parentPos 0 nd.m_parent
      | none => QModelIndex.invalid
    | (none, IndexTarget.FILES) => QModelIndex.invalid
    | (p, IndexTarget.ITSELF) =>
      match p.bind (fun q => H[q]?) with
      | some nd =>
        match nd.m_parent.bind (fun pp => H[pp]?) with
        | some ppn => createIndex ppn.m_parentPos 0 ppn.m_parent
        | none => QModelIndex.invalid
      | none => QModelIndex.invalid

/-- Method `QModelIndex::siblingAtColumn` of Qt for an index of this model:
`QAbstractItemModel::sibling` returns the index itself when the column is the same, and
`index(row, column, parent(idx))` otherwise. -/
def siblingAtColumn (H : Store) (self : DirModel) (idx : QModelIndex) (column : Int) :
    QModelIndex :=
  if idx.m then
    if idx.c = column then idx else index H self idx.r column (parent H self idx)
  else QModelIndex.invalid

/-- Assignment `m_charts[key] = chart` of the hash. -/
def chartsInsert (charts : List (QModelIndex × AgeChart)) (key : QModelIndex)
    (chart : AgeChart) : List (QModelIndex × AgeChart) :=
  if charts.any (fun kv => kv.1 = key) then
    charts.map (fun kv => if kv.1 = key then (key, chart) else kv)
  else charts ++ [(key, chart)]

/-- Method `DirModel::calculated`; the signal `dataChanged` is not part of the state. -/
def calculated (H : Store) (self : DirModel) (index : QModelIndex) (chart : AgeChart) :
    DirModel :=
  if chart.valid then
    let m_charts := chartsInsert self.m_charts (siblingAtColumn H self index 0) chart
    let m_chartsMin :=
      if self.m_chartsMin > chart.lowerWhisker then chart.lowerWhisker else self.m_chartsMin
    let m_chartsMax :=
      if self.m_chartsMax < chart.upperWhisker then chart.upperWhisker else self.m_chartsMax
    { self with m_charts := m_charts, m_chartsMin := m_chartsMin, m_chartsMax := m_chartsMax }
  else self

/-- Method `DirModel::isChartCached`. -/
def isChartCached (self : DirModel) (index : QModelIndex) : Bool :=
  self.m_charts.any (fun kv => kv.1 = index)

/-- A sequence of calls of `calculated`, oldest first. -/
def calculatedAll (H : Store) (self : DirModel) (calls : List (QModelIndex × AgeChart)) :
    DirModel :=
  calls.foldl (fun a x => calculated H a x.1 x.2) self

end DirModel

/-- Nodes of the tree with the root `root`: the root and the children of its nodes. -/
inductive Store.InTree (H : Store) (root : Ptr) : Ptr → Prop
  | root : Store.InTree H root root
  | child (n t : Ptr) (nd : DirNode) (i : Nat) (hn : Store.InTree H root n)
      (hnd : H[n]? = some nd) (hi : nd.m_subdirs[i]? = some t) : Store.InTree H root t

namespace ScanWorker

/-- Body of one iteration of the loop `while (!stack.empty())` of `scanPriv` after the
cancellation test and the two `pop()` calls: `opendir`, the `readdir` loop and `finalize`
for the directory object `top`. -/
def visitDir (isCanceled : Nat → Bool) (top : Ptr) (dirEnt : FsEntry) (st : ScanState) :
    EntriesResult :=
  match dirEnt.opendir with
  | none =>
    EntriesResult.done
      { st with progress := { st.progress with numErrors := st.progress.numErrors + 1 } }
  | some entries =>
    match scanEntries isCanceled top entries st with
    | EntriesResult.done st2 =>
      match Store.finalize st2.store top with
      | some H2 => EntriesResult.done { st2 with store := H2 }
      | none => EntriesResult.stuck
    | EntriesResult.canceled st2 => EntriesResult.canceled st2
    | EntriesResult.stuck => EntriesResult.stuck

/-- States in which `scanPriv`, called for the root path `m_rootPath` holding `root`, is at
the head of its outer loop: the state before the first iteration, and the state after
each iteration that ran to its end. -/
inductive Reached (isCanceled : Nat → Bool) (m_rootPath : String) (root : FsEntry) :
    ScanState → Prop
  | start : Reached isCanceled m_rootPath root
      { store := [{ DirNode.new with m_name := m_rootPath }]
        stack := [(0, root)]
        progress := { numFiles := 0, numDirs := 0, numSkipped := 0, numErrors := 0 }
        polls := 0
        visited := [] }
  | next (st st2 : ScanState) (top : Ptr) (dirEnt : FsEntry) (rest : List (Ptr × FsEntry))
      (h : Reached isCanceled m_rootPath root st) (hs : st.stack = (top, dirEnt) :: rest)
      (hc : isCanceled st.polls = false)
      (hv : visitDir isCanceled top dirEnt
        { st with stack := rest, polls := st.polls + 1, visited := st.visited ++ [top] } =
        EntriesResult.done st2) : Reached isCanceled m_rootPath root st2

/-- Stacked directory objects are pairwise distinct and still empty: nothing is added to an
object before it is taken off the stack. -/
def Fresh (st : ScanState) : Prop :=
  (st.stack.map Prod.fst).Nodup ∧
  ∀ pe ∈ st.stack, ∃ nd : DirNode, st.store[pe.1]? = some nd ∧ nd.m_files = [] ∧
    nd.m_subdirs = []

end ScanWorker

/-- Depth of the object at `p`: the number of `m_parent` links above it, followed for at
most `fuel` links. -/
def Store.depth (H : Store) : Nat → Ptr → Nat
  | 0, _ => 0
  | fuel + 1, p =>
    match H[p]? with
    | some nd =>
      match nd.m_parent with
      | some q => Store.depth H fuel q + 1
      | none => 0
    | none => 0

/-- Filesystem of the walk scenario: the root holds the directories `a` (empty) and `b`,
read in this order, and `b` holds the directory `b1`. -/
def walkScenario : FsEntry :=
  FsEntry.dir "r" true
    [FsEntry.dir "a" true [], FsEntry.dir "b" true [FsEntry.dir "b1" true []]]

/-- Filesystem of the scenario of a directory that cannot be opened: the root holds the
file `f` of size 7, the directory `open` holding the file `g` of size 3, and the directory
`locked`, for which `opendir` fails. -/
def lockedScenario : FsEntry :=
  FsEntry.dir "r" true
    [FsEntry.file "f" 7 100, FsEntry.dir "open" true [FsEntry.file "g" 3 200],
     FsEntry.dir "locked" false [FsEntry.file "hidden" 9 50]]

/-- State of the scan of the locked scenario at the head of the outer loop after the root
was read: the directories `open` (address 1) and `locked` (address 2) are stacked, `locked`
on top. -/
def lockedState : ScanState :=
  { store := [{ DirNode.new with m_name := "/r", m_files := [⟨7, 100⟩], m_subdirs := [1, 2],
                                 m_filesSize := 7, m_subtreeSize := 7 },
              { DirNode.new with m_name := "open", m_parent := some 0, m_parentPos := 0 },
              { DirNode.new with m_name := "locked", m_parent := some 0, m_parentPos := 1 }]
    stack := [(2, FsEntry.dir "locked" false [FsEntry.file "hidden" 9 50]),
              (1, FsEntry.dir "open" true [FsEntry.file "g" 3 200])]
    progress := { numFiles := 1, numDirs := 2, numSkipped := 0, numErrors := 0 }
    polls := 4
    visited := [0] }

/-- Expression `p->name()` for the object at the address `p`, the empty string when there is
no object. -/
def Store.nameAt (H : Store) (p : Ptr) : String :=
  match H[p]? with
  | some nd => nd.m_name
  | none => ""

namespace FsEntry

mutual
/-- Depth-first order of opening below a list of directory entries, as names: the
directories among the entries, `.` and `..` left out, are taken last first, each followed by
what is below it. -/
def walkRev : List FsEntry → List String
  | [] => []
  | e :: es => if e.name = "." ∨ e.name = ".." then walkRev es else walkRev es ++ walkEntry e
/-- Depth-first order of opening for one directory entry: its name, then what is below it
when it can be opened; nothing for an entry that is not a directory. -/
def walkEntry : FsEntry → List String
  | dir n true entries => n :: walkRev entries
  | dir n false _ => [n]
  | statError _ => []
  | file _ _ _ => []
  | other _ => []
end

/-- Depth-first order of opening for a directory known under the name `nm`: the
directory itself, then what is below it when it can be opened. -/
def walkFrom (nm : String) (e : FsEntry) : List String :=
  nm :: (match e.opendir with
         | some entries => walkRev entries
         | none => [])

end FsEntry

/-- Depth-first order of opening for the stacked directories, the top of the stack first,
each known under the name of its object in the store. -/
def ScanWorker.stackWalk (H : Store) (stack : List (Ptr × FsEntry)) : List String :=
  stack.flatMap (fun pe => FsEntry.walkFrom (H.nameAt pe.1) pe.2)

/-! Theorems. -/
namespace StdHeap

section lemmas
variable {α : Type}

theorem length_swapAt (xs : List α) (i j : Nat) : (swapAt xs i j).length = xs.length := by
  unfold swapAt
  split <;> simp

theorem getElem?_swapAt (xs : List α) (i j k : Nat) (hi : i < xs.length) (hj : j < xs.length) :
    (swapAt xs i j)[k]? = if k = j then xs[i]? else if k = i then xs[j]? else xs[k]? := by
  unfold swapAt
  rw [List.getElem?_eq_getElem hi, List.getElem?_eq_getElem hj]
  simp only [List.getElem?_set, List.length_set]
  by_cases h1 : j = k
  · subst h1; simp [hj]
  · by_cases h2 : i = k
    · subst h2; simp [h1, hi, Ne.symm h1]
    · simp [h1, h2, Ne.symm h1, Ne.symm h2]

theorem set_perm_cons (t : List α) (j : Nat) (b x : α) (h : t[j]? = some b) :
    (b :: t.set j x).Perm (x :: t) := by
  induction t generalizing j with
  | nil => simp at h
  | cons y t ih =>
    cases j with
    | zero =>
      simp at h; subst h
      exact List.Perm.swap _ _ _
    | succ j =>
      simp at h
      have := ih j h
      simp only [List.set_cons_succ]
      exact (List.Perm.swap y b _).trans ((this.cons y).trans (List.Perm.swap x y t))

theorem set_set_perm (xs : List α) (i j : Nat) (a b : α) (ha : xs[i]? = some a)
    (hb : xs[j]? = some b) : ((xs.set i b).set j a).Perm xs := by
  induction xs generalizing i j with
  | nil => simp at ha
  | cons x t ih =>
    cases i with
    | zero =>
      cases j with
      | zero => simp at ha hb; subst ha; subst hb; simp
      | succ j =>
        simp at ha hb; subst ha
        simpa using set_perm_cons t j b x hb
    | succ i =>
      cases j with
      | zero =>
        simp at ha hb; subst hb
        simpa using set_perm_cons t i a x ha
      | succ j =>
        simp at ha hb
        simpa using ih i j ha hb

theorem swapAt_perm (xs : List α) (i j : Nat) : (swapAt xs i j).Perm xs := by
  unfold swapAt
  split
  · rename_i a b ha hb
    exact set_set_perm xs i j a b ha hb
  · exact List.Perm.refl _

theorem compAt_true {comp : α → α → Bool} {xs : List α} {i j : Nat}
    (h : compAt comp xs i j = true) :
    ∃ a b, xs[i]? = some a ∧ xs[j]? = some b ∧ comp a b = true := by
  unfold compAt at h
  split at h
  · rename_i a b ha hb; exact ⟨a, b, ha, hb, h⟩
  · simp at h

theorem compAt_false {comp : α → α → Bool} {xs : List α} {i j : Nat}
    (h : ¬ compAt comp xs i j = true) (a b : α) (ha : xs[i]? = some a) (hb : xs[j]? = some b) :
    comp a b = false := by
  unfold compAt at h
  rw [ha, hb] at h
  simpa using h

theorem lt_length_of_getElem? {xs : List α} {i : Nat} {a : α} (h : xs[i]? = some a) :
    i < xs.length := by
  by_contra hn
  rw [List.getElem?_eq_none (by omega)] at h
  simp at h

theorem siftUp_heap (key : α → Int) (comp : α → α → Bool)
    (hc : ∀ a b, comp a b = true ↔ key b < key a) (n : Nat) :
    ∀ (fuel : Nat) (xs : List α) (i : Nat), i ≤ fuel →
      (∀ p c a b, (c = 2 * p + 1 ∨ c = 2 * p + 2) → c < n → c ≠ i →
        xs[p]? = some a → xs[c]? = some b → key a ≤ key b) →
      (∀ p c a b, (i = 2 * p + 1 ∨ i = 2 * p + 2) → (c = 2 * i + 1 ∨ c = 2 * i + 2) → c < n →
        xs[p]? = some a → xs[c]? = some b → key a ≤ key b) →
      IsHeapN key n (siftUp comp fuel xs i) := by
  intro fuel
  induction fuel with
  | zero =>
    intro xs i hi U1 _
    have : i = 0 := by omega
    subst this
    intro p c a b hch hcn ha hb
    exact U1 p c a b hch hcn (by omega) ha hb
  | succ fuel ih =>
    intro xs i hi U1 U2
    unfold siftUp
    by_cases hi0 : i = 0
    · simp only [hi0, if_true]
      subst hi0
      intro p c a b hch hcn ha hb
      exact U1 p c a b hch hcn (by omega) ha hb
    · simp only [hi0, if_false]
      by_cases hcmp : compAt comp xs ((i - 1) / 2) i = true
      · simp only [hcmp, if_true]
        obtain ⟨a0, v0, hpa, hiv, hcav⟩ := compAt_true hcmp
        have hlt : key v0 < key a0 := (hc a0 v0).1 hcav
        have hpl := lt_length_of_getElem? hpa
        have hil := lt_length_of_getElem? hiv
        have hgi : (swapAt xs ((i - 1) / 2) i)[i]? = some a0 := by
          rw [getElem?_swapAt xs _ _ _ hpl hil, if_pos rfl, hpa]
        have hgp : (swapAt xs ((i - 1) / 2) i)[(i - 1) / 2]? = some v0 := by
          rw [getElem?_swapAt xs _ _ _ hpl hil, if_neg (by omega), if_pos rfl, hiv]
        have hgo : ∀ k, k ≠ i → k ≠ (i - 1) / 2 → (swapAt xs ((i - 1) / 2) i)[k]? = xs[k]? := by
          intro k h1 h2
          rw [getElem?_swapAt xs _ _ _ hpl hil, if_neg h1, if_neg h2]
        apply ih _ _ (by omega)
        · intro q c a b hch hcn hcp hq hcg
          by_cases hci : c = i
          · have hqp : q = (i - 1) / 2 := by omega
            subst hci; subst hqp
            rw [hgi] at hcg; rw [hgp] at hq
            cases hcg; cases hq; omega
          · rw [hgo c hci hcp] at hcg
            by_cases hqi : q = i
            · subst hqi
              rw [hgi] at hq
              rw [← Option.some.inj hq]
              exact U2 ((q - 1) / 2) c a0 b (by omega) (by omega) hcn hpa hcg
            · by_cases hqp : q = (i - 1) / 2
              · subst hqp
                rw [hgp] at hq; cases hq
                have := U1 ((i - 1) / 2) c a0 b (by omega) hcn hci hpa hcg
                omega
              · rw [hgo q hqi hqp] at hq
                exact U1 q c a b hch hcn hci hq hcg
        · intro q c a b hq1 hc1 hcn hq hcg
          have hqi : q ≠ i := by omega
          have hqp : q ≠ (i - 1) / 2 := by omega
          rw [hgo q hqi hqp] at hq
          have hcp : c ≠ (i - 1) / 2 := by omega
          have h1 := U1 q ((i - 1) / 2) a a0 (by omega) (by omega) (by omega) hq hpa
          by_cases hci : c = i
          · subst hci
            rw [hgi] at hcg; cases hcg; exact h1
          · rw [hgo c hci hcp] at hcg
            have h2 := U1 ((i - 1) / 2) c a0 b (by omega) hcn hci hpa hcg
            omega
      · simp only [hcmp]
        intro p c a b hch hcn ha hb
        by_cases hci : c = i
        · subst hci
          have hp : p = (c - 1) / 2 := by omega
          subst hp
          have := compAt_false hcmp a b ha hb
          have h2 := (hc a b).not.1 (by simp [this])
          omega
        · exact U1 p c a b hch hcn hci ha hb

theorem siftDown_heap (key : α → Int) (comp : α → α → Bool)
    (hc : ∀ a b, comp a b = true ↔ key b < key a) (n : Nat) :
    ∀ (fuel : Nat) (xs : List α) (i : Nat), n ≤ fuel + i →
      (∀ p c a b, (c = 2 * p + 1 ∨ c = 2 * p + 2) → c < n → p ≠ i →
        xs[p]? = some a → xs[c]? = some b → key a ≤ key b) →
      (∀ p c a b, (i = 2 * p + 1 ∨ i = 2 * p + 2) → (c = 2 * i + 1 ∨ c = 2 * i + 2) → c < n →
        xs[p]? = some a → xs[c]? = some b → key a ≤ key b) →
      IsHeapN key n (siftDown comp fuel xs i n) := by
  intro fuel
  induction fuel with
  | zero =>
    intro xs i hi D1 _
    intro p c a b hch hcn ha hb
    exact D1 p c a b hch hcn (by omega) ha hb
  | succ fuel ih =>
    intro xs i hi D1 D2
    -- the swap case, for a chosen child `m`
    have swapCase : ∀ m a0 v0, (m = 2 * i + 1 ∨ m = 2 * i + 2) → m < n →
        xs[i]? = some a0 → xs[m]? = some v0 → key v0 < key a0 →
        (∀ c b, (c = 2 * i + 1 ∨ c = 2 * i + 2) → c < n → xs[c]? = some b → key v0 ≤ key b) →
        IsHeapN key n (siftDown comp fuel (swapAt xs i m) m n) := by
      intro m a0 v0 hm hmn hia hmv hlt hmin
      have hil := lt_length_of_getElem? hia
      have hml := lt_length_of_getElem? hmv
      have hgm : (swapAt xs i m)[m]? = some a0 := by
        rw [getElem?_swapAt xs _ _ _ hil hml, if_pos rfl, hia]
      have hgi : (swapAt xs i m)[i]? = some v0 := by
        rw [getElem?_swapAt xs _ _ _ hil hml, if_neg (by omega), if_pos rfl, hmv]
      have hgo : ∀ k, k ≠ m → k ≠ i → (swapAt xs i m)[k]? = xs[k]? := by
        intro k h1 h2
        rw [getElem?_swapAt xs _ _ _ hil hml, if_neg h1, if_neg h2]
      apply ih _ _ (by omega)
      · intro q c a b hch hcn hqm hq hcg
        by_cases hqi : q = i
        · subst hqi
          rw [hgi] at hq
          rw [← Option.some.inj hq]
          by_cases hcm : c = m
          · subst hcm
            rw [hgm] at hcg
            rw [← Option.some.inj hcg]; omega
          · rw [hgo c hcm (by omega)] at hcg
            exact hmin c b hch hcn hcg
        · rw [hgo q hqm hqi] at hq
          have hcm : c ≠ m := by omega
          by_cases hci : c = i
          · subst hci
            rw [hgi] at hcg
            rw [← Option.some.inj hcg]
            exact D2 q m a v0 hch hm hmn hq hmv
          · rw [hgo c hcm hci] at hcg
            exact D1 q c a b hch hcn hqi hq hcg
      · intro q c a b hq1 hc1 hcn hq hcg
        have hqi : q = i := by omega
        subst hqi
        rw [hgi] at hq
        rw [← Option.some.inj hq]
        rw [hgo c (by omega) (by omega)] at hcg
        exact D1 m c v0 b hc1 hcn (by omega) hmv hcg
    unfold siftDown
    simp only [topOfThree]
    by_cases h1 : 2 * i + 1 < n ∧ compAt comp xs i (2 * i + 1) = true
    · obtain ⟨a0, v1, hia, hlv, hcl⟩ := compAt_true h1.2
      have hlt1 : key v1 < key a0 := (hc _ _).1 hcl
      by_cases h2 : 2 * i + 2 < n ∧ compAt comp xs (2 * i + 1) (2 * i + 2) = true
      · obtain ⟨v1b, v2, hlv2, hrv, hcr⟩ := compAt_true h2.2
        have hlt2 : key v2 < key v1b := (hc _ _).1 hcr
        rw [hlv] at hlv2; cases hlv2
        simp only [h1, h2, and_self, if_true]
        rw [if_neg (by omega)]
        apply swapCase _ a0 v2 (Or.inr rfl) h2.1 hia hrv (by omega)
        intro c b hch hcn hcg
        rcases hch with hch | hch
        · subst hch; rw [hlv] at hcg; cases hcg; omega
        · subst hch; rw [hrv] at hcg; cases hcg; omega
      · simp only [h1, h2, and_self, if_true, if_false]
        rw [if_neg (by omega)]
        apply swapCase _ a0 v1 (Or.inl rfl) h1.1 hia hlv hlt1
        intro c b hch hcn hcg
        rcases hch with hch | hch
        · subst hch; rw [hlv] at hcg; cases hcg; omega
        · subst hch
          have hnc : ¬ compAt comp xs (2 * i + 1) (2 * i + 2) = true := fun h => h2 ⟨hcn, h⟩
          have := compAt_false hnc v1 b hlv hcg
          have h3 := (hc v1 b).not.1 (by simp [this])
          omega
    · by_cases h2 : 2 * i + 2 < n ∧ compAt comp xs i (2 * i + 2) = true
      · obtain ⟨a0, v2, hia, hrv, hcr⟩ := compAt_true h2.2
        have hlt2 : key v2 < key a0 := (hc _ _).1 hcr
        simp only [h1, h2, and_self, if_true, if_false]
        rw [if_neg (by omega)]
        apply swapCase _ a0 v2 (Or.inr rfl) h2.1 hia hrv hlt2
        intro c b hch hcn hcg
        rcases hch with hch | hch
        · subst hch
          have hnc : ¬ compAt comp xs i (2 * i + 1) = true := fun h => h1 ⟨hcn, h⟩
          have := compAt_false hnc a0 b hia hcg
          have h3 := (hc a0 b).not.1 (by simp [this])
          omega
        · subst hch; rw [hrv] at hcg; cases hcg; omega
      · simp only [h1, h2, if_false, if_true]
        intro p c a b hch hcn ha hb
        by_cases hpi : p = i
        · subst hpi
          rcases hch with hch | hch
          · subst hch
            have hnc : ¬ compAt comp xs p (2 * p + 1) = true := fun h => h1 ⟨hcn, h⟩
            have := compAt_false hnc a b ha hb
            have h3 := (hc a b).not.1 (by simp [this])
            omega
          · subst hch
            have hnc : ¬ compAt comp xs p (2 * p + 2) = true := fun h => h2 ⟨hcn, h⟩
            have := compAt_false hnc a b ha hb
            have h3 := (hc a b).not.1 (by simp [this])
            omega
        · exact D1 p c a b hch hcn hpi ha hb

theorem siftUp_perm (comp : α → α → Bool) :
    ∀ (fuel : Nat) (xs : List α) (i : Nat), (siftUp comp fuel xs i).Perm xs := by
  intro fuel
  induction fuel with
  | zero => intro xs i; exact List.Perm.refl _
  | succ fuel ih =>
    intro xs i
    unfold siftUp
    split
    · exact List.Perm.refl _
    · split
      · exact (ih _ _).trans (swapAt_perm _ _ _)
      · exact List.Perm.refl _

theorem siftDown_perm (comp : α → α → Bool) (n : Nat) :
    ∀ (fuel : Nat) (xs : List α) (i : Nat), (siftDown comp fuel xs i n).Perm xs := by
  intro fuel
  induction fuel with
  | zero => intro xs i; exact List.Perm.refl _
  | succ fuel ih =>
    intro xs i
    unfold siftDown
    simp only
    split
    · exact List.Perm.refl _
    · exact (ih _ _).trans (swapAt_perm _ _ _)

theorem topOfThree_lt (comp : α → α → Bool) (xs : List α) (i n : Nat) (hi : i < n) :
    topOfThree comp xs i n < n := by
  unfold topOfThree
  simp only
  by_cases h2 : 2 * i + 2 < n ∧ compAt comp xs
      (if 2 * i + 1 < n ∧ compAt comp xs i (2 * i + 1) = true then 2 * i + 1 else i)
      (2 * i + 2) = true
  · rw [if_pos h2]; exact h2.1
  · rw [if_neg h2]
    by_cases h1 : 2 * i + 1 < n ∧ compAt comp xs i (2 * i + 1) = true
    · rw [if_pos h1]; exact h1.1
    · rw [if_neg h1]; exact hi

theorem le_topOfThree (comp : α → α → Bool) (xs : List α) (i n : Nat) :
    i ≤ topOfThree comp xs i n := by
  unfold topOfThree
  simp only
  by_cases h2 : 2 * i + 2 < n ∧ compAt comp xs
      (if 2 * i + 1 < n ∧ compAt comp xs i (2 * i + 1) = true then 2 * i + 1 else i)
      (2 * i + 2) = true
  · rw [if_pos h2]; omega
  · rw [if_neg h2]
    by_cases h1 : 2 * i + 1 < n ∧ compAt comp xs i (2 * i + 1) = true
    · rw [if_pos h1]; omega
    · rw [if_neg h1]

theorem siftDown_getElem?_ge (comp : α → α → Bool) (n : Nat) :
    ∀ (fuel : Nat) (xs : List α) (i k : Nat), i < n → n ≤ k →
      (siftDown comp fuel xs i n)[k]? = xs[k]? := by
  intro fuel
  induction fuel with
  | zero => intro xs i k _ _; rfl
  | succ fuel ih =>
    intro xs i k hi hk
    unfold siftDown
    simp only
    have hmn := topOfThree_lt comp xs i n hi
    split
    · rfl
    · rw [ih _ _ _ hmn hk]
      unfold swapAt
      split
      · rw [List.getElem?_set_ne (by omega), List.getElem?_set_ne (by omega)]
      · rfl

theorem push_heap_perm (comp : α → α → Bool) (xs : List α) : (push_heap comp xs).Perm xs :=
  siftUp_perm comp _ _ _

theorem pop_heap_perm (comp : α → α → Bool) (xs : List α) : (pop_heap comp xs).Perm xs := by
  unfold pop_heap
  split
  · exact List.Perm.refl _
  · exact (siftDown_perm comp _ _ _ _).trans (swapAt_perm _ _ _)

theorem push_heap_isHeap (key : α → Int) (comp : α → α → Bool)
    (hc : ∀ a b, comp a b = true ↔ key b < key a) (xs : List α) (x : α)
    (h : IsHeap key xs) : IsHeap key (push_heap comp (xs ++ [x])) := by
  unfold IsHeap
  rw [(push_heap_perm comp (xs ++ [x])).length_eq]
  unfold push_heap
  apply siftUp_heap key comp hc _ _ _ _ (by omega)
  · intro p c a b hch hcn hci ha hb
    simp only [List.length_append, List.length_singleton, Nat.add_sub_cancel] at hcn hci
    rw [List.getElem?_append_left (by omega)] at ha hb
    exact h p c a b hch (by omega) ha hb
  · intro p c a b _ hc1 hcn _ _
    simp only [List.length_append, List.length_singleton, Nat.add_sub_cancel] at hcn hc1
    omega

theorem pop_heap_cons (key : α → Int) (comp : α → α → Bool)
    (hc : ∀ a b, comp a b = true ↔ key b < key a) (x : α) (xs : List α) :
    (pop_heap comp (x :: xs)).getLast? = some x ∧
    ((pop_heap comp (x :: xs)).dropLast).Perm xs ∧
    (IsHeap key (x :: xs) → IsHeap key (pop_heap comp (x :: xs)).dropLast) := by
  have hperm := pop_heap_perm comp (x :: xs)
  have hlen := hperm.length_eq
  have hlast : (pop_heap comp (x :: xs)).getLast? = some x := by
    unfold pop_heap
    split
    · rename_i h
      have : xs = [] := by
        cases xs with
        | nil => rfl
        | cons y t => simp at h
      subst this; rfl
    · rename_i h
      simp only [List.length_cons] at h ⊢
      rw [List.getLast?_eq_getElem?]
      have hl : (siftDown comp (xs.length + 1) (swapAt (x :: xs) 0 (xs.length + 1 - 1)) 0
          (xs.length + 1 - 1)).length = xs.length + 1 := by
        rw [(siftDown_perm comp _ _ _ _).length_eq, length_swapAt]; simp
      rw [hl, siftDown_getElem?_ge comp _ _ _ _ _ (by omega) (by omega),
        getElem?_swapAt _ _ _ _ (by simp) (by simp), if_pos rfl]
      simp
  have hsplit := List.dropLast_append_getLast? x hlast
  refine ⟨hlast, ?_, ?_⟩
  · have h1 : ((pop_heap comp (x :: xs)).dropLast ++ [x]).Perm (x :: xs) := by
      rw [hsplit]; exact hperm
    have h2 : (x :: (pop_heap comp (x :: xs)).dropLast).Perm (x :: xs) :=
      (List.perm_append_singleton x _).symm.trans h1
    exact (List.perm_cons x).1 h2
  · intro hheap
    have hN : IsHeapN key ((x :: xs).length - 1) (pop_heap comp (x :: xs)) := by
      unfold pop_heap
      split
      · intro p c a b hch hcn _ _
        omega
      · apply siftDown_heap key comp hc _ _ _ _ (by omega)
        · intro p c a b hch hcn hp ha hb
          rw [getElem?_swapAt _ _ _ _ (by simp) (by simp)] at ha hb
          rw [if_neg (by omega), if_neg hp] at ha
          rw [if_neg (by omega), if_neg (by omega)] at hb
          exact hheap p c a b hch (by omega) ha hb
        · intro p c a b hp _ _ _ _
          omega
    intro p c a b hch hcn ha hb
    simp only [List.length_dropLast] at hcn
    rw [← hsplit] at hN
    refine hN p c a b hch (by rw [← hlen]; exact hcn) ?_ ?_
    · rw [List.getElem?_append_left (by simp; omega)]; exact ha
    · rw [List.getElem?_append_left (by simp; omega)]; exact hb

theorem isHeap_root_le (key : α → Int) (x : α) (xs : List α) (h : IsHeap key (x :: xs)) :
    ∀ (k : Nat) (b : α), (x :: xs)[k]? = some b → key x ≤ key b := by
  intro k
  induction k using Nat.strong_induction_on with
  | _ k ih =>
    intro b hb
    by_cases hk : k = 0
    · subst hk; simp at hb; subst hb; exact le_refl _
    · have hkl := lt_length_of_getElem? hb
      have hpl : (k - 1) / 2 < (x :: xs).length := by omega
      have hpa := List.getElem?_eq_getElem hpl
      have h1 := ih ((k - 1) / 2) (by omega) _ hpa
      have h2 := h ((k - 1) / 2) k _ b (by omega) hkl hpa hb
      omega

theorem isHeap_head_le (key : α → Int) (x : α) (xs : List α) (h : IsHeap key (x :: xs)) :
    ∀ y ∈ xs, key x ≤ key y := by
  intro y hy
  obtain ⟨k, hk, hky⟩ := List.getElem_of_mem hy
  apply isHeap_root_le key x xs h (k + 1) y
  simp [List.getElem?_eq_getElem hk, hky]

end lemmas
end StdHeap
namespace DirTree
namespace iterator

theorem remainingAll_eq_flatMap (ss : List iterator) :
    remainingAll ss = ss.flatMap remaining := by
  induction ss with
  | nil => simp [remainingAll]
  | cons s ss ih => simp [remainingAll, ih]

theorem remainingAll_perm {a b : List iterator} (h : a.Perm b) :
    (remainingAll a).Perm (remainingAll b) := by
  rw [remainingAll_eq_flatMap, remainingAll_eq_flatMap]
  exact h.flatMap_right _

theorem remainingAll_append (a b : List iterator) :
    remainingAll (a ++ b) = remainingAll a ++ remainingAll b := by
  simp [remainingAll_eq_flatMap]

theorem mem_remainingAll {g : FileInfo} {ss : List iterator} :
    g ∈ remainingAll ss ↔ ∃ s ∈ ss, g ∈ remaining s := by
  simp [remainingAll_eq_flatMap]

theorem remaining_eq (i : iterator) : i.remaining = i.cur.toList ++ i.pending := by
  cases i with
  | mk t c subs pos => simp [remaining, pending, cur, tree, iterator.pos, iterator.subs]

theorem pending_mk (t : DirTree) (c : Option FileInfo) (subs : List iterator) (pos : Nat) :
    (mk t c subs pos).pending = t.files.drop pos ++ remainingAll subs := rfl

theorem time_of_cur {s : iterator} {f : FileInfo} (h : s.cur = some f) : s.time = f.time := by
  simp [time, h]

theorem comp_iff (a b : iterator) : heap_comp_asc_time a b = true ↔ b.time < a.time := by
  simp [heap_comp_asc_time]

theorem drop_of_getElem? {l : List FileInfo} {pos : Nat} {f : FileInfo} (h : l[pos]? = some f) :
    l.drop pos = f :: l.drop (pos + 1) := by
  have hl := StdHeap.lt_length_of_getElem? h
  rw [List.getElem?_eq_getElem hl] at h
  rw [List.drop_eq_getElem_cons hl, Option.some.inj h]

theorem drop_of_getElem?_none {l : List FileInfo} {pos : Nat} (h : l[pos]? = none) :
    l.drop pos = [] := by
  rw [List.getElem?_eq_none_iff] at h
  exact List.drop_eq_nil_of_le h

end iterator
end DirTree
namespace DirTree
namespace iterator

theorem cur_mk (t : DirTree) (c : Option FileInfo) (subs : List iterator) (pos : Nat) :
    (mk t c subs pos).cur = c := rfl

theorem front_le_remaining {s : iterator} {fs : FileInfo} (hc : s.cur = some fs)
    (hfr : ∀ g ∈ s.pending, fs.time ≤ g.time) : ∀ g ∈ s.remaining, fs.time ≤ g.time := by
  intro g hg
  rw [remaining_eq, hc] at hg
  simp at hg
  rcases hg with hg | hg
  · subst hg; exact le_refl _
  · exact hfr g hg

/-- Specification of one `operator++` step on an iterator in a good state. -/
theorem next_spec (i : iterator) (h : WF i) :
    WF (next i) ∧ ((next i).remaining).Perm i.pending ∧
    (∀ f, (next i).cur = some f → ∀ g ∈ (next i).pending, f.time ≤ g.time) ∧
    ((next i).cur = none → i.pending = []) := by
  induction h with
  | mk t c subs pos hsorted hheap hsub hfront ih =>
    cases subs with
    | nil =>
      rw [next]
      cases hf : t.files[pos]? with
      | none =>
        simp only
        have hd := drop_of_getElem?_none hf
        refine ⟨WF.mk _ _ _ _ hsorted hheap hsub hfront, ?_, ?_, ?_⟩
        · simp [remaining, pending_mk, hd, remainingAll]
        · intro f hc; simp [cur] at hc
        · intro _; simp [pending_mk, hd, remainingAll]
      | some f =>
        simp only
        have hd := drop_of_getElem? hf
        have hs : timeSorted (f :: t.files.drop (pos + 1)) := by rw [← hd]; exact hsorted
        refine ⟨WF.mk _ _ _ _ (List.Pairwise.of_cons hs) hheap hsub hfront, ?_, ?_, ?_⟩
        · simp [remaining, pending_mk, hd, remainingAll]
        · intro f2 hc g hg
          simp [cur] at hc; subst hc
          simp [pending_mk, remainingAll] at hg
          exact List.rel_of_pairwise_cons hs hg
        · intro hc; simp [cur] at hc
    | cons best rest =>
      obtain ⟨fb, hbc, hbfront⟩ := hfront best (List.mem_cons_self _ _)
      have hbt : best.time = fb.time := time_of_cur hbc
      have hrest : ∀ g ∈ remainingAll rest, fb.time ≤ g.time := by
        intro g hg
        obtain ⟨s, hs, hgs⟩ := mem_remainingAll.1 hg
        obtain ⟨fs, hsc, hsfront⟩ := hfront s (List.mem_cons_of_mem _ hs)
        have h1 := StdHeap.isHeap_head_le time best rest hheap s hs
        rw [hbt, time_of_cur hsc] at h1
        exact le_trans h1 (front_le_remaining hsc hsfront g hgs)
      rw [next]
      simp only
      by_cases hdir : ∃ f, t.files[pos]? = some f ∧ f.time < best.time
      · obtain ⟨f, hf, hlt⟩ := hdir
        simp only [hf, hlt, if_true]
        have hd := drop_of_getElem? hf
        have hs : timeSorted (f :: t.files.drop (pos + 1)) := by rw [← hd]; exact hsorted
        refine ⟨WF.mk _ _ _ _ (List.Pairwise.of_cons hs) hheap hsub hfront, ?_, ?_, ?_⟩
        · simp [remaining, pending_mk, hd, remainingAll]
        · intro f2 hc g hg
          simp only [cur, Option.some.injEq] at hc; subst hc
          rw [pending_mk, List.mem_append] at hg
          rcases hg with hg | hg
          · exact List.rel_of_pairwise_cons hs hg
          · rw [remainingAll, List.mem_append] at hg
            rcases hg with hg | hg
            · have := front_le_remaining hbc hbfront g hg; omega
            · have := hrest g hg; omega
        · intro hc; simp [cur] at hc
      · have hdirect : (match t.files[pos]? with
            | some f => if f.time < best.time then some f else none
            | none => none) = none := by
          cases hf : t.files[pos]? with
          | none => rfl
          | some f =>
            simp only
            rw [if_neg]
            intro hlt; exact hdir ⟨f, hf, hlt⟩
        have hdrop : ∀ g ∈ t.files.drop pos, fb.time ≤ g.time := by
          intro g hg
          cases hf : t.files[pos]? with
          | none => rw [drop_of_getElem?_none hf] at hg; simp at hg
          | some f =>
            have hd := drop_of_getElem? hf
            have hs : timeSorted (f :: t.files.drop (pos + 1)) := by rw [← hd]; exact hsorted
            have hfge : fb.time ≤ f.time := by
              by_contra hlt
              exact hdir ⟨f, hf, by omega⟩
            rw [hd] at hg
            rcases List.mem_cons.1 hg with hg | hg
            · subst hg; exact hfge
            · exact le_trans hfge (List.rel_of_pairwise_cons hs hg)
        rw [hdirect]
        simp only
        obtain ⟨_, hpermR, hheapR⟩ :=
          StdHeap.pop_heap_cons time heap_comp_asc_time comp_iff best rest
        have hheapR := hheapR hheap
        obtain ⟨hwfb, hpermb, hfrontb, hnoneb⟩ := ih best (List.mem_cons_self _ _)
        have hsubR : ∀ s ∈ (StdHeap.pop_heap heap_comp_asc_time (best :: rest)).dropLast,
            s ∈ best :: rest := fun s hs => List.mem_cons_of_mem _ (hpermR.subset hs)
        have hcR := fun a => (remainingAll_perm hpermR).count_eq a
        have hR : ∀ g ∈ remainingAll (StdHeap.pop_heap heap_comp_asc_time (best :: rest)).dropLast,
            fb.time ≤ g.time := fun g hg => hrest g ((remainingAll_perm hpermR).subset hg)
        by_cases hend : (next best).isEnd = true
        · rw [if_pos hend]
          have hnc : (next best).cur = none := by simpa [isEnd] using hend
          have hbp := hnoneb hnc
          refine ⟨WF.mk _ _ _ _ hsorted hheapR (fun s hs => hsub s (hsubR s hs))
            (fun s hs => hfront s (hsubR s hs)), ?_, ?_, ?_⟩
          · apply List.perm_iff_count.2
            intro a
            simp only [remaining, pending_mk, remainingAll, remaining_eq best, hbc, hbp,
              List.count_append, hcR a, Option.toList, List.append_nil]
            omega
          · intro f2 hc g hg
            rw [cur_mk, hbc] at hc
            rw [← Option.some.inj hc]
            rw [pending_mk, List.mem_append] at hg
            rcases hg with hg | hg
            · exact hdrop g hg
            · exact hR g hg
          · intro hc; rw [cur_mk, hbc] at hc; cases hc
        · rw [if_neg hend]
          have hsome : ∃ f2, (next best).cur = some f2 := by
            cases hn : (next best).cur with
            | none => exact absurd (by simp [isEnd, hn]) hend
            | some f2 => exact ⟨f2, rfl⟩
          obtain ⟨f2, hf2⟩ := hsome
          have hpp := StdHeap.push_heap_perm heap_comp_asc_time
            ((StdHeap.pop_heap heap_comp_asc_time (best :: rest)).dropLast ++ [next best])
          have hmem : ∀ s ∈ StdHeap.push_heap heap_comp_asc_time
              ((StdHeap.pop_heap heap_comp_asc_time (best :: rest)).dropLast ++ [next best]),
              s ∈ rest ∨ s = next best := by
            intro s hs
            have := hpp.subset hs
            rw [List.mem_append, List.mem_singleton] at this
            rcases this with h1 | h1
            · exact Or.inl (hpermR.subset h1)
            · exact Or.inr h1
          have hcP := fun a => (remainingAll_perm hpp).count_eq a
          have hcb := fun a => hpermb.count_eq a
          refine ⟨WF.mk _ _ _ _ hsorted
            (StdHeap.push_heap_isHeap time heap_comp_asc_time comp_iff _ _ hheapR) ?_ ?_, ?_, ?_, ?_⟩
          · intro s hs
            rcases hmem s hs with h1 | h1
            · exact hsub s (List.mem_cons_of_mem _ h1)
            · rw [h1]; exact hwfb
          · intro s hs
            rcases hmem s hs with h1 | h1
            · exact hfront s (List.mem_cons_of_mem _ h1)
            · rw [h1]; exact ⟨f2, hf2, hfrontb f2 hf2⟩
          · apply List.perm_iff_count.2
            intro a
            have h1 := hcP a
            have h2 := hcb a
            have h3 := hcR a
            simp only [remainingAll_append, remainingAll, List.count_append, List.append_nil,
              List.count_nil] at h1
            simp only [remaining, pending_mk, remainingAll, remaining_eq best, hbc,
              List.count_append, Option.toList, List.append_nil] at h2 ⊢
            omega
          · intro f3 hc g hg
            rw [cur_mk, hbc] at hc
            rw [← Option.some.inj hc]
            rw [pending_mk, List.mem_append] at hg
            rcases hg with hg | hg
            · exact hdrop g hg
            · have hg2 := (remainingAll_perm hpp).subset hg
              rw [remainingAll_append, List.mem_append] at hg2
              rcases hg2 with hg2 | hg2
              · exact hR g hg2
              · simp only [remainingAll, List.append_nil] at hg2
                exact hbfront g (hpermb.subset hg2)
          · intro hc; rw [cur_mk, hbc] at hc; cases hc

end iterator
end DirTree
namespace DirTree

theorem dirsOfList_eq_flatMap (cs : List DirTree) : dirsOfList cs = cs.flatMap dirs := by
  induction cs with
  | nil => simp [dirsOfList]
  | cons c cs ih => simp [dirsOfList, ih]

theorem allFiles_mk (n : String) (f : List FileInfo) (s : List DirTree) (a b : Int) :
    allFiles (mk n f s a b) = f ++ s.flatMap allFiles := by
  simp only [allFiles, dirs, dirsOfList_eq_flatMap, files, List.flatMap_cons, List.flatMap_assoc]
  rfl

theorem finalised_mk (n : String) (f : List FileInfo) (s : List DirTree) (a b : Int) :
    finalised (mk n f s a b) ↔ timeSorted f ∧ ∀ c ∈ s, finalised c := by
  simp only [finalised, dirs, dirsOfList_eq_flatMap, List.mem_cons, List.mem_flatMap]
  constructor
  · intro h
    exact ⟨h _ (Or.inl rfl), fun c hc d hd => h d (Or.inr ⟨c, hc, hd⟩)⟩
  · rintro ⟨h1, h2⟩ d (hd | ⟨c, hc, hd⟩)
    · subst hd; exact h1
    · exact h2 c hc d hd

theorem iterator.next_delivers (i : iterator) (h : i.WF) : (i.next).Delivers i.pending := by
  obtain ⟨h1, h2, h3, h4⟩ := iterator.next_spec i h
  exact ⟨h1, h2, h3, h4⟩

theorem nil_isHeap : StdHeap.IsHeap iterator.time ([] : List iterator) := by
  intro p c a b _ hcn _ _
  simp at hcn

mutual
theorem begin_spec : ∀ (t : DirTree), finalised t → (begin t).Delivers (allFiles t)
  | mk n f s a b, hfin => by
    have hf := (finalised_mk n f s a b).1 hfin
    cases s with
    | nil =>
      rw [begin]
      have hwf : (iterator.mk (mk n f [] a b) none [] 0).WF :=
        iterator.WF.mk _ _ _ _ (by simpa [files] using hf.1) nil_isHeap
          (fun s hs => by simp at hs) (fun s hs => by simp at hs)
      have := iterator.next_delivers _ hwf
      simpa [iterator.pending_mk, files, iterator.remainingAll, allFiles_mk] using this
    | cons c cs =>
      rw [begin]
      obtain ⟨h1, h2, h3, h4⟩ := initSubs_spec (c :: cs) [] hf.2 nil_isHeap
        (fun s hs => by simp at hs) (fun s hs => by simp at hs)
      have hwf : (iterator.mk (mk n f (c :: cs) a b) none (initSubs (c :: cs) []) 0).WF :=
        iterator.WF.mk _ _ _ _ (by simpa [files] using hf.1) h1 h2 h3
      obtain ⟨g1, g2, g3, g4⟩ := iterator.next_delivers _ hwf
      have hp : (iterator.mk (mk n f (c :: cs) a b) none (initSubs (c :: cs) []) 0).pending.Perm
          (allFiles (mk n f (c :: cs) a b)) := by
        rw [iterator.pending_mk, allFiles_mk]
        simp only [files, List.drop_zero]
        exact List.Perm.append_left _ (by simpa [iterator.remainingAll] using h4)
      refine ⟨g1, g2.trans hp, g3, ?_⟩
      intro hc
      have := g4 hc
      rw [this] at hp
      exact hp.symm.eq_nil
theorem initSubs_spec : ∀ (js : List DirTree) (acc : List iterator),
    (∀ j ∈ js, finalised j) → StdHeap.IsHeap iterator.time acc →
    (∀ s ∈ acc, s.WF) →
    (∀ s ∈ acc, ∃ f, s.cur = some f ∧ ∀ g ∈ s.pending, f.time ≤ g.time) →
    StdHeap.IsHeap iterator.time (initSubs js acc) ∧
    (∀ s ∈ initSubs js acc, s.WF) ∧
    (∀ s ∈ initSubs js acc, ∃ f, s.cur = some f ∧ ∀ g ∈ s.pending, f.time ≤ g.time) ∧
    (iterator.remainingAll (initSubs js acc)).Perm
      (iterator.remainingAll acc ++ js.flatMap allFiles)
  | [], acc, _, hh, hw, hfr => by
    rw [initSubs]
    exact ⟨hh, hw, hfr, by simp⟩
  | j :: js, acc, hfin, hh, hw, hfr => by
    rw [initSubs]
    obtain ⟨b1, b2, b3, b4⟩ := begin_spec j (hfin j (List.mem_cons_self _ _))
    have hfin2 : ∀ k ∈ js, finalised k := fun k hk => hfin k (List.mem_cons_of_mem _ hk)
    by_cases hend : (begin j).isEnd = true
    · rw [if_pos hend]
      have hnc : (begin j).cur = none := by simpa [iterator.isEnd] using hend
      obtain ⟨r1, r2, r3, r4⟩ := initSubs_spec js acc hfin2 hh hw hfr
      refine ⟨r1, r2, r3, ?_⟩
      simpa [b4 hnc] using r4
    · rw [if_neg hend]
      have hsome : ∃ f2, (begin j).cur = some f2 := by
        cases hn : (begin j).cur with
        | none => exact absurd (by simp [iterator.isEnd, hn]) hend
        | some f2 => exact ⟨f2, rfl⟩
      obtain ⟨f2, hf2⟩ := hsome
      have hpp := StdHeap.push_heap_perm iterator.heap_comp_asc_time (acc ++ [begin j])
      have hmem : ∀ s ∈ StdHeap.push_heap iterator.heap_comp_asc_time (acc ++ [begin j]),
          s ∈ acc ∨ s = begin j := by
        intro s hs
        have := hpp.subset hs
        rwa [List.mem_append, List.mem_singleton] at this
      obtain ⟨r1, r2, r3, r4⟩ := initSubs_spec js
        (StdHeap.push_heap iterator.heap_comp_asc_time (acc ++ [begin j])) hfin2
        (StdHeap.push_heap_isHeap iterator.time _ iterator.comp_iff _ _ hh)
        (fun s hs => by
          rcases hmem s hs with h1 | h1
          · exact hw s h1
          · rw [h1]; exact b1)
        (fun s hs => by
          rcases hmem s hs with h1 | h1
          · exact hfr s h1
          · rw [h1]; exact ⟨f2, hf2, b3 f2 hf2⟩)
      refine ⟨r1, r2, r3, r4.trans ?_⟩
      have h5 := iterator.remainingAll_perm hpp
      rw [iterator.remainingAll_append] at h5
      simp only [iterator.remainingAll, List.append_nil] at h5
      simp only [List.flatMap_cons, ← List.append_assoc]
      exact List.Perm.append_right _ (h5.trans (List.Perm.append_left _ b2))
end

end DirTree

theorem step_eq : SubtreeCalculationTask.step = FilesCalculationTask.step := rfl

theorem step_fst (w : Weights) (f : FileInfo) (acc : Int) (ret : AgeChart) :
    (FilesCalculationTask.step w f acc ret).1 = acc + f.size := rfl

theorem step_snd (w : Weights) (f : FileInfo) (acc : Int) (ret : AgeChart) :
    (FilesCalculationTask.step w f acc ret).2 =
      { min := ret.min
        lowerWhisker := if ret.lowerWhisker = LOW ∧ acc + f.size ≥ w.lowerWhiskerWeight
          then f.time else ret.lowerWhisker
        lowerQuartile := if ret.lowerQuartile = LOW ∧ acc + f.size ≥ w.lowerQuartileWeight
          then f.time else ret.lowerQuartile
        median := if ret.median = LOW ∧ acc + f.size ≥ w.medianWeight
          then f.time else ret.median
        upperQuartile := if ret.upperQuartile = LOW ∧ acc + f.size ≥ w.upperQuartileWeight
          then f.time else ret.upperQuartile
        upperWhisker := if ret.upperWhisker = LOW ∧ acc + f.size ≥ w.upperWhiskerWeight
          then f.time else ret.upperWhisker
        max := f.time } := by
  unfold FilesCalculationTask.step
  simp only
  split_ifs <;> rfl

theorem settle_cons (field thr acc : Int) (f : FileInfo) (fs : List FileInfo)
    (hf : LOW < f.time) :
    settle (if field = LOW ∧ acc + f.size ≥ thr then f.time else field) thr (acc + f.size) fs =
      settle field thr acc (f :: fs) := by
  unfold settle
  by_cases h1 : field = LOW
  · by_cases h2 : acc + f.size ≥ thr
    · have : f.time ≠ LOW := by omega
      simp [h1, h2, earliestReach, this]
    · simp [h1, h2, earliestReach]
  · simp [h1]

theorem lastTime_cons (d : Int) (f : FileInfo) (fs : List FileInfo) :
    lastTime f.time fs = lastTime d (f :: fs) := by
  unfold lastTime
  cases fs with
  | nil => simp
  | cons g gs =>
    rw [List.getLast?_cons_cons]
    obtain ⟨z, hz⟩ : ∃ z, (g :: gs).getLast? = some z :=
      ⟨_, List.getLast?_eq_getLast _ (List.cons_ne_nil _ _)⟩
    simp [hz]

theorem files_loop_result (w : Weights) :
    ∀ (fs : List FileInfo) (k : Nat) (acc : Int) (ret : AgeChart),
      (∀ f ∈ fs, LOW < f.time) →
      FilesCalculationTask.loop neverCanceled w k fs acc ret = TaskResult.result
        { min := ret.min
          lowerWhisker := settle ret.lowerWhisker w.lowerWhiskerWeight acc fs
          lowerQuartile := settle ret.lowerQuartile w.lowerQuartileWeight acc fs
          median := settle ret.median w.medianWeight acc fs
          upperQuartile := settle ret.upperQuartile w.upperQuartileWeight acc fs
          upperWhisker := settle ret.upperWhisker w.upperWhiskerWeight acc fs
          max := lastTime ret.max fs } := by
  intro fs
  induction fs with
  | nil =>
    intro k acc ret _
    have hite : ∀ x : Int, (if x = LOW then LOW else x) = x := by
      intro x; split_ifs with h
      · exact h.symm
      · rfl
    simp [FilesCalculationTask.loop, settle, lastTime, earliestReach, hite]
  | cons f fs ih =>
    intro k acc ret ht
    have hf : LOW < f.time := ht f (List.mem_cons_self _ _)
    rw [FilesCalculationTask.loop]
    simp only [neverCanceled, Bool.false_eq_true, if_false]
    rw [ih _ _ _ (fun g hg => ht g (List.mem_cons_of_mem _ hg)), step_fst, step_snd]
    simp only [settle_cons _ _ _ _ _ hf, ← lastTime_cons ret.max]

theorem subtree_loop_eq (isCanceled : Nat → Bool) (w : Weights) :
    ∀ (fuel k : Nat) (i : DirTree.iterator) (acc : Int) (ret : AgeChart) (l : List FileInfo),
      i.drain fuel = some l →
      SubtreeCalculationTask.loop isCanceled w fuel k i acc ret =
        some (FilesCalculationTask.loop isCanceled w k l acc ret) := by
  intro fuel
  induction fuel with
  | zero => intro k i acc ret l h; simp [DirTree.iterator.drain] at h
  | succ fuel ih =>
    intro k i acc ret l h
    rw [DirTree.iterator.drain] at h
    rw [SubtreeCalculationTask.loop]
    cases hc : i.cur with
    | none =>
      rw [hc] at h
      simp only [Option.some.injEq] at h
      subst h
      simp [FilesCalculationTask.loop]
    | some f =>
      rw [hc] at h
      simp only [Option.map_eq_some'] at h
      obtain ⟨l2, hl2, hl⟩ := h
      subst hl
      simp only
      rw [FilesCalculationTask.loop]
      by_cases hk : isCanceled k = true
      · simp [hk]
      · simp only [hk, if_false, Bool.false_eq_true]
        rw [ih _ _ _ _ _ hl2, step_eq]

theorem drain_head (fuel : Nat) (i : DirTree.iterator) (l : List FileInfo)
    (h : i.drain fuel = some l) : i.cur = l.head? := by
  cases fuel with
  | zero => simp [DirTree.iterator.drain] at h
  | succ fuel =>
    rw [DirTree.iterator.drain] at h
    cases hc : i.cur with
    | none =>
      rw [hc] at h
      simp only [Option.some.injEq] at h
      subst h; rfl
    | some f =>
      rw [hc] at h
      simp only [Option.map_eq_some'] at h
      obtain ⟨l2, _, hl⟩ := h
      subst hl; rfl

theorem totalSize_cons (f : FileInfo) (fs : List FileInfo) :
    totalSize (f :: fs) = f.size + totalSize fs := by
  simp [totalSize]

theorem earliestReach_some (thr : Int) :
    ∀ (fs : List FileInfo) (acc : Int), fs ≠ [] → thr ≤ acc + totalSize fs →
      ∃ g ∈ fs, earliestReach thr acc fs = some g.time := by
  intro fs
  induction fs with
  | nil => intro acc h; exact absurd rfl h
  | cons f fs ih =>
    intro acc _ hsum
    rw [earliestReach]
    by_cases h : acc + f.size ≥ thr
    · exact ⟨f, List.mem_cons_self _ _, by simp [h]⟩
    · rw [if_neg h]
      rw [totalSize_cons] at hsum
      have hne : fs ≠ [] := by
        intro hnil
        subst hnil
        simp [totalSize] at hsum
        omega
      obtain ⟨g, hg, hgr⟩ := ih (acc + f.size) hne (by omega)
      exact ⟨g, List.mem_cons_of_mem _ hg, hgr⟩

theorem earliestReach_mem (thr : Int) :
    ∀ (fs : List FileInfo) (acc v : Int), earliestReach thr acc fs = some v →
      ∃ g ∈ fs, g.time = v := by
  intro fs
  induction fs with
  | nil => intro acc v h; simp [earliestReach] at h
  | cons f fs ih =>
    intro acc v h
    rw [earliestReach] at h
    by_cases hc : acc + f.size ≥ thr
    · rw [if_pos hc] at h
      exact ⟨f, List.mem_cons_self _ _, Option.some.inj h⟩
    · rw [if_neg hc] at h
      obtain ⟨g, hg, hgv⟩ := ih _ _ h
      exact ⟨g, List.mem_cons_of_mem _ hg, hgv⟩

theorem earliestReach_mono (thr1 thr2 : Int) (hthr : thr1 ≤ thr2) :
    ∀ (fs : List FileInfo) (acc v1 v2 : Int), DirTree.timeSorted fs →
      earliestReach thr1 acc fs = some v1 → earliestReach thr2 acc fs = some v2 → v1 ≤ v2 := by
  intro fs
  induction fs with
  | nil => intro acc v1 v2 _ h; simp [earliestReach] at h
  | cons f fs ih =>
    intro acc v1 v2 hs h1 h2
    rw [earliestReach] at h1 h2
    by_cases hc2 : acc + f.size ≥ thr2
    · rw [if_pos hc2] at h2
      rw [if_pos (by omega)] at h1
      have e1 := Option.some.inj h1
      have e2 := Option.some.inj h2
      omega
    · rw [if_neg hc2] at h2
      by_cases hc1 : acc + f.size ≥ thr1
      · rw [if_pos hc1] at h1
        obtain ⟨g, hg, hgv⟩ := earliestReach_mem _ _ _ _ h2
        have := List.rel_of_pairwise_cons hs hg
        have e1 := Option.some.inj h1
        omega
      · rw [if_neg hc1] at h1
        exact ih _ _ _ (List.Pairwise.of_cons hs) h1 h2

theorem sorted_head_le (l : List FileInfo) (hs : DirTree.timeSorted l) (h g : FileInfo)
    (hh : l.head? = some h) (hg : g ∈ l) : h.time ≤ g.time := by
  cases l with
  | nil => simp at hh
  | cons a t =>
    simp at hh; subst hh
    rcases List.mem_cons.1 hg with e | e
    · subst e; exact le_refl _
    · exact List.rel_of_pairwise_cons hs e

theorem sorted_le_last (l : List FileInfo) (hs : DirTree.timeSorted l) (z g : FileInfo)
    (hz : l.getLast? = some z) (hg : g ∈ l) : g.time ≤ z.time := by
  obtain ⟨ys, rfl⟩ := List.getLast?_eq_some_iff.1 hz
  rcases List.mem_append.1 hg with e | e
  · have := List.pairwise_append.1 hs
    exact this.2.2 g e z (List.mem_singleton_self z)
  · rw [List.mem_singleton] at e; subst e; exact le_refl _

theorem chartOf_aboveLow (l : List FileInfo) (W : Int) (c : AgeChart) (h : ChartOf l W c)
    (ht : ∀ f ∈ l, LOW < f.time) : c.aboveLow := by
  obtain ⟨h1, h2, h3, h4, h5, h6, h7⟩ := h
  have key : ∀ thr v, earliestReach thr 0 l = some v → LOW < v := by
    intro thr v hv
    obtain ⟨g, hg, hgv⟩ := earliestReach_mem _ _ _ _ hv
    rw [← hgv]; exact ht g hg
  refine ⟨?_, key _ _ h3, key _ _ h4, key _ _ h5, key _ _ h6, key _ _ h7, ?_⟩
  · simp only [Option.map_eq_some'] at h1
    obtain ⟨a, ha, hat⟩ := h1
    rw [← hat]; exact ht a (List.mem_of_mem_head? ha)
  · simp only [Option.map_eq_some'] at h2
    obtain ⟨a, ha, hat⟩ := h2
    rw [← hat]; exact ht a (List.mem_of_mem_getLast? ha)

theorem chartOf_ordered (l : List FileInfo) (W : Int) (c : AgeChart) (h : ChartOf l W c)
    (hW : 0 < W) (hs : DirTree.timeSorted l) : c.ordered := by
  obtain ⟨h1, h2, h3, h4, h5, h6, h7⟩ := h
  have e20 : W.tdiv 20 = W / 20 := Int.tdiv_eq_ediv (by omega) (by omega)
  have e4 : W.tdiv 4 = W / 4 := Int.tdiv_eq_ediv (by omega) (by omega)
  have e2 : W.tdiv 2 = W / 2 := Int.tdiv_eq_ediv (by omega) (by omega)
  refine ⟨?_, earliestReach_mono _ _ (by omega) l 0 _ _ hs h3 h4,
    earliestReach_mono _ _ (by omega) l 0 _ _ hs h4 h5,
    earliestReach_mono _ _ (by omega) l 0 _ _ hs h5 h6,
    earliestReach_mono _ _ (by omega) l 0 _ _ hs h6 h7, ?_⟩
  · simp only [Option.map_eq_some'] at h1
    obtain ⟨a, ha, hat⟩ := h1
    obtain ⟨g, hg, hgv⟩ := earliestReach_mem _ _ _ _ h3
    rw [← hat, ← hgv]; exact sorted_head_le l hs a g ha hg
  · simp only [Option.map_eq_some'] at h2
    obtain ⟨a, ha, hat⟩ := h2
    obtain ⟨g, hg, hgv⟩ := earliestReach_mem _ _ _ _ h7
    rw [← hat, ← hgv]; exact sorted_le_last l hs a g ha hg

theorem valid_of_ordered (c : AgeChart) (h : c.ordered) (hlow : LOW < c.min) :
    c.valid = true := by
  obtain ⟨h1, h2, h3, h4, h5, h6⟩ := h
  simp only [AgeChart.valid, Bool.and_eq_true, decide_eq_true_eq]
  omega

/-- The reduction of both calculators on a non-empty entry sequence `l` whose sizes add
up to the total weight `W > 0` and whose times all lie above `LOW`. -/
theorem reduce_spec (l : List FileInfo) (W : Int) (hl : l ≠ []) (hW : 0 < W)
    (hsum : totalSize l = W) (ht : ∀ f ∈ l, LOW < f.time) :
    ∃ c, FilesCalculationTask.loop neverCanceled (thresholdsOf W) 1 l 0 (entryChart l) =
        TaskResult.result c ∧ ChartOf l W c := by
  rw [files_loop_result _ _ _ _ _ ht]
  refine ⟨_, rfl, ?_⟩
  have e20 : W.tdiv 20 = W / 20 := Int.tdiv_eq_ediv (by omega) (by omega)
  have e4 : W.tdiv 4 = W / 4 := Int.tdiv_eq_ediv (by omega) (by omega)
  have e2 : W.tdiv 2 = W / 2 := Int.tdiv_eq_ediv (by omega) (by omega)
  have key : ∀ thr, thr ≤ W → earliestReach thr 0 l = some (settle LOW thr 0 l) := by
    intro thr hthr
    obtain ⟨g, _, hgr⟩ := earliestReach_some thr l 0 hl (by omega)
    simp [settle, hgr]
  obtain ⟨a, t, rfl⟩ := List.exists_cons_of_ne_nil hl
  have hlast : ∃ z, (a :: t).getLast? = some z :=
    ⟨_, List.getLast?_eq_getLast _ (List.cons_ne_nil _ _)⟩
  obtain ⟨z, hz⟩ := hlast
  refine ⟨by simp [entryChart], ?_, ?_, ?_, ?_, ?_, ?_⟩
  · simp [lastTime, hz]
  · exact key _ (by omega)
  · exact key _ (by omega)
  · exact key _ (by omega)
  · exact key _ (by omega)
  · exact key _ (by omega)

namespace DirTree

theorem drain_spec : ∀ (fuel : Nat) (i : iterator) (l : List FileInfo),
    i.Delivers l → l.length < fuel →
    ∃ out, i.drain fuel = some out ∧ out.Perm l ∧ timeSorted out := by
  intro fuel
  induction fuel with
  | zero => intro i l _ h; omega
  | succ fuel ih =>
    intro i l hd hlen
    obtain ⟨hwf, hperm, hfront, hnone⟩ := hd
    rw [iterator.drain]
    cases hc : i.cur with
    | none =>
      have := hnone hc
      subst this
      exact ⟨[], rfl, List.Perm.refl _, List.Pairwise.nil⟩
    | some f =>
      rw [iterator.remaining_eq, hc] at hperm
      simp only [Option.toList, List.singleton_append] at hperm
      have hl : i.pending.length < fuel := by
        have := hperm.length_eq
        simp only [List.length_cons] at this
        omega
      obtain ⟨out, ho, hp, hs⟩ := ih i.next i.pending (iterator.next_delivers i hwf) hl
      refine ⟨f :: out, by simp [ho], (hp.cons f).trans hperm, ?_⟩
      exact List.Pairwise.cons (fun g hg => hfront f hc g (hp.subset hg)) hs

theorem mem_dirs_self (t : DirTree) : t ∈ t.dirs := by
  cases t with
  | mk n f s a b => simp [dirs]

theorem dirs_mk (n : String) (f : List FileInfo) (s : List DirTree) (a b : Int) :
    (mk n f s a b).dirs = mk n f s a b :: s.flatMap dirs := by
  simp [dirs, dirsOfList_eq_flatMap]

theorem sizesExact_mk (n : String) (f : List FileInfo) (s : List DirTree) (a b : Int) :
    sizesExact (mk n f s a b) ↔
      (a = totalSize f ∧ b = a + (s.map subtreeSize).sum) ∧ ∀ c ∈ s, sizesExact c := by
  simp only [sizesExact, dirs_mk, List.mem_cons, List.mem_flatMap]
  constructor
  · intro h
    exact ⟨h _ (Or.inl rfl), fun c hc d hd => h d (Or.inr ⟨c, hc, hd⟩)⟩
  · rintro ⟨h1, h2⟩ d (hd | ⟨c, hc, hd⟩)
    · subst hd; exact h1
    · exact h2 c hc d hd

theorem totalSize_append (l1 l2 : List FileInfo) :
    totalSize (l1 ++ l2) = totalSize l1 + totalSize l2 := by
  simp [totalSize]

mutual
theorem subtreeSize_eq : ∀ (t : DirTree), sizesExact t → t.subtreeSize = totalSize (allFiles t)
  | mk n f s a b, h => by
    obtain ⟨⟨h1, h2⟩, h3⟩ := (sizesExact_mk n f s a b).1 h
    rw [allFiles_mk, totalSize_append, ← subtreeSize_list_eq s h3]
    simp only [subtreeSize]
    omega
theorem subtreeSize_list_eq : ∀ (cs : List DirTree), (∀ c ∈ cs, sizesExact c) →
    (cs.map subtreeSize).sum = totalSize (cs.flatMap allFiles)
  | [], _ => by simp [totalSize]
  | c :: cs, h => by
    rw [List.map_cons, List.sum_cons, List.flatMap_cons, totalSize_append,
      subtreeSize_eq c (h c (List.mem_cons_self _ _)),
      subtreeSize_list_eq cs (fun d hd => h d (List.mem_cons_of_mem _ hd))]
end

end DirTree

theorem subtree_runPriv_eq (t : DirTree) (fuel : Nat) (l : List FileInfo)
    (hW : t.subtreeSize ≠ 0) (hd : t.begin.drain fuel = some l) :
    SubtreeCalculationTask.runPriv neverCanceled fuel t =
      some (FilesCalculationTask.loop neverCanceled (thresholdsOf t.subtreeSize) 1 l 0
        (entryChart l)) := by
  unfold SubtreeCalculationTask.runPriv
  simp only [hW, if_false, neverCanceled, Bool.false_eq_true]
  rw [subtree_loop_eq _ _ _ _ _ _ _ l hd, drain_head _ _ _ hd]
  rfl

theorem files_runPriv_eq (t : DirTree) (hne : t.files ≠ []) :
    FilesCalculationTask.runPriv neverCanceled t =
      FilesCalculationTask.loop neverCanceled (thresholdsOf t.filesSize) 1 t.files 0
        (entryChart t.files) := by
  unfold FilesCalculationTask.runPriv
  have : t.files.length ≠ 0 := by
    intro h; exact hne (List.length_eq_zero.1 h)
  simp only [this, if_false, neverCanceled, Bool.false_eq_true]
  rfl

theorem ne_nil_of_totalSize_pos (l : List FileInfo) (h : 0 < totalSize l) : l ≠ [] := by
  intro hl; subst hl; simp [totalSize] at h

/-- C1: on a finalised subtree, iterating from `begin()` with `operator++` until the
iterator equals `end()` terminates and visits a permutation of the files of all directories of
the subtree, so exactly `Σ |files(d)|` entries, in non-decreasing `time`. -/
theorem C1_subtree_iterator_sorted_permutation (t : DirTree) (fuel : Nat)
    (hfin : t.finalised) (hfuel : (t.allFiles).length < fuel) :
    ∃ out, t.begin.drain fuel = some out ∧ out.Perm (t.dirs.flatMap DirTree.files) ∧
      out.length = (t.dirs.map DirTree.numFiles).sum ∧ DirTree.timeSorted out := by
  obtain ⟨out, h1, h2, h3⟩ := DirTree.drain_spec fuel t.begin t.allFiles
    (DirTree.begin_spec t hfin) hfuel
  refine ⟨out, h1, h2, ?_, h3⟩
  rw [h2.length_eq, DirTree.allFiles, List.length_flatMap]
  rfl

/-- Witness of C1: the heap-merge scenario yields the times 1,2,3,5,6,9,10. -/
theorem C1_witness :
    (∃ out, heapMergeTree.begin.drain 8 = some out ∧
      out.Perm (heapMergeTree.dirs.flatMap DirTree.files) ∧
      out.length = (heapMergeTree.dirs.map DirTree.numFiles).sum ∧ DirTree.timeSorted out) ∧
    (heapMergeTree.begin.drain 8).map (fun l => l.map FileInfo.time) =
      some [1, 2, 3, 5, 6, 9, 10] :=
  ⟨C1_subtree_iterator_sorted_permutation heapMergeTree 8 (by decide) (by decide), by decide⟩

/-- Both calculators on an entry sequence: the shared statement behind the chart claims. -/
theorem calculators_on_sequence (l : List FileInfo) (W : Int)
    (hl : l ≠ []) (hW : 0 < W) (hsum : totalSize l = W) (ht : ∀ f ∈ l, LOW < f.time) :
    ∃ c, ChartOf l W c ∧
      (∀ (t : DirTree) (fuel : Nat), t.subtreeSize = W → t.begin.drain fuel = some l →
        SubtreeCalculationTask.runPriv neverCanceled fuel t = some (TaskResult.result c)) ∧
      (∀ (t : DirTree), t.filesSize = W → t.files = l →
        FilesCalculationTask.runPriv neverCanceled t = TaskResult.result c) ∧
      (∀ (w : Weights) (f : FileInfo) (acc : Int) (ret : AgeChart),
        (ret.lowerWhisker ≠ LOW →
          (SubtreeCalculationTask.step w f acc ret).2.lowerWhisker = ret.lowerWhisker) ∧
        (ret.lowerQuartile ≠ LOW →
          (SubtreeCalculationTask.step w f acc ret).2.lowerQuartile = ret.lowerQuartile) ∧
        (ret.median ≠ LOW →
          (SubtreeCalculationTask.step w f acc ret).2.median = ret.median) ∧
        (ret.upperQuartile ≠ LOW →
          (SubtreeCalculationTask.step w f acc ret).2.upperQuartile = ret.upperQuartile) ∧
        (ret.upperWhisker ≠ LOW →
          (SubtreeCalculationTask.step w f acc ret).2.upperWhisker = ret.upperWhisker) ∧
        FilesCalculationTask.step w f acc ret = SubtreeCalculationTask.step w f acc ret) := by
  obtain ⟨c, hc, hchart⟩ := reduce_spec l W hl hW hsum ht
  refine ⟨c, hchart, ?_, ?_, ?_⟩
  · intro t fuel htW hd
    rw [subtree_runPriv_eq t fuel l (by omega) hd, htW, hc]
  · intro t htW hf
    rw [files_runPriv_eq t (by rw [hf]; exact hl), htW, hf, hc]
  · intro w f acc ret
    rw [step_eq, step_snd]
    refine ⟨?_, ?_, ?_, ?_, ?_, rfl⟩ <;> intro h <;> simp [h]

/-- C3: for a non-empty entry sequence `l` with all times above `LOW` whose sizes add up
to the total weight `W > 0`, both calculators return the chart `c` with `min` the first time,
`max` the last time and each percentile the time of the earliest entry at which the running
sum of sizes reaches `W/20, W/4, W/2, W - W/4, W - W/20`: the subtree task on any node whose
iterator delivers `l`, the files task on any node whose direct files are `l`. A field that is
set is not overwritten by a later entry. -/
theorem C3_calculators_earliest_crossing (l : List FileInfo) (W : Int)
    (hl : l ≠ []) (hW : 0 < W) (hsum : totalSize l = W) (ht : ∀ f ∈ l, LOW < f.time) :
    ∃ c, ChartOf l W c ∧
      (∀ (t : DirTree) (fuel : Nat), t.subtreeSize = W → t.begin.drain fuel = some l →
        SubtreeCalculationTask.runPriv neverCanceled fuel t = some (TaskResult.result c)) ∧
      (∀ (t : DirTree), t.filesSize = W → t.files = l →
        FilesCalculationTask.runPriv neverCanceled t = TaskResult.result c) ∧
      (∀ (w : Weights) (f : FileInfo) (acc : Int) (ret : AgeChart),
        (ret.lowerWhisker ≠ LOW →
          (SubtreeCalculationTask.step w f acc ret).2.lowerWhisker = ret.lowerWhisker) ∧
        (ret.lowerQuartile ≠ LOW →
          (SubtreeCalculationTask.step w f acc ret).2.lowerQuartile = ret.lowerQuartile) ∧
        (ret.median ≠ LOW →
          (SubtreeCalculationTask.step w f acc ret).2.median = ret.median) ∧
        (ret.upperQuartile ≠ LOW →
          (SubtreeCalculationTask.step w f acc ret).2.upperQuartile = ret.upperQuartile) ∧
        (ret.upperWhisker ≠ LOW →
          (SubtreeCalculationTask.step w f acc ret).2.upperWhisker = ret.upperWhisker) ∧
        FilesCalculationTask.step w f acc ret = SubtreeCalculationTask.step w f acc ret) :=
  calculators_on_sequence l W hl hW hsum ht

/-- Witness of C3: the four files of the truncation scenario, of total weight 4. -/
theorem C3_witness :
    ∃ c, ChartOf fourFiles.files 4 c ∧
      SubtreeCalculationTask.runPriv neverCanceled 5 fourFiles = some (TaskResult.result c) ∧
      FilesCalculationTask.runPriv neverCanceled fourFiles = TaskResult.result c := by
  obtain ⟨c, h1, h2, h3, _⟩ := C3_calculators_earliest_crossing fourFiles.files 4
    (by decide) (by decide) (by decide) (by decide)
  exact ⟨c, h1, h2 fourFiles 5 (by decide) (by decide), h3 fourFiles (by decide) rfl⟩

/-- C4: on a finalised tree with exact size bookkeeping and all times above `LOW`, the
chart `calculateSubtree` returns for a node of total weight `W > 0` (and the chart
`calculateFiles` returns when `filesSize > 0`) is ordered
`min ≤ p5 ≤ p25 ≤ p50 ≤ p75 ≤ p95 ≤ max`, has every field above `LOW`, and passes `valid()`. -/
theorem C4_calculated_chart_valid (t : DirTree) (fuel : Nat)
    (hfin : t.finalised) (hsz : t.sizesExact) (ht : ∀ f ∈ t.allFiles, LOW < f.time)
    (hW : 0 < t.subtreeSize) (hfuel : (t.allFiles).length < fuel) :
    (∃ c, SubtreeCalculationTask.runPriv neverCanceled fuel t = some (TaskResult.result c) ∧
      c.ordered ∧ c.aboveLow ∧ c.valid = true) ∧
    (0 < t.filesSize →
      ∃ c, FilesCalculationTask.runPriv neverCanceled t = TaskResult.result c ∧
        c.ordered ∧ c.aboveLow ∧ c.valid = true) := by
  constructor
  · obtain ⟨out, h1, h2, h3⟩ := DirTree.drain_spec fuel t.begin t.allFiles
      (DirTree.begin_spec t hfin) hfuel
    have hsum : totalSize out = t.subtreeSize := by
      rw [DirTree.subtreeSize_eq t hsz]
      exact (h2.map FileInfo.size).sum_eq
    have hne : out ≠ [] := ne_nil_of_totalSize_pos out (by omega)
    have hto : ∀ f ∈ out, LOW < f.time := fun f hf => ht f (h2.subset hf)
    obtain ⟨c, hc, hs, _, _⟩ := calculators_on_sequence out t.subtreeSize hne hW hsum hto
    have ha := chartOf_aboveLow out _ c hc hto
    have ho := chartOf_ordered out _ c hc hW h3
    exact ⟨c, hs t fuel rfl h1, ho, ha, valid_of_ordered c ho ha.1⟩
  · intro hF
    have hself := hsz t (DirTree.mem_dirs_self t)
    have hsum : totalSize t.files = t.filesSize := hself.1.symm
    have hne : t.files ≠ [] := ne_nil_of_totalSize_pos _ (by omega)
    have hsub : ∀ f ∈ t.files, f ∈ t.allFiles := by
      intro f hf
      simp only [DirTree.allFiles, List.mem_flatMap]
      exact ⟨t, DirTree.mem_dirs_self t, hf⟩
    have hto : ∀ f ∈ t.files, LOW < f.time := fun f hf => ht f (hsub f hf)
    obtain ⟨c, hc, _, hs, _⟩ := calculators_on_sequence t.files t.filesSize hne hF hsum hto
    have ha := chartOf_aboveLow _ _ c hc hto
    have ho := chartOf_ordered _ _ c hc hF (hfin t (DirTree.mem_dirs_self t))
    exact ⟨c, hs t rfl rfl, ho, ha, valid_of_ordered c ho ha.1⟩

/-- Witness of C4: the heap-merge tree, of subtree weight 7 and direct weight 1. -/
theorem C4_witness :
    (∃ c, SubtreeCalculationTask.runPriv neverCanceled 8 heapMergeTree =
        some (TaskResult.result c) ∧ c.ordered ∧ c.aboveLow ∧ c.valid = true) ∧
    (∃ c, FilesCalculationTask.runPriv neverCanceled heapMergeTree = TaskResult.result c ∧
        c.ordered ∧ c.aboveLow ∧ c.valid = true) :=
  ⟨(C4_calculated_chart_valid heapMergeTree 8 (by decide) (by decide) (by decide) (by decide)
      (by decide)).1,
   (C4_calculated_chart_valid heapMergeTree 8 (by decide) (by decide) (by decide) (by decide)
      (by decide)).2 (by decide)⟩

/-- C5, evaluated at the failing input: `valid()` accepts the chart
`(1, 1, 3, 2, 2, 5, 2)` although its lower quartile 3 exceeds its median 2 and its upper
whisker 5 exceeds its max 2, so `valid()` does not imply the ordering. -/
theorem C5_valid_accepts_unordered :
    (AgeChart.mk 1 1 3 2 2 5 2).valid = true ∧ ¬ (AgeChart.mk 1 1 3 2 2 5 2).ordered ∧
    ¬ (∀ c : AgeChart, c.valid = true → c.ordered) := by
  refine ⟨by decide, by decide, ?_⟩
  intro h
  exact absurd (h (AgeChart.mk 1 1 3 2 2 5 2) (by decide)) (by decide)

/-- C6, the files task charts a total weight of 0: for the directory whose only file is
empty, `filesSize` and `subtreeSize` are 0; `calculateSubtree` returns the unset chart, as
the claim says of both entry points, while `calculateFiles` returns the valid chart with
every field 5 instead of the unset chart. -/
theorem C6_files_task_charts_zero_weight :
    emptyFileDir.filesSize = 0 ∧ emptyFileDir.subtreeSize = 0 ∧ emptyFileDir.sizesExact ∧
    SubtreeCalculationTask.runPriv neverCanceled 2 emptyFileDir =
      some (TaskResult.result AgeChart.unset) ∧
    FilesCalculationTask.runPriv neverCanceled emptyFileDir =
      TaskResult.result (AgeChart.mk 5 5 5 5 5 5 5) ∧
    (AgeChart.mk 5 5 5 5 5 5 5).valid = true ∧
    FilesCalculationTask.runPriv neverCanceled emptyFileDir ≠
      TaskResult.result AgeChart.unset := by
  decide

/-- Where both tasks do return the unset chart: `calculateSubtree` whenever `subtreeSize`
is 0, in particular on a directory with exact sizes and no files anywhere beneath it, and
`calculateFiles` whenever the node has no direct files; the unset chart has all seven fields
`LOW` and fails `valid()`. Neither depends on the cancellation flag. -/
theorem unset_chart_without_entries (isCanceled : Nat → Bool) (fuel : Nat) (t : DirTree) :
    (t.subtreeSize = 0 →
      SubtreeCalculationTask.runPriv isCanceled fuel t = some (TaskResult.result AgeChart.unset)) ∧
    (t.sizesExact → t.allFiles = [] →
      SubtreeCalculationTask.runPriv isCanceled fuel t = some (TaskResult.result AgeChart.unset)) ∧
    (t.numFiles = 0 →
      FilesCalculationTask.runPriv isCanceled t = TaskResult.result AgeChart.unset) ∧
    AgeChart.unset = AgeChart.mk LOW LOW LOW LOW LOW LOW LOW ∧
    AgeChart.unset.valid = false := by
  have h1 : t.subtreeSize = 0 →
      SubtreeCalculationTask.runPriv isCanceled fuel t =
        some (TaskResult.result AgeChart.unset) := by
    intro h
    unfold SubtreeCalculationTask.runPriv
    simp [h]
  refine ⟨h1, ?_, ?_, rfl, by decide⟩
  · intro hs he
    apply h1
    rw [DirTree.subtreeSize_eq t hs, he]
    rfl
  · intro h
    unfold FilesCalculationTask.runPriv
    simp only [DirTree.numFiles] at h
    simp [h]

/-- C7 as stated fails: for the four files the threshold `W - W/20` is 4, not 3, and
neither calculator returns the chart `(10, 10, 10, 20, 30, 30, 40)`. -/
theorem C7_counterexample :
    (thresholdsOf 4).upperWhiskerWeight ≠ 3 ∧
    SubtreeCalculationTask.runPriv neverCanceled 5 fourFiles ≠
      some (TaskResult.result (AgeChart.mk 10 10 10 20 30 30 40)) ∧
    FilesCalculationTask.runPriv neverCanceled fourFiles ≠
      TaskResult.result (AgeChart.mk 10 10 10 20 30 30 40) := by
  decide

/-- C7 amended: for the four files of size 1 at the times 10, 20, 30, 40 the calculator
uses `W = 4` with the thresholds 0, 1, 2, 3, 4 and returns the chart
`(10, 10, 10, 20, 30, 40, 40)`. -/
theorem C7_percentile_truncation :
    fourFiles.subtreeSize = 4 ∧ fourFiles.filesSize = 4 ∧
    thresholdsOf 4 = Weights.mk 0 1 2 3 4 ∧
    SubtreeCalculationTask.runPriv neverCanceled 5 fourFiles =
      some (TaskResult.result (AgeChart.mk 10 10 10 20 30 40 40)) ∧
    FilesCalculationTask.runPriv neverCanceled fourFiles =
      TaskResult.result (AgeChart.mk 10 10 10 20 30 40 40) := by
  decide

theorem earliestReach_single (thr : Int) (f : FileInfo) (v : Int)
    (h : earliestReach thr 0 [f] = some v) : v = f.time := by
  obtain ⟨g, hg, hgv⟩ := earliestReach_mem _ _ _ _ h
  rw [List.mem_singleton] at hg
  rw [← hgv, hg]

theorem chartOf_single (f : FileInfo) (W : Int) (c : AgeChart) (h : ChartOf [f] W c) :
    c = AgeChart.mk f.time f.time f.time f.time f.time f.time f.time := by
  obtain ⟨h1, h2, h3, h4, h5, h6, h7⟩ := h
  simp only [List.head?_cons, List.getLast?_singleton, Option.map_some',
    Option.some.injEq] at h1 h2
  have e3 := earliestReach_single _ _ _ h3
  have e4 := earliestReach_single _ _ _ h4
  have e5 := earliestReach_single _ _ _ h5
  have e6 := earliestReach_single _ _ _ h6
  have e7 := earliestReach_single _ _ _ h7
  cases c
  simp only [AgeChart.mk.injEq]
  simp only at h1 h2 e3 e4 e5 e6 e7
  exact ⟨h1.symm, e3, e4, e5, e6, e7, h2.symm⟩

theorem finalised_of_allFiles_single (t : DirTree) (f : FileInfo) (h : t.allFiles = [f]) :
    t.finalised := by
  intro d hd
  have hs : DirTree.timeSorted t.allFiles := by
    rw [h]; exact List.pairwise_singleton _ _
  unfold DirTree.allFiles DirTree.timeSorted at hs
  exact (List.pairwise_flatMap.1 hs).1 d hd

/-- C8: when the input of the calculator is exactly one entry `f` with `size > 0` and
`time > LOW`, the subtree task (on a node whose subtree holds just `f`) and the files task (on a
node whose direct files are just `f`) return the chart with all seven fields `f.time`, and
`singleton()` is true on that chart. -/
theorem C8_single_entry_singleton (f : FileInfo) (hs : 0 < f.size) (ht : LOW < f.time) :
    (∀ (t : DirTree) (fuel : Nat), t.allFiles = [f] → t.subtreeSize = f.size → 1 < fuel →
      SubtreeCalculationTask.runPriv neverCanceled fuel t = some (TaskResult.result
        (AgeChart.mk f.time f.time f.time f.time f.time f.time f.time))) ∧
    (∀ (t : DirTree), t.files = [f] → t.filesSize = f.size →
      FilesCalculationTask.runPriv neverCanceled t = TaskResult.result
        (AgeChart.mk f.time f.time f.time f.time f.time f.time f.time)) ∧
    (AgeChart.mk f.time f.time f.time f.time f.time f.time f.time).singleton = true := by
  obtain ⟨c, hc, h1, h2, _⟩ := calculators_on_sequence [f] f.size (by simp) hs
    (by simp [totalSize]) (by simpa using ht)
  have hce := chartOf_single f _ c hc
  subst hce
  refine ⟨?_, ?_, ?_⟩
  · intro t fuel ha hW hfuel
    obtain ⟨out, d1, d2, _⟩ := DirTree.drain_spec fuel t.begin t.allFiles
      (DirTree.begin_spec t (finalised_of_allFiles_single t f ha)) (by rw [ha]; simpa using hfuel)
    rw [ha, List.perm_singleton] at d2
    subst d2
    exact h1 t fuel hW d1
  · intro t hf hW
    exact h2 t hW hf
  · have : f.time > LOW := ht
    simp [AgeChart.singleton, this]

/-- Witness of C8: one file of size 100 at time 555 gives the chart with all fields 555. -/
theorem C8_witness :
    SubtreeCalculationTask.runPriv neverCanceled 2 oneFile =
      some (TaskResult.result (AgeChart.mk 555 555 555 555 555 555 555)) ∧
    FilesCalculationTask.runPriv neverCanceled oneFile =
      TaskResult.result (AgeChart.mk 555 555 555 555 555 555 555) ∧
    (AgeChart.mk 555 555 555 555 555 555 555).singleton = true :=
  ⟨(C8_single_entry_singleton ⟨100, 555⟩ (by decide) (by decide)).1 oneFile 2
      (by decide) (by decide) (by decide),
   (C8_single_entry_singleton ⟨100, 555⟩ (by decide) (by decide)).2.1 oneFile
      (by decide) (by decide),
   (C8_single_entry_singleton ⟨100, 555⟩ (by decide) (by decide)).2.2⟩

/-- C19: a default-constructed `AgeChart` is in the unset state: all seven fields equal
`LOW`, the minimum 64-bit signed integer, and both `valid()` and `singleton()` return false. -/
theorem C19_default_chart_unset :
    AgeChart.unset = AgeChart.mk LOW LOW LOW LOW LOW LOW LOW ∧ LOW = -(2 : Int) ^ 63 ∧
    AgeChart.unset.valid = false ∧ AgeChart.unset.singleton = false := by
  decide

/-- C20: for every chart `c`, `singleton()` returns true exactly when `valid()` returns
true and all seven fields of `c` are equal. -/
theorem C20_singleton_iff_valid_and_equal (c : AgeChart) :
    c.singleton = true ↔
      (c.valid = true ∧ c.lowerWhisker = c.min ∧ c.lowerQuartile = c.min ∧ c.median = c.min ∧
        c.upperQuartile = c.min ∧ c.upperWhisker = c.min ∧ c.max = c.min) := by
  simp only [AgeChart.singleton, AgeChart.valid, Bool.and_eq_true, decide_eq_true_eq]
  constructor
  · rintro ⟨⟨⟨⟨⟨⟨h1, h2⟩, h3⟩, h4⟩, h5⟩, h6⟩, h7⟩
    refine ⟨⟨⟨⟨⟨⟨⟨h1, ?_⟩, ?_⟩, ?_⟩, ?_⟩, ?_⟩, ?_⟩, ?_, ?_, ?_, ?_, ?_, ?_⟩ <;> omega
  · rintro ⟨⟨⟨⟨⟨⟨⟨h1, _⟩, _⟩, _⟩, _⟩, _⟩, _⟩, e1, e2, e3, e4, e5, e6⟩
    refine ⟨⟨⟨⟨⟨⟨h1, ?_⟩, ?_⟩, ?_⟩, ?_⟩, ?_⟩, ?_⟩ <;> omega

namespace Store

theorem get_set_self {H : Store} {p : Ptr} {nd : DirNode} (x : DirNode) (h : H[p]? = some nd) :
    (H.set p x)[p]? = some x := by
  have hl := StdHeap.lt_length_of_getElem? h
  simp [List.getElem?_set, hl]

theorem get_set_ne {H : Store} {p q : Ptr} (x : DirNode) (hne : q ≠ p) :
    (H.set p x)[q]? = H[q]? := by
  simp [List.getElem?_set, Ne.symm hne]

/-- Reading an object after a store update at `p`. -/
theorem get_set_cases {H : Store} {p q : Ptr} {nd : DirNode} (x y : DirNode)
    (h : H[p]? = some nd) (hq : (H.set p x)[q]? = some y) :
    (q = p ∧ y = x) ∨ (q ≠ p ∧ H[q]? = some y) := by
  by_cases hqp : q = p
  · subst hqp
    rw [get_set_self x h] at hq
    exact Or.inl ⟨rfl, (Option.some.inj hq).symm⟩
  · rw [get_set_ne x hqp] at hq
    exact Or.inr ⟨hqp, hq⟩

theorem sum_map_update (g g2 : Ptr → Int) (c : Ptr) (d : Int)
    (hc : g2 c = g c + d) (hne : ∀ x, x ≠ c → g2 x = g x) (l : List Ptr) :
    (l.map g2).sum = (l.map g).sum + d * (l.count c : Int) := by
  induction l with
  | nil => simp
  | cons x t ih =>
    simp only [List.map_cons, List.sum_cons, ih, List.count_cons]
    by_cases hx : x = c
    · subst hx; simp [hc]; ring
    · have : (x == c) = false := by simpa using hx
      simp [hne x hx, this]; ring

theorem count_le_one_of_inj (l : List Ptr) (c : Ptr)
    (h : ∀ (i j : Nat), l[i]? = some c → l[j]? = some c → i = j) : l.count c ≤ 1 := by
  induction l with
  | nil => simp
  | cons x t ih =>
    by_cases hx : x = c
    · subst hx
      have hnot : x ∉ t := by
        intro hm
        obtain ⟨k, hk, hkx⟩ := List.getElem_of_mem hm
        have := h 0 (k + 1) (by simp) (by simp [List.getElem?_eq_getElem hk, hkx])
        omega
      simp [List.count_cons, List.count_eq_zero_of_not_mem hnot]
    · have hb : (x == c) = false := by simpa using hx
      simp only [List.count_cons, hb, Bool.false_eq_true, if_false, Nat.add_zero]
      apply ih
      intro i j hi hj
      have := h (i + 1) (j + 1) (by simpa using hi) (by simpa using hj)
      omega

/-- In a well-formed store `p` occurs in the child list of `q` once when `q` is its
parent and not at all otherwise. -/
theorem count_child {H : Store} {rank : Ptr → Nat} (hwf : WellFormed H rank)
    {p q : Ptr} {nd qn : DirNode} (hp : H[p]? = some nd) (hq : H[q]? = some qn) :
    (qn.m_subdirs.count p : Int) = if nd.m_parent = some q then 1 else 0 := by
  have hle : qn.m_subdirs.count p ≤ 1 := by
    apply count_le_one_of_inj
    intro i j hi hj
    obtain ⟨cn, h1, _, h3⟩ := hwf.links q qn i p hq hi
    obtain ⟨cn2, h4, _, h6⟩ := hwf.links q qn j p hq hj
    rw [h1] at h4; cases h4
    omega
  by_cases hpar : nd.m_parent = some q
  · rw [if_pos hpar]
    obtain ⟨qn2, h1, h2⟩ := hwf.backlinks p nd q hp hpar
    rw [hq] at h1; cases h1
    have hm : p ∈ qn.m_subdirs := List.getElem?_mem h2
    have := List.count_pos_iff.2 hm
    omega
  · rw [if_neg hpar]
    have hnot : p ∉ qn.m_subdirs := by
      intro hm
      obtain ⟨k, hk, hkx⟩ := List.getElem_of_mem hm
      obtain ⟨cn, h1, h2, _⟩ := hwf.links q qn k p hq (by simp [List.getElem?_eq_getElem hk, hkx])
      rw [hp] at h1; cases h1
      exact hpar h2
    simp [List.count_eq_zero_of_not_mem hnot]

/-- Updating fields other than the links keeps a store well formed. -/
theorem wellFormed_set {H : Store} {rank : Ptr → Nat} (hwf : WellFormed H rank)
    {p : Ptr} {nd x : DirNode} (hp : H[p]? = some nd)
    (h1 : x.m_subdirs = nd.m_subdirs) (h2 : x.m_parent = nd.m_parent)
    (h3 : x.m_parentPos = nd.m_parentPos) : WellFormed (H.set p x) rank := by
  have hrd : ∀ (q : Ptr) (y : DirNode), (H.set p x)[q]? = some y →
      ∃ y0, H[q]? = some y0 ∧ y.m_subdirs = y0.m_subdirs ∧ y.m_parent = y0.m_parent ∧
        y.m_parentPos = y0.m_parentPos := by
    intro q y hy
    rcases get_set_cases x y hp hy with ⟨hq, hyx⟩ | ⟨_, hq⟩
    · subst hq; subst hyx; exact ⟨nd, hp, h1, h2, h3⟩
    · exact ⟨y, hq, rfl, rfl, rfl⟩
  have hwr : ∀ (q : Ptr) (y0 : DirNode), H[q]? = some y0 →
      ∃ y, (H.set p x)[q]? = some y ∧ y.m_subdirs = y0.m_subdirs ∧ y.m_parent = y0.m_parent ∧
        y.m_parentPos = y0.m_parentPos := by
    intro q y0 hy
    by_cases hq : q = p
    · subst hq
      rw [hp] at hy; cases hy
      exact ⟨x, get_set_self x hp, h1, h2, h3⟩
    · exact ⟨y0, by rw [get_set_ne x hq]; exact hy, rfl, rfl, rfl⟩
  constructor
  · intro q y i c hy hc
    obtain ⟨y0, e0, e1, _, _⟩ := hrd q y hy
    rw [e1] at hc
    obtain ⟨cn, c1, c2, c3⟩ := hwf.links q y0 i c e0 hc
    obtain ⟨cn2, d0, _, d2, d3⟩ := hwr c cn c1
    exact ⟨cn2, d0, by rw [d2]; exact c2, by rw [d3]; exact c3⟩
  · intro c y q hy hpar
    obtain ⟨y0, e0, _, e2, e3⟩ := hrd c y hy
    rw [e2] at hpar
    obtain ⟨qn, q1, q2⟩ := hwf.backlinks c y0 q e0 hpar
    obtain ⟨qn2, d0, d1, _, _⟩ := hwr q qn q1
    exact ⟨qn2, d0, by rw [d1, e3]; exact q2⟩
  · intro c y q hy hpar
    obtain ⟨y0, e0, _, e2, _⟩ := hrd c y hy
    rw [e2] at hpar
    exact hwf.ranked c y0 q e0 hpar

theorem subtreeSizeAt_set {H : Store} {p : Ptr} {nd : DirNode} (x : DirNode)
    (hp : H[p]? = some nd) (c : Ptr) :
    subtreeSizeAt (H.set p x) c =
      if c = p then x.m_subtreeSize else subtreeSizeAt H c := by
  unfold subtreeSizeAt
  by_cases hc : c = p
  · subst hc; rw [get_set_self x hp]; simp
  · rw [get_set_ne x hc]; simp [hc]

end Store

namespace Store

/-- The propagation loop started at `p` with the invariant short by `d` at `p` returns and
restores the size invariant everywhere. -/
theorem addUp_spec (rank : Ptr → Nat) (d : Int) :
    ∀ (fuel : Nat) (H : Store) (p : Ptr) (nd : DirNode), WellFormed H rank →
      SizeInvShort H p d → H[p]? = some nd → rank p < fuel →
      ∃ H2, addUp fuel H (some p) d = some H2 ∧ WellFormed H2 rank ∧ SizeInv H2 := by
  intro fuel
  induction fuel with
  | zero => intro H p nd _ _ _ h; omega
  | succ fuel ih =>
    intro H p nd hwf hshort hp hfuel
    rw [addUp]
    simp only [hp]
    obtain ⟨H1, hH1⟩ : ∃ H1 : Store,
        H1 = H.set p { nd with m_subtreeSize := nd.m_subtreeSize + d } := ⟨_, rfl⟩
    rw [← hH1]
    have hwf1 : WellFormed H1 rank := by
      rw [hH1]; exact wellFormed_set hwf hp rfl rfl rfl
    -- sums of child sizes after the update
    have hsum : ∀ (q : Ptr) (qn : DirNode), H[q]? = some qn →
        (qn.m_subdirs.map (subtreeSizeAt H1)).sum =
          (qn.m_subdirs.map (subtreeSizeAt H)).sum +
            d * (if nd.m_parent = some q then 1 else 0) := by
      intro q qn hq
      rw [sum_map_update (subtreeSizeAt H) _ p d ?_ ?_ qn.m_subdirs, count_child hwf hp hq]
      · rw [hH1, subtreeSizeAt_set _ hp, if_pos rfl]
        simp [subtreeSizeAt, hp]
      · intro x hx
        rw [hH1, subtreeSizeAt_set _ hp, if_neg hx]
    -- every object after the update, compared with before
    have hnode : ∀ (q : Ptr) (y : DirNode), H1[q]? = some y →
        y.m_subtreeSize = y.m_filesSize + (y.m_subdirs.map (subtreeSizeAt H)).sum := by
      intro q y hy
      rw [hH1] at hy
      rcases get_set_cases _ y hp hy with ⟨hq, hyx⟩ | ⟨hq, hy0⟩
      · subst hq; subst hyx
        have := hshort q nd hp
        simp only [if_true] at this
        simpa using this
      · have := hshort q y hy0
        simpa [hq] using this
    have hold : ∀ (q : Ptr) (y : DirNode), H1[q]? = some y →
        ∃ y0, H[q]? = some y0 ∧ y.m_subdirs = y0.m_subdirs := by
      intro q y hy
      rw [hH1] at hy
      rcases get_set_cases _ y hp hy with ⟨hq, hyx⟩ | ⟨_, hy0⟩
      · subst hq; subst hyx; exact ⟨nd, hp, rfl⟩
      · exact ⟨y, hy0, rfl⟩
    cases hpar : nd.m_parent with
    | none =>
      refine ⟨H1, by simp [addUp], hwf1, ?_⟩
      intro q y hy
      obtain ⟨y0, hy0, hsd⟩ := hold q y hy
      rw [hsd, hsum q y0 hy0, ← hsd, hpar]
      simp [hnode q y hy]
    | some a =>
      obtain ⟨an, ha, _⟩ := hwf.backlinks p nd a hp hpar
      have hrk := hwf.ranked p nd a hp hpar
      have hap : a ≠ p := by intro h; rw [h] at hrk; omega
      have ha1 : H1[a]? = some an := by
        rw [hH1, get_set_ne _ hap]; exact ha
      apply ih _ a an hwf1 ?_ ha1 (by omega)
      intro q y hy
      obtain ⟨y0, hy0, hsd⟩ := hold q y hy
      rw [hsd, hsum q y0 hy0, ← hsd, hpar, hnode q y hy]
      by_cases hqa : q = a
      · subst hqa; simp; ring
      · have : ¬ (some a = some q) := by
          intro h; exact hqa (Option.some.inj h).symm
        simp [hqa, this]

theorem addUp_mono (d : Int) :
    ∀ (fuel k : Nat) (H : Store) (p : Option Ptr) (H2 : Store),
      addUp fuel H p d = some H2 → addUp (fuel + k) H p d = some H2 := by
  intro fuel
  induction fuel with
  | zero =>
    intro k H p H2 h
    cases p with
    | none =>
      cases k <;> simpa [addUp] using h
    | some p => simp [addUp] at h
  | succ fuel ih =>
    intro k H p H2 h
    cases p with
    | none => simpa [addUp] using h
    | some p =>
      rw [Nat.add_right_comm]
      rw [addUp] at h ⊢
      cases hp : H[p]? with
      | none => rw [hp] at h; simp at h
      | some nd =>
        rw [hp] at h
        simp only at h ⊢
        exact ih k _ _ _ h

end Store

namespace Store

theorem append_spec (rank : Ptr → Nat) (fuel : Nat) (H : Store) (this : Ptr) (nd : DirNode)
    (size time : Int) (hwf : WellFormed H rank) (hinv : SizeInv H) (hthis : H[this]? = some nd)
    (hfuel : rank this < fuel) :
    ∃ H2, append fuel H this size time = some H2 ∧ WellFormed H2 rank ∧ SizeInv H2 := by
  unfold append
  simp only [hthis]
  obtain ⟨H1, hH1⟩ : ∃ H1 : Store,
      H1 = H.set this { nd with m_files := pushFile nd.m_files size time,
                                m_filesSize := nd.m_filesSize + size } := ⟨_, rfl⟩
  rw [← hH1]
  have hwf1 : WellFormed H1 rank := by
    rw [hH1]; exact wellFormed_set hwf hthis rfl rfl rfl
  have hsz : ∀ c, subtreeSizeAt H1 c = subtreeSizeAt H c := by
    intro c
    rw [hH1, subtreeSizeAt_set _ hthis]
    by_cases hc : c = this
    · subst hc; simp [subtreeSizeAt, hthis]
    · simp [hc]
  have hfun : subtreeSizeAt H1 = subtreeSizeAt H := funext hsz
  have h1 : H1[this]? = some { nd with m_files := pushFile nd.m_files size time,
                                       m_filesSize := nd.m_filesSize + size } := by
    rw [hH1]; exact get_set_self _ hthis
  apply addUp_spec rank size fuel H1 this _ hwf1 ?_ h1 hfuel
  intro q y hy
  rw [hfun]
  rw [hH1] at hy
  rcases get_set_cases _ y hthis hy with ⟨hq, hyx⟩ | ⟨hq, hy0⟩
  · subst hq; subst hyx
    have := hinv q nd hthis
    simp only [if_true]
    rw [this]; ring
  · have := hinv q y hy0
    simp only [hq, if_false]
    rw [this]; ring

theorem addUpFrom_eq (rank : Ptr → Nat) (b : Ptr) (d : Int) :
    ∀ (fuel : Nat) (H : Store) (p : Option Ptr), WellFormed H rank → subtreeSizeAt H b = d →
      (∀ q, p = some q → rank q < rank b) →
      addUpFrom fuel H p b = addUp fuel H p d := by
  intro fuel
  induction fuel with
  | zero =>
    intro H p _ _ _
    cases p <;> simp [addUpFrom, addUp]
  | succ fuel ih =>
    intro H p hwf hb hrk
    cases p with
    | none => simp [addUpFrom, addUp]
    | some p =>
      rw [addUpFrom, addUp]
      cases hp : H[p]? with
      | none => rfl
      | some nd =>
        simp only
        rw [hb]
        have hpb : b ≠ p := by
          intro h
          have := hrk p rfl
          rw [h] at this; omega
        refine ih _ _ (wellFormed_set hwf hp (x := { nd with m_subtreeSize := nd.m_subtreeSize + d })
          rfl rfl rfl) ?_ ?_
        · rw [subtreeSizeAt_set _ hp, if_neg hpb]; exact hb
        · intro q hq
          have h1 := hwf.ranked p nd q hp hq
          have h2 := hrk p rfl
          omega

theorem addUpFrom_mono (b : Ptr) :
    ∀ (fuel k : Nat) (H : Store) (p : Option Ptr) (H2 : Store),
      addUpFrom fuel H p b = some H2 → addUpFrom (fuel + k) H p b = some H2 := by
  intro fuel
  induction fuel with
  | zero =>
    intro k H p H2 h
    cases p with
    | none =>
      cases k <;> simpa [addUpFrom] using h
    | some p => simp [addUpFrom] at h
  | succ fuel ih =>
    intro k H p H2 h
    cases p with
    | none => simpa [addUpFrom] using h
    | some p =>
      rw [Nat.add_right_comm]
      rw [addUpFrom] at h ⊢
      cases hp : H[p]? with
      | none => rw [hp] at h; simp at h
      | some nd =>
        rw [hp] at h
        simp only at h ⊢
        exact ih k _ _ _ h

theorem above_parentless {H : Store} {b x : Ptr} {bn : DirNode} (hb : H[b]? = some bn)
    (hpar : bn.m_parent = none) (h : Above H x b) : x = b := by
  cases h with
  | self => rfl
  | step =>
    rename_i q nd hpar2 habove hget
    rw [hb] at hget
    rw [← Option.some.inj hget, hpar] at hpar2
    cases hpar2

end Store

namespace Store

theorem appendDir_eq (fuel : Nat) (H : Store) (this b : Ptr) (nd bn : DirNode)
    (hthis : H[this]? = some nd) (hb : H[b]? = some bn) (hbt : b ≠ this) :
    appendDir fuel H this b = addUpFrom fuel (linkChild H this b nd bn) (some this) b := by
  unfold appendDir linkChild
  simp only [hthis]
  have hb1 : (H.set this { nd with m_subdirs := nd.m_subdirs ++ [b] })[b]? = some bn := by
    rw [get_set_ne _ hbt]; exact hb
  simp only [hb1]

/-- Reading the store after the assignments of `append(DirTree*)`. -/
theorem linkChild_read (H : Store) (this b : Ptr) (nd bn : DirNode)
    (hthis : H[this]? = some nd) (hb : H[b]? = some bn) (hbt : b ≠ this) :
    (linkChild H this b nd bn)[b]? =
        some { bn with m_parent := some this, m_parentPos := nd.m_subdirs.length } ∧
    (linkChild H this b nd bn)[this]? = some { nd with m_subdirs := nd.m_subdirs ++ [b] } ∧
    (∀ q, q ≠ b → q ≠ this → (linkChild H this b nd bn)[q]? = H[q]?) ∧
    (linkChild H this b nd bn).length = H.length := by
  have hb1 : (H.set this { nd with m_subdirs := nd.m_subdirs ++ [b] })[b]? = some bn := by
    rw [get_set_ne _ hbt]; exact hb
  refine ⟨get_set_self _ hb1, ?_, ?_, ?_⟩
  · unfold linkChild
    rw [get_set_ne _ (Ne.symm hbt)]; exact get_set_self _ hthis
  · intro q h1 h2
    unfold linkChild
    rw [get_set_ne _ h1, get_set_ne _ h2]
  · simp [linkChild]

/-- The store after the assignments of `append(DirTree*)` is well formed for any rank that
puts `this` below `subdir` and decreases along the old parent pointers, and its size
invariant is short at `this` by the subtree size of `subdir`. -/
theorem linkChild_inv (rank rank2 : Ptr → Nat) (H : Store) (this b : Ptr) (nd bn : DirNode)
    (hwf : WellFormed H rank)
    (hthis : H[this]? = some nd) (hb : H[b]? = some bn) (hpar : bn.m_parent = none)
    (hbt : b ≠ this) (hr_new : rank2 this < rank2 b)
    (hr_old : ∀ (c : Ptr) (cn : DirNode) (q : Ptr), H[c]? = some cn → c ≠ b →
      cn.m_parent = some q → rank2 q < rank2 c) :
    WellFormed (linkChild H this b nd bn) rank2 ∧
    (SizeInv H → SizeInvShort (linkChild H this b nd bn) this bn.m_subtreeSize) ∧
    subtreeSizeAt (linkChild H this b nd bn) b = bn.m_subtreeSize := by
  obtain ⟨hgb, hgt, hgo, _⟩ := linkChild_read H this b nd bn hthis hb hbt
  obtain ⟨nd1, hnd1⟩ : ∃ nd1 : DirNode,
      nd1 = { nd with m_subdirs := nd.m_subdirs ++ [b] } := ⟨_, rfl⟩
  obtain ⟨bn2, hbn2⟩ : ∃ bn2 : DirNode,
      bn2 = { bn with m_parent := some this, m_parentPos := nd.m_subdirs.length } := ⟨_, rfl⟩
  rw [← hnd1] at hgt
  rw [← hbn2] at hgb
  obtain ⟨H2, hH2⟩ : ∃ H2 : Store, H2 = linkChild H this b nd bn := ⟨_, rfl⟩
  rw [← hH2] at hgb hgt hgo ⊢
  have hrd : ∀ (q : Ptr) (y : DirNode), H2[q]? = some y →
      (q = b ∧ y = bn2) ∨ (q = this ∧ y = nd1) ∨ (q ≠ b ∧ q ≠ this ∧ H[q]? = some y) := by
    intro q y hy
    by_cases h1 : q = b
    · subst h1; rw [hgb] at hy; exact Or.inl ⟨rfl, (Option.some.inj hy).symm⟩
    · by_cases h2 : q = this
      · subst h2; rw [hgt] at hy; exact Or.inr (Or.inl ⟨rfl, (Option.some.inj hy).symm⟩)
      · rw [hgo q h1 h2] at hy; exact Or.inr (Or.inr ⟨h1, h2, hy⟩)
  -- an object of the old store, other than `b`, keeps its back link
  have hkeep : ∀ (c : Ptr) (cn : DirNode), H[c]? = some cn → c ≠ b →
      ∃ cn2, H2[c]? = some cn2 ∧ cn2.m_parent = cn.m_parent ∧
        cn2.m_parentPos = cn.m_parentPos := by
    intro c cn hc hcb
    by_cases hct : c = this
    · subst hct
      rw [hthis] at hc; cases hc
      exact ⟨nd1, hgt, by rw [hnd1], by rw [hnd1]⟩
    · exact ⟨cn, by rw [hgo c hcb hct]; exact hc, rfl, rfl⟩
  have hsz : ∀ c, subtreeSizeAt H2 c = subtreeSizeAt H c := by
    intro c
    unfold subtreeSizeAt
    by_cases hcb : c = b
    · subst hcb; rw [hgb, hb, hbn2]
    · by_cases hct : c = this
      · subst hct; rw [hgt, hthis, hnd1]
      · rw [hgo c hcb hct]
  have hfun : subtreeSizeAt H2 = subtreeSizeAt H := funext hsz
  refine ⟨⟨?_, ?_, ?_⟩, ?_, ?_⟩
  · intro p y i c hy hc
    rcases hrd p y hy with ⟨hp, hyb⟩ | ⟨hp, hyt⟩ | ⟨hp1, hp2, hy0⟩
    · subst hp; subst hyb
      have hc0 : bn.m_subdirs[i]? = some c := by rw [hbn2] at hc; exact hc
      obtain ⟨cn, c1, c2, c3⟩ := hwf.links p bn i c hb hc0
      have hcb : c ≠ p := by
        intro h; subst h
        rw [hb] at c1
        rw [← Option.some.inj c1, hpar] at c2; cases c2
      obtain ⟨cn2, d1, d2, d3⟩ := hkeep c cn c1 hcb
      exact ⟨cn2, d1, by rw [d2]; exact c2, by rw [d3]; exact c3⟩
    · subst hp; subst hyt
      have hc0 : (nd.m_subdirs ++ [b])[i]? = some c := by rw [hnd1] at hc; exact hc
      by_cases hi : i < nd.m_subdirs.length
      · rw [List.getElem?_append_left hi] at hc0
        obtain ⟨cn, c1, c2, c3⟩ := hwf.links p nd i c hthis hc0
        have hcb : c ≠ b := by
          intro h; subst h
          rw [hb] at c1
          rw [← Option.some.inj c1, hpar] at c2; cases c2
        obtain ⟨cn2, d1, d2, d3⟩ := hkeep c cn c1 hcb
        exact ⟨cn2, d1, by rw [d2]; exact c2, by rw [d3]; exact c3⟩
      · rw [List.getElem?_append_right (Nat.le_of_not_lt hi)] at hc0
        have hi0 : i - nd.m_subdirs.length = 0 := by
          by_contra hne
          rw [List.getElem?_eq_none (by simp; omega)] at hc0
          cases hc0
        rw [hi0] at hc0
        simp only [List.getElem?_cons_zero, Option.some.injEq] at hc0
        subst hc0
        exact ⟨bn2, hgb, by rw [hbn2], by rw [hbn2]; simp only; omega⟩
    · obtain ⟨cn, c1, c2, c3⟩ := hwf.links p y i c hy0 hc
      have hcb : c ≠ b := by
        intro h; subst h
        rw [hb] at c1
        rw [← Option.some.inj c1, hpar] at c2; cases c2
      obtain ⟨cn2, d1, d2, d3⟩ := hkeep c cn c1 hcb
      exact ⟨cn2, d1, by rw [d2]; exact c2, by rw [d3]; exact c3⟩
  · intro c y q hy hq
    -- the parent object after the updates keeps the old child list at its front
    have hparent : ∀ (qn : DirNode) (k : Nat), H[q]? = some qn →
        qn.m_subdirs[k]? = some c → ∃ qn2, H2[q]? = some qn2 ∧ qn2.m_subdirs[k]? = some c := by
      intro qn k hqn hk
      by_cases hqb : q = b
      · subst hqb
        rw [hb] at hqn; cases hqn
        exact ⟨bn2, hgb, by rw [hbn2]; exact hk⟩
      · by_cases hqt : q = this
        · subst hqt
          rw [hthis] at hqn; cases hqn
          refine ⟨nd1, hgt, ?_⟩
          rw [hnd1]
          simp only
          rw [List.getElem?_append_left (StdHeap.lt_length_of_getElem? hk)]
          exact hk
        · exact ⟨qn, by rw [hgo q hqb hqt]; exact hqn, hk⟩
    rcases hrd c y hy with ⟨hp, hyb⟩ | ⟨hp, hyt⟩ | ⟨hp1, hp2, hy0⟩
    · subst hp; subst hyb
      have hqt : q = this := by
        rw [hbn2] at hq; simp only [Option.some.injEq] at hq; exact hq.symm
      subst hqt
      refine ⟨nd1, hgt, ?_⟩
      rw [hnd1, hbn2]
      simp
    · subst hp; subst hyt
      have hq0 : nd.m_parent = some q := by rw [hnd1] at hq; exact hq
      obtain ⟨qn, q1, q2⟩ := hwf.backlinks c nd q hthis hq0
      obtain ⟨qn2, e1, e2⟩ := hparent qn _ q1 q2
      exact ⟨qn2, e1, by rw [hnd1]; exact e2⟩
    · obtain ⟨qn, q1, q2⟩ := hwf.backlinks c y q hy0 hq
      exact hparent qn _ q1 q2
  · intro c y q hy hq
    rcases hrd c y hy with ⟨hp, hyb⟩ | ⟨hp, hyt⟩ | ⟨hp1, hp2, hy0⟩
    · subst hp; subst hyb
      have hqt : q = this := by
        rw [hbn2] at hq; simp only [Option.some.injEq] at hq; exact hq.symm
      subst hqt
      exact hr_new
    · subst hp; subst hyt
      have hq0 : nd.m_parent = some q := by rw [hnd1] at hq; exact hq
      exact hr_old c nd q hthis (Ne.symm hbt) hq0
    · exact hr_old c y q hy0 hp1 hq
  · intro hinv q y hy
    rw [hfun]
    rcases hrd q y hy with ⟨hp, hyb⟩ | ⟨hp, hyt⟩ | ⟨hp1, hp2, hy0⟩
    · subst hp; subst hyb
      have := hinv q bn hb
      rw [if_neg hbt, hbn2]
      simp only
      rw [this]; ring
    · subst hp; subst hyt
      have := hinv q nd hthis
      rw [if_pos rfl, hnd1]
      simp only [List.map_append, List.sum_append, List.map_cons, List.map_nil, List.sum_cons,
        List.sum_nil]
      have hbs : subtreeSizeAt H b = bn.m_subtreeSize := by simp [subtreeSizeAt, hb]
      rw [this, hbs]; ring
    · have := hinv q y hy0
      rw [if_neg hp2, this]; ring
  · rw [hsz]; simp [subtreeSizeAt, hb]

/-- The child append returns and keeps well-formedness for the rank `rank2`. -/
theorem appendDir_spec_rank (rank rank2 : Ptr → Nat) (fuel : Nat) (H : Store) (this b : Ptr)
    (nd bn : DirNode) (hwf : WellFormed H rank) (hinv : SizeInv H)
    (hthis : H[this]? = some nd) (hb : H[b]? = some bn) (hpar : bn.m_parent = none)
    (hbt : b ≠ this) (hr_new : rank2 this < rank2 b)
    (hr_old : ∀ (c : Ptr) (cn : DirNode) (q : Ptr), H[c]? = some cn → c ≠ b →
      cn.m_parent = some q → rank2 q < rank2 c)
    (hfuel : rank2 this < fuel) :
    ∃ H2, appendDir fuel H this b = some H2 ∧ WellFormed H2 rank2 ∧ SizeInv H2 := by
  obtain ⟨hwf2, hshort, hszb⟩ := linkChild_inv rank rank2 H this b nd bn hwf hthis hb hpar
    hbt hr_new hr_old
  have hshort := hshort hinv
  obtain ⟨_, hgt, _, _⟩ := linkChild_read H this b nd bn hthis hb hbt
  rw [appendDir_eq fuel H this b nd bn hthis hb hbt,
    addUpFrom_eq rank2 b bn.m_subtreeSize fuel _ (some this) hwf2 hszb
      (by intro q hq; cases hq; exact hr_new)]
  exact addUp_spec rank2 bn.m_subtreeSize fuel _ this _ hwf2 hshort hgt hfuel

/-- The rank that lifts the subtree of `b` above `this`. -/
theorem shifted_rank (rank : Ptr → Nat) (H : Store) (this b : Ptr)
    (hwf : WellFormed H rank) (habove : ¬ Above H b this) :
    ∃ rank2 : Ptr → Nat, rank2 this = rank this ∧ rank2 this < rank2 b ∧
      ∀ (c : Ptr) (cn : DirNode) (q : Ptr), H[c]? = some cn → c ≠ b →
        cn.m_parent = some q → rank2 q < rank2 c := by
  classical
  refine ⟨fun x => if Above H b x then rank x + rank this + 1 else rank x, ?_, ?_, ?_⟩
  · simp [habove]
  · simp only [habove, if_false, Above.self, if_true]; omega
  · intro c cn q hc hcb hq
    have hold := hwf.ranked c cn q hc hq
    simp only
    by_cases haq : Above H b q
    · have hac : Above H b c := Above.step b c q cn hc hq haq
      simp only [haq, hac, if_true]; omega
    · have hac : ¬ Above H b c := by
        intro h
        cases h with
        | self => exact hcb rfl
        | step =>
          rename_i q2 nd2 hpar2 hab2 hget2
          rw [hc] at hget2
          rw [← Option.some.inj hget2, hq] at hpar2
          rw [← Option.some.inj hpar2] at hab2
          exact haq hab2
      simp only [haq, hac, if_false]; exact hold

theorem appendDir_spec (rank : Ptr → Nat) (fuel : Nat) (H : Store) (this b : Ptr)
    (nd bn : DirNode) (hwf : WellFormed H rank) (hinv : SizeInv H)
    (hthis : H[this]? = some nd) (hb : H[b]? = some bn) (hpar : bn.m_parent = none)
    (habove : ¬ Above H b this) (hfuel : rank this < fuel) :
    ∃ H2, appendDir fuel H this b = some H2 ∧ (∃ rank2, WellFormed H2 rank2) ∧ SizeInv H2 := by
  have hbt : b ≠ this := by
    intro h; subst h; exact habove (Above.self _)
  obtain ⟨rank2, h1, h2, h3⟩ := shifted_rank rank H this b hwf habove
  obtain ⟨H2, e1, e2, e3⟩ := appendDir_spec_rank rank rank2 fuel H this b nd bn hwf hinv hthis hb
    hpar hbt h2 h3 (by rw [h1]; exact hfuel)
  exact ⟨H2, e1, ⟨rank2, e2⟩, e3⟩

end Store

namespace Store

theorem append_mono (fuel k : Nat) (H : Store) (this : Ptr) (size time : Int) (H2 : Store)
    (h : append fuel H this size time = some H2) :
    append (fuel + k) H this size time = some H2 := by
  unfold append at h ⊢
  cases hp : H[this]? with
  | none => rw [hp] at h; simp at h
  | some nd =>
    rw [hp] at h
    simp only at h ⊢
    exact addUp_mono _ _ _ _ _ _ h

theorem appendDir_mono (fuel k : Nat) (H : Store) (this b : Ptr) (H2 : Store)
    (h : appendDir fuel H this b = some H2) :
    appendDir (fuel + k) H this b = some H2 := by
  unfold appendDir at h ⊢
  cases hp : H[this]? with
  | none => rw [hp] at h; simp at h
  | some nd =>
    rw [hp] at h
    simp only at h ⊢
    cases hb : (H.set this { nd with m_subdirs := nd.m_subdirs ++ [b] })[b]? with
    | none => rw [hb] at h; simp at h
    | some bn =>
      rw [hb] at h
      simp only at h ⊢
      exact addUpFrom_mono _ _ _ _ _ _ h

theorem alloc_inv (rank : Ptr → Nat) (H : Store) (hwf : WellFormed H rank) (hinv : SizeInv H) :
    WellFormed (alloc H).1 rank ∧ SizeInv (alloc H).1 := by
  have hrd : ∀ (q : Ptr) (y : DirNode), (H ++ [DirNode.new])[q]? = some y →
      H[q]? = some y ∨ y = DirNode.new := by
    intro q y hy
    by_cases hq : q < H.length
    · rw [List.getElem?_append_left hq] at hy; exact Or.inl hy
    · have hge : H.length ≤ q := Nat.le_of_not_lt hq
      rw [List.getElem?_append_right hge] at hy
      have := List.getElem?_mem hy
      exact Or.inr (List.mem_singleton.1 this)
  have hwr : ∀ (q : Ptr) (y : DirNode), H[q]? = some y → (H ++ [DirNode.new])[q]? = some y := by
    intro q y hy
    rw [List.getElem?_append_left (StdHeap.lt_length_of_getElem? hy)]; exact hy
  refine ⟨⟨?_, ?_, ?_⟩, ?_⟩
  · intro p y i c hy hc
    rcases hrd p y hy with h | h
    · obtain ⟨cn, c1, c2, c3⟩ := hwf.links p y i c h hc
      exact ⟨cn, hwr c cn c1, c2, c3⟩
    · subst h; simp [DirNode.new] at hc
  · intro c y q hy hq
    rcases hrd c y hy with h | h
    · obtain ⟨qn, q1, q2⟩ := hwf.backlinks c y q h hq
      exact ⟨qn, hwr q qn q1, q2⟩
    · subst h; simp [DirNode.new] at hq
  · intro c y q hy hq
    rcases hrd c y hy with h | h
    · exact hwf.ranked c y q h hq
    · subst h; simp [DirNode.new] at hq
  · intro p y hy
    rcases hrd p y hy with h | h
    · rw [hinv p y h]
      congr 1
      congr 1
      apply List.map_congr_left
      intro c hc
      obtain ⟨i, hi, hic⟩ := List.getElem_of_mem hc
      obtain ⟨cn, c1, _, _⟩ := hwf.links p y i c h (by simp [List.getElem?_eq_getElem hi, hic])
      simp only [subtreeSizeAt, alloc, c1, hwr c cn c1]
    · subst h; simp [DirNode.new]

theorem root_inv : WellFormed [DirNode.new] (fun _ => 0) ∧ SizeInv [DirNode.new] := by
  have hrd : ∀ (q : Ptr) (y : DirNode), ([DirNode.new] : Store)[q]? = some y →
      y = DirNode.new := by
    intro q y hy
    exact List.mem_singleton.1 (List.getElem?_mem hy)
  refine ⟨⟨?_, ?_, ?_⟩, ?_⟩
  · intro p y i c hy hc
    rw [hrd p y hy] at hc; simp [DirNode.new] at hc
  · intro c y q hy hq
    rw [hrd c y hy] at hq; simp [DirNode.new] at hq
  · intro c y q hy hq
    rw [hrd c y hy] at hq; simp [DirNode.new] at hq
  · intro p y hy
    rw [hrd p y hy]; simp [DirNode.new]

/-- Every store built by allocations and appends from an empty root is well formed and
satisfies the size invariant. -/
theorem built_inv (H : Store) (h : Built H) : (∃ rank, WellFormed H rank) ∧ SizeInv H := by
  induction h with
  | root => exact ⟨⟨_, root_inv.1⟩, root_inv.2⟩
  | alloc H _ ih =>
    obtain ⟨⟨rank, hwf⟩, hinv⟩ := ih
    exact ⟨⟨rank, (alloc_inv rank H hwf hinv).1⟩, (alloc_inv rank H hwf hinv).2⟩
  | append H H2 fuel this size time _ hrun ih =>
    obtain ⟨⟨rank, hwf⟩, hinv⟩ := ih
    have hex : ∃ nd, H[this]? = some nd := by
      cases hp : H[this]? with
      | none => unfold append at hrun; rw [hp] at hrun; simp at hrun
      | some nd => exact ⟨nd, rfl⟩
    obtain ⟨nd, hnd⟩ := hex
    obtain ⟨H3, h1, h2, h3⟩ := append_spec rank (fuel + (rank this + 1)) H this nd size time
      hwf hinv hnd (by omega)
    rw [append_mono fuel _ H this size time H2 hrun] at h1
    cases h1
    exact ⟨⟨rank, h2⟩, h3⟩
  | appendDir H H2 fuel this subdir b _ hb hparent habove hrun ih =>
    obtain ⟨⟨rank, hwf⟩, hinv⟩ := ih
    have hex : ∃ nd, H[this]? = some nd := by
      cases hp : H[this]? with
      | none => unfold appendDir at hrun; rw [hp] at hrun; simp at hrun
      | some nd => exact ⟨nd, rfl⟩
    obtain ⟨nd, hnd⟩ := hex
    obtain ⟨H3, h1, h2, h3⟩ := appendDir_spec rank (fuel + (rank this + 1)) H this subdir nd b
      hwf hinv hnd hb hparent habove (by omega)
    rw [appendDir_mono fuel _ H this subdir H2 hrun] at h1
    cases h1
    exact ⟨h2, h3⟩

end Store

/-- C2: both `DirTree::append` overloads return and preserve the size invariant
`subtreeSize(n) = filesSize(n) + Σ subtreeSize(c)`: in a well-formed store in which every
object satisfies it, `append(size, time)` on any object, and `append(child)` of a parentless
object that is not above the receiver, leave a store in which every object satisfies it.
Consequently it holds in every store built by such appends from an empty root. -/
theorem C2_appends_preserve_size_invariant (H : Store) (rank : Ptr → Nat)
    (hwf : Store.WellFormed H rank) (hinv : Store.SizeInv H) :
    (∀ (this : Ptr) (size time : Int) (fuel : Nat), this < H.length → rank this < fuel →
      ∃ H2, Store.append fuel H this size time = some H2 ∧ Store.WellFormed H2 rank ∧
        Store.SizeInv H2) ∧
    (∀ (this subdir : Ptr) (b : DirNode) (fuel : Nat), this < H.length →
      H[subdir]? = some b → b.m_parent = none → ¬ Store.Above H subdir this → rank this < fuel →
      ∃ H2, Store.appendDir fuel H this subdir = some H2 ∧
        (∃ rank2, Store.WellFormed H2 rank2) ∧ Store.SizeInv H2) ∧
    (∀ B : Store, Store.Built B → Store.SizeInv B) := by
  refine ⟨?_, ?_, fun B hB => (Store.built_inv B hB).2⟩
  · intro this size time fuel hlt hfuel
    exact Store.append_spec rank fuel H this _ size time hwf hinv
      (List.getElem?_eq_getElem hlt) hfuel
  · intro this subdir b fuel hlt hb hpar habove hfuel
    exact Store.appendDir_spec rank fuel H this subdir _ b hwf hinv
      (List.getElem?_eq_getElem hlt) hb hpar habove hfuel

/-- Witness of C2: in the store of two fresh objects, a file append on object 0 and the
append of object 1 below object 0 both return and keep the size invariant. -/
theorem C2_witness :
    (∃ H2, Store.append 1 [DirNode.new, DirNode.new] 0 42 1000 = some H2 ∧
      Store.SizeInv H2) ∧
    (∃ H2, Store.appendDir 1 [DirNode.new, DirNode.new] 0 1 = some H2 ∧ Store.SizeInv H2) := by
  have hw := Store.alloc_inv (fun _ => 0) [DirNode.new] Store.root_inv.1 Store.root_inv.2
  have habove : ¬ Store.Above [DirNode.new, DirNode.new] 1 0 := by
    intro h
    cases h with
    | step =>
      rename_i q nd hpar habove hget
      simp only [List.getElem?_cons_zero, Option.some.injEq] at hget
      subst hget
      simp [DirNode.new] at hpar
  have h := C2_appends_preserve_size_invariant [DirNode.new, DirNode.new] (fun _ => 0) hw.1 hw.2
  obtain ⟨H2, e1, _, e2⟩ := h.1 0 42 1000 1 (by decide) (by decide)
  obtain ⟨H3, e3, _, e4⟩ := h.2.1 0 1 DirNode.new 1 (by decide) (by decide) (by decide)
    habove (by decide)
  exact ⟨⟨H2, e1, e2⟩, ⟨H3, e3, e4⟩⟩

namespace Store

theorem above_rank {H : Store} {rank : Ptr → Nat} (hwf : WellFormed H rank) {a x : Ptr}
    (h : Above H a x) : rank a ≤ rank x := by
  induction h with
  | self => exact le_refl _
  | step p q nd hp hq _ ih =>
    have := hwf.ranked p nd q hp hq
    omega

/-- Two stores with the same parent pointers have the same ancestor relation. -/
theorem above_congr {H H2 : Store}
    (hpar : ∀ (x : Ptr) (y : DirNode), H[x]? = some y →
      ∃ y2, H2[x]? = some y2 ∧ y2.m_parent = y.m_parent) {a x : Ptr}
    (h : Above H a x) : Above H2 a x := by
  induction h with
  | self => exact Above.self _
  | step p q nd hp hq _ ih =>
    obtain ⟨y2, e1, e2⟩ := hpar p nd hp
    exact Above.step _ p q y2 e1 (by rw [e2]; exact hq) ih

/-- Frame of the propagation loop started at `p`: it returns, adds `d` to the subtree size of
`p` and of each ancestor of `p`, and changes nothing else. -/
theorem addUp_frame (rank : Ptr → Nat) (d : Int) :
    ∀ (fuel : Nat) (H : Store) (p : Ptr) (ndp : DirNode), WellFormed H rank →
      H[p]? = some ndp → rank p < fuel →
      ∃ H2, addUp fuel H (some p) d = some H2 ∧ H2.length = H.length ∧
        ∀ (q : Ptr) (y : DirNode), H[q]? = some y →
          ∃ y2, H2[q]? = some y2 ∧ SameButSubtreeSize y y2 ∧
            (Above H q p → y2.m_subtreeSize = y.m_subtreeSize + d) ∧
            (¬ Above H q p → y2.m_subtreeSize = y.m_subtreeSize) := by
  intro fuel
  induction fuel with
  | zero => intro H p ndp _ _ h; omega
  | succ fuel ih =>
    intro H p ndp hwf hp hfuel
    rw [addUp]
    simp only [hp]
    obtain ⟨H1, hH1⟩ : ∃ H1 : Store,
        H1 = H.set p { ndp with m_subtreeSize := ndp.m_subtreeSize + d } := ⟨_, rfl⟩
    rw [← hH1]
    have hwf1 : WellFormed H1 rank := by
      rw [hH1]; exact wellFormed_set hwf hp rfl rfl rfl
    have hlen1 : H1.length = H.length := by rw [hH1]; simp
    have h1p : H1[p]? = some { ndp with m_subtreeSize := ndp.m_subtreeSize + d } := by
      rw [hH1]; exact get_set_self _ hp
    have h1o : ∀ q, q ≠ p → H1[q]? = H[q]? := by
      intro q hq; rw [hH1]; exact get_set_ne _ hq
    cases hpar : ndp.m_parent with
    | none =>
      refine ⟨H1, by simp [addUp], hlen1, ?_⟩
      intro q y hy
      by_cases hq : q = p
      · subst hq
        rw [hp] at hy; cases hy
        exact ⟨_, h1p, ⟨rfl, rfl, rfl, rfl, rfl, rfl⟩, fun _ => rfl,
          fun h => absurd (Above.self _) h⟩
      · refine ⟨y, by rw [h1o q hq]; exact hy, ⟨rfl, rfl, rfl, rfl, rfl, rfl⟩, ?_, fun _ => rfl⟩
        intro hab
        cases hab with
        | self => exact absurd rfl hq
        | step =>
          rename_i q2 nd2 hpar2 hab2 hget2
          rw [hp] at hget2
          rw [← Option.some.inj hget2, hpar] at hpar2
          cases hpar2
    | some a =>
      obtain ⟨an, ha, _⟩ := hwf.backlinks p ndp a hp hpar
      have hrk := hwf.ranked p ndp a hp hpar
      have hap : a ≠ p := by intro h; rw [h] at hrk; omega
      have ha1 : H1[a]? = some an := by rw [h1o a hap]; exact ha
      obtain ⟨H2, e1, e2, e3⟩ := ih H1 a an hwf1 ha1 (by omega)
      refine ⟨H2, e1, by rw [e2, hlen1], ?_⟩
      have hto1 : ∀ (x : Ptr) (y : DirNode), H[x]? = some y →
          ∃ y2, H1[x]? = some y2 ∧ y2.m_parent = y.m_parent := by
        intro x y hy
        by_cases hx : x = p
        · subst hx
          rw [hp] at hy; cases hy
          exact ⟨_, h1p, rfl⟩
        · exact ⟨y, by rw [h1o x hx]; exact hy, rfl⟩
      have hfrom1 : ∀ (x : Ptr) (y : DirNode), H1[x]? = some y →
          ∃ y2, H[x]? = some y2 ∧ y2.m_parent = y.m_parent := by
        intro x y hy
        by_cases hx : x = p
        · subst hx
          rw [h1p] at hy; cases hy
          exact ⟨_, hp, rfl⟩
        · exact ⟨y, by rw [← h1o x hx]; exact hy, rfl⟩
      intro q y hy
      by_cases hq : q = p
      · subst hq
        rw [hp] at hy; cases hy
        obtain ⟨y2, f1, f2, _, f4⟩ := e3 q _ h1p
        have hnot : ¬ Above H1 q a := by
          intro hab
          have := above_rank hwf1 hab
          omega
        obtain ⟨g1, g2, g3, g4, g5, g6⟩ := f2
        exact ⟨y2, f1, ⟨g1, g2, g3, g4, g5, g6⟩, fun _ => f4 hnot,
          fun h => absurd (Above.self _) h⟩
      · obtain ⟨y2, f1, f2, f3, f4⟩ := e3 q y (by rw [h1o q hq]; exact hy)
        refine ⟨y2, f1, f2, ?_, ?_⟩
        · intro hab
          apply f3
          cases hab with
          | self => exact absurd rfl hq
          | step =>
            rename_i q2 nd2 hpar2 hab2 hget2
            rw [hp] at hget2
            rw [← Option.some.inj hget2, hpar] at hpar2
            rw [← Option.some.inj hpar2] at hab2
            exact above_congr hto1 hab2
        · intro hnab
          apply f4
          intro hab
          exact hnab (Above.step q p a ndp hp hpar (above_congr hfrom1 hab))

end Store

namespace Store

theorem insertByTime_perm (f : FileInfo) (l : List FileInfo) :
    (insertByTime f l).Perm (f :: l) := by
  induction l with
  | nil => exact List.Perm.refl _
  | cons g gs ih =>
    rw [insertByTime]
    split
    · exact (ih.cons g).trans (List.Perm.swap f g gs)
    · exact List.Perm.refl _

theorem insertByTime_sorted (f : FileInfo) (l : List FileInfo) (h : DirTree.timeSorted l) :
    DirTree.timeSorted (insertByTime f l) := by
  induction l with
  | nil => exact List.pairwise_singleton _ _
  | cons g gs ih =>
    rw [insertByTime]
    split
    · rename_i hlt
      refine List.Pairwise.cons ?_ (ih (List.Pairwise.of_cons h))
      intro x hx
      rcases List.mem_cons.1 ((insertByTime_perm f gs).subset hx) with e | e
      · subst e; omega
      · exact List.rel_of_pairwise_cons h e
    · rename_i hge
      refine List.Pairwise.cons ?_ h
      intro x hx
      rcases List.mem_cons.1 hx with e | e
      · subst e; omega
      · have := List.rel_of_pairwise_cons h e
        omega

theorem sortByTime_perm (l : List FileInfo) : (sortByTime l).Perm l := by
  induction l with
  | nil => exact List.Perm.refl _
  | cons f fs ih =>
    rw [sortByTime]
    exact (insertByTime_perm f _).trans (ih.cons f)

theorem sortByTime_sorted (l : List FileInfo) : DirTree.timeSorted (sortByTime l) := by
  induction l with
  | nil => exact List.Pairwise.nil
  | cons f fs ih =>
    rw [sortByTime]
    exact insertByTime_sorted f _ ih

end Store

/-- C12: `finalize()` on an object leaves its files sorted by non-decreasing time, a
permutation of the files before the call; its name, sizes, child list and back links, and
every other object, are unchanged. -/
theorem C12_finalize_sorts (H : Store) (this : Ptr) (nd : DirNode)
    (hthis : H[this]? = some nd) :
    ∃ H2 nd2, Store.finalize H this = some H2 ∧ H2[this]? = some nd2 ∧
      DirTree.timeSorted nd2.m_files ∧ nd2.m_files.Perm nd.m_files ∧
      nd2.m_filesSize = nd.m_filesSize ∧ nd2.m_subtreeSize = nd.m_subtreeSize ∧
      nd2.m_subdirs = nd.m_subdirs ∧ nd2.m_name = nd.m_name ∧ nd2.m_parent = nd.m_parent ∧
      nd2.m_parentPos = nd.m_parentPos ∧ H2.length = H.length ∧
      ∀ q, q ≠ this → H2[q]? = H[q]? := by
  refine ⟨H.set this { nd with m_files := Store.sortByTime nd.m_files },
    { nd with m_files := Store.sortByTime nd.m_files },
    by simp [Store.finalize, hthis], Store.get_set_self _ hthis,
    Store.sortByTime_sorted _, Store.sortByTime_perm _, rfl, rfl, rfl, rfl, rfl, rfl,
    by simp, ?_⟩
  intro q hq
  exact Store.get_set_ne _ hq

/-- Witness of C12: an object with files at the times 30, 10, 20. -/
theorem C12_witness :
    ∃ H2 nd2, Store.finalize
        [{ DirNode.new with m_files := [⟨1, 30⟩, ⟨2, 10⟩, ⟨3, 20⟩], m_filesSize := 6,
                            m_subtreeSize := 6 }] 0 = some H2 ∧
      H2[0]? = some nd2 ∧ nd2.m_files = [⟨2, 10⟩, ⟨3, 20⟩, ⟨1, 30⟩] := by
  obtain ⟨H2, nd2, h1, h2, _⟩ := C12_finalize_sorts
    [{ DirNode.new with m_files := [⟨1, 30⟩, ⟨2, 10⟩, ⟨3, 20⟩], m_filesSize := 6,
                        m_subtreeSize := 6 }] 0 _ rfl
  refine ⟨H2, nd2, h1, h2, ?_⟩
  have h3 : Store.finalize
      [{ DirNode.new with m_files := [⟨1, 30⟩, ⟨2, 10⟩, ⟨3, 20⟩], m_filesSize := 6,
                          m_subtreeSize := 6 }] 0 =
      some [{ DirNode.new with m_files := [⟨2, 10⟩, ⟨3, 20⟩, ⟨1, 30⟩], m_filesSize := 6,
                               m_subtreeSize := 6 }] := by decide
  rw [h3] at h1
  cases h1
  simp at h2
  rw [← h2]

namespace Store

theorem pushFile_same (init : List FileInfo) (last : FileInfo) (size : Int) :
    pushFile (init ++ [last]) size last.time =
      init ++ [{ size := last.size + size, time := last.time }] := by
  simp [pushFile]

theorem pushFile_other (files : List FileInfo) (size time : Int)
    (h : ∀ last, files.getLast? = some last → last.time ≠ time) :
    pushFile files size time = files ++ [{ size := size, time := time }] := by
  unfold pushFile
  cases hl : files.getLast? with
  | none => rfl
  | some last => simp [h last hl]

/-- Frame of `append(size, time)`: it returns, and only the file list and `filesSize` of
the receiver and the subtree sizes of the receiver and its ancestors change. -/
theorem append_frame (rank : Ptr → Nat) (fuel : Nat) (H : Store) (this : Ptr) (nd : DirNode)
    (size time : Int) (hwf : WellFormed H rank) (hthis : H[this]? = some nd)
    (hfuel : rank this < fuel) :
    ∃ H2, append fuel H this size time = some H2 ∧ H2.length = H.length ∧
      (∃ nd2, H2[this]? = some nd2 ∧ nd2.m_files = pushFile nd.m_files size time ∧
        nd2.m_filesSize = nd.m_filesSize + size ∧ nd2.m_name = nd.m_name ∧
        nd2.m_subdirs = nd.m_subdirs ∧ nd2.m_parent = nd.m_parent ∧
        nd2.m_parentPos = nd.m_parentPos) ∧
      (∀ (q : Ptr) (y : DirNode), H[q]? = some y → q ≠ this →
        ∃ y2, H2[q]? = some y2 ∧ SameButSubtreeSize y y2) ∧
      (∀ (q : Ptr) (y : DirNode), H[q]? = some y →
        ∃ y2, H2[q]? = some y2 ∧
          (Above H q this → y2.m_subtreeSize = y.m_subtreeSize + size) ∧
          (¬ Above H q this → y2.m_subtreeSize = y.m_subtreeSize)) := by
  unfold append
  simp only [hthis]
  obtain ⟨nd0, hnd0⟩ : ∃ nd0 : DirNode,
      nd0 = { nd with m_files := pushFile nd.m_files size time,
                      m_filesSize := nd.m_filesSize + size } := ⟨_, rfl⟩
  rw [← hnd0]
  obtain ⟨H0, hH0⟩ : ∃ H0 : Store, H0 = H.set this nd0 := ⟨_, rfl⟩
  rw [← hH0]
  have hwf0 : WellFormed H0 rank := by
    rw [hH0]; exact wellFormed_set hwf hthis (by rw [hnd0]) (by rw [hnd0]) (by rw [hnd0])
  have h0t : H0[this]? = some nd0 := by rw [hH0]; exact get_set_self _ hthis
  have h0o : ∀ q, q ≠ this → H0[q]? = H[q]? := by
    intro q hq; rw [hH0]; exact get_set_ne _ hq
  have hto : ∀ (x : Ptr) (y : DirNode), H[x]? = some y →
      ∃ y2, H0[x]? = some y2 ∧ y2.m_parent = y.m_parent := by
    intro x y hy
    by_cases hx : x = this
    · subst hx
      rw [hthis] at hy; cases hy
      exact ⟨_, h0t, by rw [hnd0]⟩
    · exact ⟨y, by rw [h0o x hx]; exact hy, rfl⟩
  have hfrom : ∀ (x : Ptr) (y : DirNode), H0[x]? = some y →
      ∃ y2, H[x]? = some y2 ∧ y2.m_parent = y.m_parent := by
    intro x y hy
    by_cases hx : x = this
    · subst hx
      rw [h0t] at hy; cases hy
      exact ⟨_, hthis, by rw [hnd0]⟩
    · exact ⟨y, by rw [← h0o x hx]; exact hy, rfl⟩
  obtain ⟨H2, e1, e2, e3⟩ := addUp_frame rank size fuel H0 this nd0 hwf0 h0t hfuel
  refine ⟨H2, e1, by rw [e2, hH0]; simp, ?_, ?_, ?_⟩
  · obtain ⟨y2, f1, ⟨g1, g2, g3, g4, g5, g6⟩, _, _⟩ := e3 this nd0 h0t
    exact ⟨y2, f1, by rw [g2, hnd0], by rw [g6, hnd0], by rw [g1, hnd0], by rw [g3, hnd0],
      by rw [g4, hnd0], by rw [g5, hnd0]⟩
  · intro q y hy hq
    obtain ⟨y2, f1, f2, _, _⟩ := e3 q y (by rw [h0o q hq]; exact hy)
    exact ⟨y2, f1, f2⟩
  · intro q y hy
    by_cases hq : q = this
    · subst hq
      rw [hthis] at hy; cases hy
      obtain ⟨y2, f1, _, f3, _⟩ := e3 q nd0 h0t
      refine ⟨y2, f1, fun _ => ?_, fun h => absurd (Above.self _) h⟩
      rw [f3 (Above.self _), hnd0]
    · obtain ⟨y2, f1, _, f3, f4⟩ := e3 q y (by rw [h0o q hq]; exact hy)
      exact ⟨y2, f1, fun h => f3 (above_congr hto h),
        fun h => f4 (fun h2 => h (above_congr hfrom h2))⟩

end Store

/-- C13: `append(size, time)` on any object returns and adds `size` to the size of the
last file entry, leaving `numFiles()` as it was, when that entry has the identical time;
otherwise it pushes the new entry `{size, time}` at the back, so `numFiles()` grows by one.
In both cases the earlier entries are unchanged. -/
theorem C13_append_file_coalesces (H : Store) (rank : Ptr → Nat) (this : Ptr) (nd : DirNode)
    (size time : Int) (fuel : Nat) (hwf : Store.WellFormed H rank) (hthis : H[this]? = some nd)
    (hfuel : rank this < fuel) :
    ∃ H2 nd2, Store.append fuel H this size time = some H2 ∧ H2[this]? = some nd2 ∧
      (∀ init last, nd.m_files = init ++ [last] → last.time = time →
        nd2.m_files = init ++ [{ size := last.size + size, time := time }] ∧
        nd2.m_files.length = nd.m_files.length) ∧
      ((nd.m_files = [] ∨ ∃ init last, nd.m_files = init ++ [last] ∧ last.time ≠ time) →
        nd2.m_files = nd.m_files ++ [{ size := size, time := time }] ∧
        nd2.m_files.length = nd.m_files.length + 1) := by
  obtain ⟨H2, e1, _, ⟨nd2, f1, f2, _⟩, _, _⟩ :=
    Store.append_frame rank fuel H this nd size time hwf hthis hfuel
  refine ⟨H2, nd2, e1, f1, ?_, ?_⟩
  · intro init last hfiles htime
    rw [f2, hfiles, ← htime, Store.pushFile_same]
    simp
  · intro h
    have hp : nd2.m_files = nd.m_files ++ [{ size := size, time := time }] := by
      rw [f2]
      apply Store.pushFile_other
      intro last hlast
      rcases h with h | ⟨init, last2, h, hne⟩
      · rw [h] at hlast; simp at hlast
      · rw [h] at hlast
        simp at hlast
        rw [← hlast]; exact hne
    exact ⟨hp, by rw [hp]; simp⟩

/-- Witness of C13: a file at time 7 appended to an object whose last entry has time 7. -/
theorem C13_witness :
    ∃ H2 nd2, Store.append 1
        [{ DirNode.new with m_files := [⟨1, 5⟩, ⟨2, 7⟩], m_filesSize := 3, m_subtreeSize := 3 }]
        0 10 7 = some H2 ∧ H2[0]? = some nd2 ∧ nd2.m_files = [⟨1, 5⟩, ⟨12, 7⟩] := by
  have hwf : Store.WellFormed
      [{ DirNode.new with m_files := [⟨1, 5⟩, ⟨2, 7⟩], m_filesSize := 3, m_subtreeSize := 3 }]
      (fun _ => 0) := by
    have hrd : ∀ (q : Ptr) (y : DirNode),
        ([{ DirNode.new with m_files := [⟨1, 5⟩, ⟨2, 7⟩], m_filesSize := 3,
                             m_subtreeSize := 3 }] : Store)[q]? = some y →
        y.m_subdirs = [] ∧ y.m_parent = none := by
      intro q y hy
      have := List.mem_singleton.1 (List.getElem?_mem hy)
      subst this
      exact ⟨rfl, rfl⟩
    refine ⟨?_, ?_, ?_⟩
    · intro p y i c hy hc
      rw [(hrd p y hy).1] at hc; simp at hc
    · intro c y q hy hq
      rw [(hrd c y hy).2] at hq; cases hq
    · intro c y q hy hq
      rw [(hrd c y hy).2] at hq; cases hq
  obtain ⟨H2, nd2, h1, h2, h3, _⟩ := C13_append_file_coalesces _ (fun _ => 0) 0 _ 10 7 1 hwf
    rfl (by decide)
  exact ⟨H2, nd2, h1, h2, (h3 [⟨1, 5⟩] ⟨2, 7⟩ rfl rfl).1⟩

namespace Store

/-- Frame of `append(DirTree*)`: it returns; the child is pushed at the back of the child
list of the receiver and gets its back links; the subtree sizes of the receiver and its
ancestors grow by the subtree size of the child; nothing else changes. -/
theorem appendDir_frame (rank : Ptr → Nat) (fuel : Nat) (H : Store) (this b : Ptr)
    (nd bn : DirNode) (hwf : WellFormed H rank)
    (hthis : H[this]? = some nd) (hb : H[b]? = some bn) (hpar : bn.m_parent = none)
    (habove : ¬ Above H b this) (hfuel : rank this < fuel) :
    ∃ H2, appendDir fuel H this b = some H2 ∧ H2.length = H.length ∧
      (∃ nd2, H2[this]? = some nd2 ∧ nd2.m_subdirs = nd.m_subdirs ++ [b] ∧
        nd2.m_parent = nd.m_parent ∧ nd2.m_parentPos = nd.m_parentPos ∧
        nd2.m_files = nd.m_files ∧ nd2.m_filesSize = nd.m_filesSize ∧ nd2.m_name = nd.m_name) ∧
      (∃ bn2, H2[b]? = some bn2 ∧ bn2.m_parent = some this ∧
        bn2.m_parentPos = nd.m_subdirs.length ∧ bn2.m_subdirs = bn.m_subdirs ∧
        bn2.m_files = bn.m_files ∧ bn2.m_filesSize = bn.m_filesSize ∧
        bn2.m_name = bn.m_name) ∧
      (∀ (q : Ptr) (y : DirNode), H[q]? = some y → q ≠ this → q ≠ b →
        ∃ y2, H2[q]? = some y2 ∧ SameButSubtreeSize y y2) ∧
      (∀ (q : Ptr) (y : DirNode), H[q]? = some y →
        ∃ y2, H2[q]? = some y2 ∧
          (Above H q this → y2.m_subtreeSize = y.m_subtreeSize + bn.m_subtreeSize) ∧
          (¬ Above H q this → y2.m_subtreeSize = y.m_subtreeSize)) := by
  have hbt : b ≠ this := by
    intro h; subst h; exact habove (Above.self _)
  obtain ⟨rank2, r1, r2, r3⟩ := shifted_rank rank H this b hwf habove
  obtain ⟨hwf2, _, hszb⟩ := linkChild_inv rank rank2 H this b nd bn hwf hthis hb hpar
    hbt r2 r3
  obtain ⟨hgb, hgt, hgo, hlen⟩ := linkChild_read H this b nd bn hthis hb hbt
  rw [appendDir_eq fuel H this b nd bn hthis hb hbt,
    addUpFrom_eq rank2 b bn.m_subtreeSize fuel _ (some this) hwf2 hszb
      (by intro q hq; cases hq; exact r2)]
  obtain ⟨H2, e1, e2, e3⟩ := addUp_frame rank2 bn.m_subtreeSize fuel _ this _ hwf2 hgt
    (by rw [r1]; exact hfuel)
  -- the ancestors of `this` are the same before and after the linking
  have hparL : ∀ (x : Ptr) (y : DirNode), H[x]? = some y → x ≠ b →
      ∃ y2, (linkChild H this b nd bn)[x]? = some y2 ∧ y2.m_parent = y.m_parent := by
    intro x y hy hxb
    by_cases hx : x = this
    · subst hx
      rw [hthis] at hy; cases hy
      exact ⟨_, hgt, rfl⟩
    · exact ⟨y, by rw [hgo x hxb hx]; exact hy, rfl⟩
  have hparH : ∀ (x : Ptr) (y : DirNode), (linkChild H this b nd bn)[x]? = some y → x ≠ b →
      ∃ y2, H[x]? = some y2 ∧ y2.m_parent = y.m_parent := by
    intro x y hy hxb
    by_cases hx : x = this
    · subst hx
      rw [hgt] at hy; cases hy
      exact ⟨_, hthis, rfl⟩
    · exact ⟨y, by rw [← hgo x hxb hx]; exact hy, rfl⟩
  have htoL : ∀ (q x : Ptr), Above H q x → ¬ Above H b x →
      Above (linkChild H this b nd bn) q x := by
    intro q x h
    induction h with
    | self => intro _; exact Above.self _
    | step p q2 y hp hq _ ih =>
      intro hnb
      have hpb : p ≠ b := by intro h; subst h; exact hnb (Above.self _)
      obtain ⟨y2, f1, f2⟩ := hparL p y hp hpb
      exact Above.step _ p q2 y2 f1 (by rw [f2]; exact hq)
        (ih (fun h => hnb (Above.step _ p q2 y hp hq h)))
  have htoH : ∀ (q x : Ptr), Above (linkChild H this b nd bn) q x → ¬ Above H b x →
      Above H q x := by
    intro q x h
    induction h with
    | self => intro _; exact Above.self _
    | step p q2 y hp hq _ ih =>
      intro hnb
      have hpb : p ≠ b := by intro h; subst h; exact hnb (Above.self _)
      obtain ⟨y2, f1, f2⟩ := hparH p y hp hpb
      have hq2 : y2.m_parent = some q2 := by rw [f2]; exact hq
      exact Above.step _ p q2 y2 f1 hq2 (ih (fun h => hnb (Above.step _ p q2 y2 f1 hq2 h)))
  refine ⟨H2, e1, by rw [e2, hlen], ?_, ?_, ?_, ?_⟩
  · obtain ⟨y2, f1, ⟨g1, g2, g3, g4, g5, g6⟩, _, _⟩ := e3 this _ hgt
    exact ⟨y2, f1, g3, g4, g5, g2, g6, g1⟩
  · obtain ⟨y2, f1, ⟨g1, g2, g3, g4, g5, g6⟩, _, _⟩ := e3 b _ hgb
    exact ⟨y2, f1, g4, g5, g3, g2, g6, g1⟩
  · intro q y hy hq1 hq2
    obtain ⟨y2, f1, f2, _, _⟩ := e3 q y (by rw [hgo q hq2 hq1]; exact hy)
    exact ⟨y2, f1, f2⟩
  · intro q y hy
    have key : ∀ yL : DirNode, (linkChild H this b nd bn)[q]? = some yL →
        yL.m_subtreeSize = y.m_subtreeSize →
        ∃ y2, H2[q]? = some y2 ∧
          (Above H q this → y2.m_subtreeSize = y.m_subtreeSize + bn.m_subtreeSize) ∧
          (¬ Above H q this → y2.m_subtreeSize = y.m_subtreeSize) := by
      intro yL hyL hsz
      obtain ⟨y2, f1, _, f3, f4⟩ := e3 q yL hyL
      refine ⟨y2, f1, fun h => ?_, fun h => ?_⟩
      · rw [f3 (htoL q this h habove), hsz]
      · rw [f4 (fun h2 => h (htoH q this h2 habove)), hsz]
    by_cases hqb : q = b
    · subst hqb
      rw [hb] at hy; cases hy
      exact key _ hgb rfl
    · by_cases hqt : q = this
      · subst hqt
        rw [hthis] at hy; cases hy
        exact key _ hgt rfl
      · exact key y (by rw [hgo q hqb hqt]; exact hy) rfl

end Store

/-- C14: `n.append(c)` of a parentless object `c` that is not above `n` returns; then `c`
is the last child of `n`, `parent(c) = n`, `parentPos(c)` is the previous `numChildren(n)`,
the earlier children and their positions are unchanged, and the subtree size of `n` and of
every ancestor of `n` has grown by exactly `subtreeSize(c)`, that of every other object is
unchanged. Hence the link invariant `parent(child(n,i)) = n ∧ parentPos(child(n,i)) = i`
holds for every object and index of a store built by appends. -/
theorem C14_append_child_links (H : Store) (rank : Ptr → Nat) (n c : Ptr) (nd cn : DirNode)
    (fuel : Nat) (hwf : Store.WellFormed H rank) (hn : H[n]? = some nd) (hc : H[c]? = some cn)
    (hpar : cn.m_parent = none) (habove : ¬ Store.Above H c n) (hfuel : rank n < fuel) :
    ∃ H2 nd2 cn2, Store.appendDir fuel H n c = some H2 ∧ H2[n]? = some nd2 ∧
      H2[c]? = some cn2 ∧
      nd2.m_subdirs = nd.m_subdirs ++ [c] ∧ nd2.m_subdirs.getLast? = some c ∧
      cn2.m_parent = some n ∧ cn2.m_parentPos = nd.m_subdirs.length ∧
      (∀ (i : Nat) (x : Ptr) (xn : DirNode), nd.m_subdirs[i]? = some x → H[x]? = some xn →
        nd2.m_subdirs[i]? = some x ∧
        ∃ xn2, H2[x]? = some xn2 ∧ xn2.m_parent = xn.m_parent ∧
          xn2.m_parentPos = xn.m_parentPos) ∧
      (∀ (q : Ptr) (y : DirNode), H[q]? = some y →
        ∃ y2, H2[q]? = some y2 ∧
          (Store.Above H q n → y2.m_subtreeSize = y.m_subtreeSize + cn.m_subtreeSize) ∧
          (¬ Store.Above H q n → y2.m_subtreeSize = y.m_subtreeSize)) ∧
      (∀ B : Store, Store.Built B →
        ∀ (p : Ptr) (pn : DirNode) (i : Nat) (x : Ptr), B[p]? = some pn →
          pn.m_subdirs[i]? = some x →
          ∃ xn : DirNode, B[x]? = some xn ∧ xn.m_parent = some p ∧ xn.m_parentPos = i) := by
  obtain ⟨H2, e1, _, ⟨nd2, f1, f2, f3, f4, _⟩, ⟨cn2, g1, g2, g3, _⟩, hother, hsize⟩ :=
    Store.appendDir_frame rank fuel H n c nd cn hwf hn hc hpar habove hfuel
  refine ⟨H2, nd2, cn2, e1, f1, g1, f2, by rw [f2]; simp, g2, g3, ?_, hsize, ?_⟩
  · intro i x xn hi hx
    refine ⟨?_, ?_⟩
    · rw [f2, List.getElem?_append_left (StdHeap.lt_length_of_getElem? hi)]; exact hi
    · obtain ⟨xn0, x1, x2, x3⟩ := hwf.links n nd i x hn hi
      rw [hx] at x1; cases x1
      have hxc : x ≠ c := by
        intro h; subst h
        rw [hc] at hx; cases hx
        rw [hpar] at x2; cases x2
      by_cases hxn : x = n
      · subst hxn
        rw [hn] at hx; cases hx
        exact ⟨nd2, f1, f3, f4⟩
      · obtain ⟨y2, y1, ⟨_, _, _, s4, s5, _⟩⟩ := hother x xn hx hxn hxc
        exact ⟨y2, y1, s4, s5⟩
  · intro B hB p pn i x hp hx
    obtain ⟨⟨rankB, hwfB⟩, _⟩ := Store.built_inv B hB
    exact hwfB.links p pn i x hp hx

/-- Witness of C14: in the store of two fresh objects, object 1 is appended below
object 0. -/
theorem C14_witness :
    ∃ H2 nd2 cn2, Store.appendDir 1 [DirNode.new, DirNode.new] 0 1 = some H2 ∧
      H2[0]? = some nd2 ∧ H2[1]? = some cn2 ∧ nd2.m_subdirs = [1] ∧
      cn2.m_parent = some 0 ∧ cn2.m_parentPos = 0 := by
  have hw := Store.alloc_inv (fun _ => 0) [DirNode.new] Store.root_inv.1 Store.root_inv.2
  have habove : ¬ Store.Above [DirNode.new, DirNode.new] 1 0 := by
    intro h
    cases h with
    | step =>
      rename_i q nd hpar habove hget
      simp only [List.getElem?_cons_zero, Option.some.injEq] at hget
      subst hget
      simp [DirNode.new] at hpar
  obtain ⟨H2, nd2, cn2, h1, h2, h3, h4, _, h5, h6, _⟩ :=
    C14_append_child_links [DirNode.new, DirNode.new] (fun _ => 0) 0 1 DirNode.new DirNode.new 1
      hw.1 rfl rfl rfl habove (by decide)
  exact ⟨H2, nd2, cn2, h1, h2, h3, h4, h5, h6⟩

namespace Store

/-- Appending a fresh object without links and with zero sizes keeps the invariants. -/
theorem snoc_inv (rank : Ptr → Nat) (H : Store) (x : DirNode) (hwf : WellFormed H rank)
    (hinv : SizeInv H) (h1 : x.m_subdirs = []) (h2 : x.m_parent = none)
    (h3 : x.m_filesSize = 0) (h4 : x.m_subtreeSize = 0) :
    WellFormed (H ++ [x]) rank ∧ SizeInv (H ++ [x]) := by
  have hrd : ∀ (q : Ptr) (y : DirNode), (H ++ [x])[q]? = some y → H[q]? = some y ∨ y = x := by
    intro q y hy
    by_cases hq : q < H.length
    · rw [List.getElem?_append_left hq] at hy; exact Or.inl hy
    · have hge : H.length ≤ q := Nat.le_of_not_lt hq
      rw [List.getElem?_append_right hge] at hy
      have := List.getElem?_mem hy
      exact Or.inr (List.mem_singleton.1 this)
  have hwr : ∀ (q : Ptr) (y : DirNode), H[q]? = some y → (H ++ [x])[q]? = some y := by
    intro q y hy
    rw [List.getElem?_append_left (StdHeap.lt_length_of_getElem? hy)]; exact hy
  refine ⟨⟨?_, ?_, ?_⟩, ?_⟩
  · intro p y i c hy hc
    rcases hrd p y hy with h | h
    · obtain ⟨cn, c1, c2, c3⟩ := hwf.links p y i c h hc
      exact ⟨cn, hwr c cn c1, c2, c3⟩
    · subst h; rw [h1] at hc; simp at hc
  · intro c y q hy hq
    rcases hrd c y hy with h | h
    · obtain ⟨qn, q1, q2⟩ := hwf.backlinks c y q h hq
      exact ⟨qn, hwr q qn q1, q2⟩
    · subst h; rw [h2] at hq; cases hq
  · intro c y q hy hq
    rcases hrd c y hy with h | h
    · exact hwf.ranked c y q h hq
    · subst h; rw [h2] at hq; cases hq
  · intro p y hy
    rcases hrd p y hy with h | h
    · rw [hinv p y h]
      congr 1
      congr 1
      apply List.map_congr_left
      intro c hc
      obtain ⟨i, hi, hic⟩ := List.getElem_of_mem hc
      obtain ⟨cn, c1, _, _⟩ := hwf.links p y i c h (by simp [List.getElem?_eq_getElem hi, hic])
      simp only [subtreeSizeAt, c1, hwr c cn c1]
    · subst h; rw [h1, h3, h4]; simp

/-- Replacing an object by one with the same children and sizes keeps the size invariant. -/
theorem sizeInv_set {H : Store} (hinv : SizeInv H) {p : Ptr} {nd x : DirNode}
    (hp : H[p]? = some nd) (h1 : x.m_subdirs = nd.m_subdirs)
    (h2 : x.m_filesSize = nd.m_filesSize) (h3 : x.m_subtreeSize = nd.m_subtreeSize) :
    SizeInv (H.set p x) := by
  have hsz : subtreeSizeAt (H.set p x) = subtreeSizeAt H := by
    funext c
    rw [subtreeSizeAt_set x hp]
    by_cases hc : c = p
    · subst hc; simp [subtreeSizeAt, hp, h3]
    · simp [hc]
  intro q y hy
  rw [hsz]
  rcases get_set_cases x y hp hy with ⟨_, hyx⟩ | ⟨_, hy0⟩
  · subst hyx
    rw [h1, h2, h3]; exact hinv p nd hp
  · exact hinv q y hy0

end Store

namespace ScanWorker

/-- One directory entry handled by `scanEntry`: the call returns, keeps the invariant and
has the effect of its branch. -/
theorem scanEntry_spec (top : Nat) (ent : FsEntry) (st : ScanState) (hinv : Inv st)
    (htop : top < st.store.length) :
    ∃ st2, scanEntry top ent st = some st2 ∧ Inv st2 ∧
      st2.polls = st.polls ∧ st2.visited = st.visited ∧ top < st2.store.length ∧
      (∀ n, ent = FsEntry.statError n → st2 =
        { st with progress := { st.progress with numErrors := st.progress.numErrors + 1 } }) ∧
      (∀ n, ent = FsEntry.other n → st2 =
        { st with progress := { st.progress with numSkipped := st.progress.numSkipped + 1 } }) ∧
      (∀ n size mtime, ent = FsEntry.file n size mtime →
        Store.append st.store.length st.store top size mtime = some st2.store ∧
        st2.stack = st.stack ∧
        st2.progress = { st.progress with numFiles := st.progress.numFiles + 1 }) ∧
      (∀ n o es, ent = FsEntry.dir n o es →
        st2.stack = (st.store.length, ent) :: st.stack ∧
        st2.progress = { st.progress with numDirs := st.progress.numDirs + 1 } ∧
        st2.store.length = st.store.length + 1 ∧
        ∃ tn tn2 cn : DirNode, st.store[top]? = some tn ∧ st2.store[top]? = some tn2 ∧
          st2.store[st.store.length]? = some cn ∧
          tn2.m_subdirs = tn.m_subdirs ++ [st.store.length] ∧ tn2.m_files = tn.m_files ∧
          cn.m_name = n ∧ cn.m_parent = some top ∧ cn.m_parentPos = tn.m_subdirs.length ∧
          cn.m_files = [] ∧ cn.m_subdirs = [] ∧
          ∀ (q : Ptr) (y : DirNode), st.store[q]? = some y → q ≠ top →
            ∃ y2, st2.store[q]? = some y2 ∧ Store.SameButSubtreeSize y y2) := by
  obtain ⟨hwf, hsz, hstack, hbal⟩ := hinv
  have htn : ∃ tn, st.store[top]? = some tn := ⟨_, List.getElem?_eq_getElem htop⟩
  obtain ⟨tn, htn⟩ := htn
  cases ent with
  | statError n =>
    refine ⟨_, rfl, ⟨hwf, hsz, hstack, hbal⟩, rfl, rfl, htop, ?_, ?_, ?_, ?_⟩
    · intro _ _; rfl
    · intro _ h; cases h
    · intro _ _ _ h; cases h
    · intro _ _ _ h; cases h
  | other n =>
    refine ⟨_, rfl, ⟨hwf, hsz, hstack, hbal⟩, rfl, rfl, htop, ?_, ?_, ?_, ?_⟩
    · intro _ h; cases h
    · intro _ _; rfl
    · intro _ _ _ h; cases h
    · intro _ _ _ h; cases h
  | file n size mtime =>
    obtain ⟨H2, e1, e2, e3⟩ := Store.append_spec (fun x => x) st.store.length st.store top tn
      size mtime hwf hsz htn htop
    obtain ⟨H3, f1, f2, _⟩ := Store.append_frame (fun x => x) st.store.length st.store top tn
      size mtime hwf htn htop
    rw [e1] at f1; cases f1
    refine ⟨{ st with store := H2,
                      progress := { st.progress with numFiles := st.progress.numFiles + 1 } },
      by simp [scanEntry, e1], ⟨e2, e3, ?_, hbal⟩, rfl, rfl, by simp only; rw [f2]; exact htop,
      ?_, ?_, ?_, ?_⟩
    · intro pe hpe
      have := hstack pe hpe
      simp only
      rw [f2]; exact this
    · intro _ h; cases h
    · intro _ h; cases h
    · intro _ _ _ h
      cases h
      exact ⟨e1, rfl, rfl⟩
    · intro _ _ _ h; cases h
  | dir n o es =>
    obtain ⟨x, hx⟩ : ∃ x : DirNode, x = { DirNode.new with m_name := n } := ⟨_, rfl⟩
    obtain ⟨hwf1, hsz1⟩ := Store.snoc_inv (fun x => x) st.store x hwf hsz
      (by rw [hx]; rfl) (by rw [hx]; rfl) (by rw [hx]; rfl) (by rw [hx]; rfl)
    have hlen1 : (st.store ++ [x]).length = st.store.length + 1 := by simp
    have htn1 : (st.store ++ [x])[top]? = some tn := by
      rw [List.getElem?_append_left htop]; exact htn
    have hx1 : (st.store ++ [x])[st.store.length]? = some x := by
      rw [List.getElem?_append_right (le_refl _)]; simp
    have hne : st.store.length ≠ top := Nat.ne_of_gt htop
    have habove : ¬ Store.Above (st.store ++ [x]) st.store.length top := by
      intro h
      have := Store.above_rank hwf1 h
      simp only at this
      omega
    obtain ⟨H2, e1, e2, e3⟩ := Store.appendDir_spec_rank (fun x => x) (fun x => x)
      (st.store ++ [x]).length (st.store ++ [x]) top st.store.length tn x hwf1 hsz1 htn1 hx1
      (by rw [hx]; rfl) hne htop (fun c cn q hc _ hq => hwf1.ranked c cn q hc hq)
      (by show top < _; rw [hlen1]; omega)
    obtain ⟨H3, f1, f2, ⟨tn2, t1, t2, _, _, t5, _⟩, ⟨cn, c1, c2, c3, c4, c5, _, c7⟩, fo, _⟩ :=
      Store.appendDir_frame (fun x => x) (st.store ++ [x]).length (st.store ++ [x]) top
        st.store.length tn x hwf1 htn1 hx1 (by rw [hx]; rfl) habove (by show top < _; rw [hlen1]; omega)
    rw [e1] at f1; cases f1
    refine ⟨{ st with store := H2, stack := (st.store.length, FsEntry.dir n o es) :: st.stack,
                      progress := { st.progress with numDirs := st.progress.numDirs + 1 } },
      ?_, ⟨e2, e3, ?_, ?_⟩, rfl, rfl, by simp only; rw [f2, hlen1]; omega, ?_, ?_, ?_, ?_⟩
    · simp only [scanEntry]
      rw [← hx, e1]
    · intro pe hpe
      simp only at hpe ⊢
      rw [f2, hlen1]
      rcases List.mem_cons.1 hpe with h | h
      · subst h; exact Nat.lt_succ_self _
      · exact Nat.lt_succ_of_lt (hstack pe h)
    · simp only [List.length_cons]; omega
    · intro _ h; cases h
    · intro _ h; cases h
    · intro _ _ _ h; cases h
    · intro n2 o2 es2 h
      cases h
      refine ⟨rfl, rfl, by simp only; rw [f2, hlen1], tn, tn2, cn, htn, t1, c1, t2, t5, ?_, c2, c3,
        ?_, ?_, ?_⟩
      · rw [c7, hx]
      · rw [c5, hx]; rfl
      · rw [c4, hx]; rfl
      · intro q y hy hq
        have hql := StdHeap.lt_length_of_getElem? hy
        have hq1 : (st.store ++ [x])[q]? = some y := by
          rw [List.getElem?_append_left hql]; exact hy
        exact fo q y hq1 hq (Nat.ne_of_lt hql)

end ScanWorker

namespace ScanWorker

theorem weight_pos (e : FsEntry) : 1 ≤ e.weight := by
  cases e <;> simp [FsEntry.weight]

theorem weight_of_opendir (e : FsEntry) (es : List FsEntry) (h : e.opendir = some es) :
    e.weight = 1 + FsEntry.weightAll es := by
  cases e with
  | dir n o entries =>
    cases o with
    | true =>
      simp only [FsEntry.opendir, Option.some.injEq] at h
      subst h; simp [FsEntry.weight]
    | false => simp [FsEntry.opendir] at h
  | statError n => simp [FsEntry.opendir] at h
  | file n s m => simp [FsEntry.opendir] at h
  | other n => simp [FsEntry.opendir] at h

/-- The `readdir` loop on a state that satisfies the invariant: it either handles all
entries, no poll having returned true, with the same result as an uncancelled run, or stops
at the first poll that returns true. -/
theorem scanEntries_spec (isCanceled : Nat → Bool) (top : Nat) :
    ∀ (es : List FsEntry) (st : ScanState), Inv st → top < st.store.length →
      (∃ st2, scanEntries isCanceled top es st = EntriesResult.done st2 ∧ Inv st2 ∧
        top < st2.store.length ∧ st2.visited = st.visited ∧ st.polls ≤ st2.polls ∧
        (∀ k, st.polls ≤ k → k < st2.polls → isCanceled k = false) ∧
        scanEntries neverCanceled top es st = EntriesResult.done st2 ∧
        stackWeight st2.stack ≤ stackWeight st.stack + FsEntry.weightAll es) ∨
      (∃ st2, scanEntries isCanceled top es st = EntriesResult.canceled st2 ∧
        isCanceled st2.polls = true ∧ st.polls ≤ st2.polls ∧
        (∀ k, st.polls ≤ k → k < st2.polls → isCanceled k = false)) := by
  intro es
  induction es with
  | nil =>
    intro st hinv htop
    exact Or.inl ⟨st, rfl, hinv, htop, rfl, le_refl _, fun k h1 h2 => by omega, rfl,
      by simp [FsEntry.weightAll]⟩
  | cons ent rest ih =>
    intro st hinv htop
    rw [scanEntries, scanEntries]
    by_cases hc : isCanceled st.polls = true
    · rw [if_pos hc]
      exact Or.inr ⟨st, rfl, hc, le_refl _, fun k h1 h2 => by omega⟩
    · rw [if_neg hc]
      have hcf : isCanceled st.polls = false := by simpa using hc
      simp only [neverCanceled, Bool.false_eq_true, if_false]
      obtain ⟨st1, hst1⟩ : ∃ st1 : ScanState, st1 = { st with polls := st.polls + 1 } :=
        ⟨_, rfl⟩
      rw [← hst1]
      have hinv1 : Inv st1 := by rw [hst1]; exact hinv
      have htop1 : top < st1.store.length := by rw [hst1]; exact htop
      have hp1 : st1.polls = st.polls + 1 := by rw [hst1]
      have hv1 : st1.visited = st.visited := by rw [hst1]
      have hs1 : st1.stack = st.stack := by rw [hst1]
      -- what the rest of the loop yields from a state `st2` reached after this entry
      have cont : ∀ st2 : ScanState, Inv st2 → top < st2.store.length →
          st2.polls = st1.polls → st2.visited = st1.visited →
          stackWeight st2.stack ≤ stackWeight st1.stack + ent.weight →
          (∃ st3, scanEntries isCanceled top rest st2 = EntriesResult.done st3 ∧ Inv st3 ∧
            top < st3.store.length ∧ st3.visited = st.visited ∧ st.polls ≤ st3.polls ∧
            (∀ k, st.polls ≤ k → k < st3.polls → isCanceled k = false) ∧
            scanEntries neverCanceled top rest st2 = EntriesResult.done st3 ∧
            stackWeight st3.stack ≤ stackWeight st.stack + FsEntry.weightAll (ent :: rest)) ∨
          (∃ st3, scanEntries isCanceled top rest st2 = EntriesResult.canceled st3 ∧
            isCanceled st3.polls = true ∧ st.polls ≤ st3.polls ∧
            (∀ k, st.polls ≤ k → k < st3.polls → isCanceled k = false)) := by
        intro st2 hinv2 htop2 hp2 hv2 hw2
        rcases ih st2 hinv2 htop2 with ⟨st3, a1, a2, a3, a4, a5, a6, a7, a8⟩ |
          ⟨st3, b1, b2, b3, b4⟩
        · refine Or.inl ⟨st3, a1, a2, a3, by rw [a4, hv2, hv1], by omega, ?_, a7, ?_⟩
          · intro k h1 h2
            by_cases hk : k = st.polls
            · rw [hk]; exact hcf
            · exact a6 k (by omega) h2
          · rw [hs1] at hw2
            simp only [FsEntry.weightAll]
            omega
        · refine Or.inr ⟨st3, b1, b2, by omega, ?_⟩
          intro k h1 h2
          by_cases hk : k = st.polls
          · rw [hk]; exact hcf
          · exact b4 k (by omega) h2
      by_cases hdot : ent.name = "." ∨ ent.name = ".."
      · rw [if_pos hdot, if_pos hdot]
        exact cont st1 hinv1 htop1 rfl rfl (by omega)
      · rw [if_neg hdot, if_neg hdot]
        obtain ⟨st2, e1, e2, e3, e4, e5, f1, f2, f3, f4⟩ := scanEntry_spec top ent st1 hinv1 htop1
        rw [e1]
        simp only
        apply cont st2 e2 e5 e3 e4
        cases ent with
        | statError n => rw [f1 n rfl]; simp only; omega
        | other n => rw [f2 n rfl]; simp only; omega
        | file n s m => rw [(f3 n s m rfl).2.1]; omega
        | dir n o es2 => rw [(f4 n o es2 rfl).1]; simp only [stackWeight]; omega

end ScanWorker

namespace ScanWorker

/-- The walk on a state that satisfies the invariant, with fuel for every stacked
directory: it either empties the stack and returns the tree, no poll having returned true
and with the same result as an uncancelled run, or returns null at the first poll that
returns true. -/
theorem scanLoop_spec (isCanceled : Nat → Bool) (root : Ptr) :
    ∀ (fuel : Nat) (st : ScanState), Inv st → stackWeight st.stack ≤ fuel →
      (∃ st2, scanLoop isCanceled root fuel st = ScanResult.tree root st2 ∧ st2.stack = [] ∧
        Inv st2 ∧ st.polls ≤ st2.polls ∧
        (∀ k, st.polls ≤ k → k < st2.polls → isCanceled k = false) ∧
        scanLoop neverCanceled root fuel st = ScanResult.tree root st2) ∨
      (∃ st2, scanLoop isCanceled root fuel st = ScanResult.null st2 ∧
        isCanceled st2.polls = true ∧ st.polls ≤ st2.polls ∧
        (∀ k, st.polls ≤ k → k < st2.polls → isCanceled k = false)) := by
  intro fuel
  induction fuel with
  | zero =>
    intro st hinv hw
    have hs : st.stack = [] := by
      cases hst : st.stack with
      | nil => rfl
      | cons pe rest =>
        rw [hst] at hw
        obtain ⟨p, e⟩ := pe
        have := weight_pos e
        simp only [stackWeight] at hw
        omega
    refine Or.inl ⟨st, ?_, hs, hinv, le_refl _, fun k h1 h2 => by omega, ?_⟩
    · rw [scanLoop, hs]
    · rw [scanLoop, hs]
  | succ fuel ih =>
    intro st hinv hw
    rw [scanLoop, scanLoop]
    cases hst : st.stack with
    | nil =>
      exact Or.inl ⟨st, rfl, hst, hinv, le_refl _, fun k h1 h2 => by omega, rfl⟩
    | cons pe rest =>
      obtain ⟨top, dirEnt⟩ := pe
      simp only
      by_cases hc : isCanceled st.polls = true
      · rw [if_pos hc]
        exact Or.inr ⟨st, rfl, hc, le_refl _, fun k h1 h2 => by omega⟩
      · rw [if_neg hc]
        have hcf : isCanceled st.polls = false := by simpa using hc
        simp only [neverCanceled, Bool.false_eq_true, if_false]
        obtain ⟨hwf, hsz, hstack, hbal⟩ := hinv
        rw [hst] at hw hstack hbal
        have htop : top < st.store.length := hstack (top, dirEnt) (List.mem_cons_self _ _)
        have hwe := weight_pos dirEnt
        simp only [stackWeight] at hw
        obtain ⟨st1, hst1⟩ : ∃ st1 : ScanState, st1 =
            { st with stack := rest, polls := st.polls + 1,
                      visited := st.visited ++ [top] } := ⟨_, rfl⟩
        rw [← hst1]
        have hinv1 : Inv st1 := by
          rw [hst1]
          refine ⟨hwf, hsz, fun pe hpe => hstack pe (List.mem_cons_of_mem _ hpe), ?_⟩
          show (st.visited ++ [top]).length + rest.length = st.progress.numDirs + 1
          simp only [List.length_append, List.length_cons, List.length_nil] at hbal ⊢
          omega
        have hp1 : st1.polls = st.polls + 1 := by rw [hst1]
        have hs1 : st1.stack = rest := by rw [hst1]
        have htop1 : top < st1.store.length := by rw [hst1]; exact htop
        -- what the rest of the walk yields from a state `st2` reached after this directory
        have cont : ∀ st2 : ScanState, Inv st2 → stackWeight st2.stack ≤ fuel →
            st1.polls ≤ st2.polls →
            (∀ k, st1.polls ≤ k → k < st2.polls → isCanceled k = false) →
            (∃ st3, scanLoop isCanceled root fuel st2 = ScanResult.tree root st3 ∧
              st3.stack = [] ∧ Inv st3 ∧ st.polls ≤ st3.polls ∧
              (∀ k, st.polls ≤ k → k < st3.polls → isCanceled k = false) ∧
              scanLoop neverCanceled root fuel st2 = ScanResult.tree root st3) ∨
            (∃ st3, scanLoop isCanceled root fuel st2 = ScanResult.null st3 ∧
              isCanceled st3.polls = true ∧ st.polls ≤ st3.polls ∧
              (∀ k, st.polls ≤ k → k < st3.polls → isCanceled k = false)) := by
          intro st2 hinv2 hw2 hp2 hk2
          have hall : ∀ k, st.polls ≤ k → k < st2.polls → isCanceled k = false := by
            intro k h1 h2
            by_cases hk : k = st.polls
            · rw [hk]; exact hcf
            · exact hk2 k (by omega) h2
          rcases ih st2 hinv2 hw2 with ⟨st3, a1, a2, a3, a4, a5, a6⟩ | ⟨st3, b1, b2, b3, b4⟩
          · refine Or.inl ⟨st3, a1, a2, a3, by omega, ?_, a6⟩
            intro k h1 h2
            by_cases hk : k < st2.polls
            · exact hall k h1 hk
            · exact a5 k (by omega) h2
          · refine Or.inr ⟨st3, b1, b2, by omega, ?_⟩
            intro k h1 h2
            by_cases hk : k < st2.polls
            · exact hall k h1 hk
            · exact b4 k (by omega) h2
        cases hod : dirEnt.opendir with
        | none =>
          simp only
          refine cont _ ?_ ?_ ?_ ?_
          · rw [hst1] at hinv1
            obtain ⟨w1, w2, w3, w4⟩ := hinv1
            exact ⟨w1, w2, w3, w4⟩
          · show stackWeight rest ≤ fuel
            omega
          · show st1.polls ≤ st.polls + 1
            rw [hp1]
          · intro k h1 h2
            rw [hp1] at h1
            have h3 : k < st.polls + 1 := h2
            omega
        | some entries =>
          simp only
          have hwd := weight_of_opendir dirEnt entries hod
          rcases scanEntries_spec isCanceled top entries st1 hinv1 htop1 with
            ⟨st2, a1, a2, a3, a4, a5, a6, a7, a8⟩ | ⟨st2, b1, b2, b3, b4⟩
          · rw [a1, a7]
            simp only
            obtain ⟨tn, htn⟩ : ∃ tn, st2.store[top]? = some tn :=
              ⟨_, List.getElem?_eq_getElem a3⟩
            have hfin : Store.finalize st2.store top =
                some (st2.store.set top { tn with m_files := Store.sortByTime tn.m_files }) := by
              simp [Store.finalize, htn]
            rw [hfin]
            simp only
            refine cont _ ?_ ?_ ?_ ?_
            rotate_left 2
            · exact a5
            · exact a6
            · obtain ⟨w1, w2, w3, w4⟩ := a2
              refine ⟨Store.wellFormed_set w1 htn rfl rfl rfl, Store.sizeInv_set w2 htn rfl rfl rfl,
                ?_, w4⟩
              intro pe hpe
              simp only [List.length_set]
              exact w3 pe hpe
            · simp only; rw [hs1] at a8; omega
          · rw [b1]
            simp only
            refine Or.inr ⟨st2, rfl, b2, by omega, ?_⟩
            intro k h1 h2
            by_cases hk : k = st.polls
            · rw [hk]; exact hcf
            · exact b4 k (by omega) h2

end ScanWorker

namespace ScanWorker

/-- The state in which `scanPriv` enters its outer loop satisfies the invariant. -/
theorem init_inv (m_rootPath : String) (root : FsEntry) :
    Inv { store := [{ DirNode.new with m_name := m_rootPath }]
          stack := [(0, root)]
          progress := { numFiles := 0, numDirs := 0, numSkipped := 0, numErrors := 0 }
          polls := 0
          visited := [] } := by
  have hwf : Store.WellFormed ([] : Store) (fun x => x) :=
    ⟨fun p nd i c h => by simp at h, fun c cn q h => by simp at h, fun c cn q h => by simp at h⟩
  have hsz : Store.SizeInv ([] : Store) := fun p nd h => by simp at h
  have h := Store.snoc_inv (fun x => x) [] { DirNode.new with m_name := m_rootPath } hwf hsz
    rfl rfl rfl rfl
  refine ⟨h.1, h.2, ?_, rfl⟩
  intro pe hpe
  rw [List.mem_singleton] at hpe
  rw [hpe]
  exact Nat.zero_lt_one

/-- The scan routine with fuel for every entry of the filesystem below the root path: it
returns the tree with an empty stack, every poll having returned false and the result being
that of an uncancelled scan, or it returns null at the first poll that returns true. -/
theorem scanPriv_spec (isCanceled : Nat → Bool) (fuel : Nat) (m_rootPath : String)
    (root : FsEntry) (hfuel : root.weight ≤ fuel) :
    (∃ st, scanPriv isCanceled fuel m_rootPath root = ScanResult.tree 0 st ∧ st.stack = [] ∧
      Inv st ∧ (∀ k, k < st.polls → isCanceled k = false) ∧
      scanPriv neverCanceled fuel m_rootPath root = ScanResult.tree 0 st) ∨
    (∃ st, scanPriv isCanceled fuel m_rootPath root = ScanResult.null st ∧
      isCanceled st.polls = true ∧ (∀ k, k < st.polls → isCanceled k = false)) := by
  have hw : stackWeight [((0 : Ptr), root)] ≤ fuel := by
    simp only [stackWeight]; omega
  rcases scanLoop_spec isCanceled 0 fuel _ (init_inv m_rootPath root) hw with
    ⟨st, a1, a2, a3, _, a5, a6⟩ | ⟨st, b1, b2, _, b4⟩
  · exact Or.inl ⟨st, a1, a2, a3, fun k hk => a5 k (Nat.zero_le _) hk, a6⟩
  · exact Or.inr ⟨st, b1, b2, fun k hk => b4 k (Nat.zero_le _) hk⟩

end ScanWorker

/-- C10: the scan delivers the full tree or no tree. With fuel for every entry of the
filesystem, `scanPriv` either returns the root with the stack empty and every directory
that was stacked taken off it, no poll of the cancellation flag having returned true, the
state being that of an uncancelled scan, and `run` delivers that tree; or it returns null at
the first poll that returns true, and `run` delivers no tree. -/
theorem C10_scan_all_or_nothing (isCanceled : Nat → Bool) (fuel : Nat) (m_rootPath : String)
    (root : FsEntry) (hfuel : root.weight ≤ fuel) :
    (∃ st, ScanWorker.scanPriv isCanceled fuel m_rootPath root = ScanResult.tree 0 st ∧
      st.stack = [] ∧ st.visited.length = st.progress.numDirs + 1 ∧
      (∀ k, k < st.polls → isCanceled k = false) ∧
      ScanWorker.scanPriv neverCanceled fuel m_rootPath root = ScanResult.tree 0 st ∧
      ScanWorker.run isCanceled fuel m_rootPath root = some (st.store, 0)) ∨
    (∃ st, ScanWorker.scanPriv isCanceled fuel m_rootPath root = ScanResult.null st ∧
      isCanceled st.polls = true ∧ (∀ k, k < st.polls → isCanceled k = false) ∧
      ScanWorker.run isCanceled fuel m_rootPath root = none) := by
  rcases ScanWorker.scanPriv_spec isCanceled fuel m_rootPath root hfuel with
    ⟨st, a1, a2, a3, a4, a5⟩ | ⟨st, b1, b2, b3⟩
  · refine Or.inl ⟨st, a1, a2, ?_, a4, a5, ?_⟩
    · have h := a3.2.2.2
      rw [a2] at h
      simpa using h
    · simp only [ScanWorker.run, a1]
  · refine Or.inr ⟨st, b1, b2, b3, ?_⟩
    simp only [ScanWorker.run, b1]

/-- C10 at the scan scenario, for a scan that is never cancelled and for one whose fourth
poll of the cancellation flag returns true. -/
theorem C10_witness :
    scanScenario.weight ≤ 10 ∧
    ((∃ st, ScanWorker.scanPriv neverCanceled 10 "root" scanScenario = ScanResult.tree 0 st ∧
      st.stack = [] ∧ st.visited.length = st.progress.numDirs + 1 ∧
      (∀ k, k < st.polls → neverCanceled k = false) ∧
      ScanWorker.scanPriv neverCanceled 10 "root" scanScenario = ScanResult.tree 0 st ∧
      ScanWorker.run neverCanceled 10 "root" scanScenario = some (st.store, 0)) ∨
    (∃ st, ScanWorker.scanPriv neverCanceled 10 "root" scanScenario = ScanResult.null st ∧
      neverCanceled st.polls = true ∧ (∀ k, k < st.polls → neverCanceled k = false) ∧
      ScanWorker.run neverCanceled 10 "root" scanScenario = none)) ∧
    ScanWorker.run (fun k => decide (k = 3)) 10 "root" scanScenario = none :=
  ⟨by decide, C10_scan_all_or_nothing neverCanceled 10 "root" scanScenario (by decide), rfl⟩

/-- C11: every directory entry changes exactly one counter. In a state of the scan (the
invariant holds and the current node `top` is allocated) where the poll of the cancellation
flag returns false, the `readdir` loop handles the entry `ent` and goes on with the other
entries from a state `st2` such that: for `.` and `..` nothing but the poll count changed;
an `lstat` failure incremented `numErrors` only; any other type incremented `numSkipped`
only, the tree unchanged in both cases; a regular file incremented `numFiles` only, the tree
being the one `append(st_size, st_mtime)` on `top` returns; a directory incremented `numDirs`
only, allocated one object named after the entry, linked it as the last child of `top`, and
stacked it. In the scan scenario the counters end as one file, one directory, one skipped
entry and no error, the root has `filesSize` 42 and one child. -/
theorem C11_entry_changes_one_counter :
    (∀ (isCanceled : Nat → Bool) (top : Nat) (ent : FsEntry) (rest : List FsEntry)
        (st : ScanState), ScanWorker.Inv st → top < st.store.length →
        isCanceled st.polls = false →
      ∃ st2, ScanWorker.scanEntries isCanceled top (ent :: rest) st =
          ScanWorker.scanEntries isCanceled top rest st2 ∧
        st2.polls = st.polls + 1 ∧ st2.visited = st.visited ∧
        (ent.name = "." ∨ ent.name = ".." → st2 = { st with polls := st.polls + 1 }) ∧
        (¬ (ent.name = "." ∨ ent.name = "..") →
          (∀ n, ent = FsEntry.statError n →
            st2.progress = { st.progress with numErrors := st.progress.numErrors + 1 } ∧
            st2.store = st.store ∧ st2.stack = st.stack) ∧
          (∀ n, ent = FsEntry.other n →
            st2.progress = { st.progress with numSkipped := st.progress.numSkipped + 1 } ∧
            st2.store = st.store ∧ st2.stack = st.stack) ∧
          (∀ n size mtime, ent = FsEntry.file n size mtime →
            st2.progress = { st.progress with numFiles := st.progress.numFiles + 1 } ∧
            Store.append st.store.length st.store top size mtime = some st2.store ∧
            st2.stack = st.stack) ∧
          (∀ n o es, ent = FsEntry.dir n o es →
            st2.progress = { st.progress with numDirs := st.progress.numDirs + 1 } ∧
            st2.stack = (st.store.length, ent) :: st.stack ∧
            st2.store.length = st.store.length + 1 ∧
            ∃ tn tn2 cn : DirNode, st.store[top]? = some tn ∧ st2.store[top]? = some tn2 ∧
              st2.store[st.store.length]? = some cn ∧
              tn2.m_subdirs = tn.m_subdirs ++ [st.store.length] ∧ tn2.m_files = tn.m_files ∧
              cn.m_name = n ∧ cn.m_parent = some top ∧ cn.m_parentPos = tn.m_subdirs.length ∧
              cn.m_files = [] ∧ cn.m_subdirs = [] ∧
              ∀ (q : Ptr) (y : DirNode), st.store[q]? = some y → q ≠ top →
                ∃ y2, st2.store[q]? = some y2 ∧ Store.SameButSubtreeSize y y2))) ∧
    (∃ st rootNode subNode,
      ScanWorker.scanPriv neverCanceled 10 "root" scanScenario = ScanResult.tree 0 st ∧
      st.progress = { numFiles := 1, numDirs := 1, numSkipped := 1, numErrors := 0 } ∧
      st.store = [rootNode, subNode] ∧
      rootNode.m_files = [{ size := 42, time := 1000 }] ∧
      rootNode.m_filesSize = 42 ∧ rootNode.m_subtreeSize = 42 ∧
      rootNode.m_subdirs = [1] ∧ subNode.m_name = "sub" ∧ subNode.m_parent = some 0 ∧
      subNode.m_files = [] ∧ subNode.m_subdirs = []) := by
  constructor
  · intro isCanceled top ent rest st hinv htop hpoll
    rw [ScanWorker.scanEntries]
    rw [if_neg (by rw [hpoll]; exact Bool.false_ne_true)]
    simp only
    obtain ⟨st1, hst1⟩ : ∃ st1 : ScanState, st1 = { st with polls := st.polls + 1 } :=
      ⟨_, rfl⟩
    rw [← hst1]
    have hinv1 : ScanWorker.Inv st1 := by
      rw [hst1]
      obtain ⟨w1, w2, w3, w4⟩ := hinv
      exact ⟨w1, w2, w3, w4⟩
    have htop1 : top < st1.store.length := by rw [hst1]; exact htop
    by_cases hdot : ent.name = "." ∨ ent.name = ".."
    · rw [if_pos hdot]
      refine ⟨st1, rfl, by rw [hst1], by rw [hst1], fun _ => rfl, fun h => absurd hdot h⟩
    · rw [if_neg hdot]
      obtain ⟨st2, e1, _, e3, e4, _, e6, e7, e8, e9⟩ :=
        ScanWorker.scanEntry_spec top ent st1 hinv1 htop1
      rw [e1]
      simp only
      refine ⟨st2, rfl, by rw [e3, hst1], by rw [e4, hst1], fun h => absurd h hdot, fun _ => ?_⟩
      refine ⟨?_, ?_, ?_, ?_⟩
      · intro n hn
        rw [e6 n hn, hst1]
        exact ⟨rfl, rfl, rfl⟩
      · intro n hn
        rw [e7 n hn, hst1]
        exact ⟨rfl, rfl, rfl⟩
      · intro n size mtime hn
        obtain ⟨f1, f2, f3⟩ := e8 n size mtime hn
        rw [hst1] at f1 f2 f3
        exact ⟨f3, f1, f2⟩
      · intro n o es hn
        obtain ⟨f1, f2, f3, f4⟩ := e9 n o es hn
        rw [hst1] at f1 f2 f3 f4
        exact ⟨f2, f1, f3, f4⟩
  · exact ⟨_, _, _, rfl, rfl, rfl, rfl, rfl, rfl, rfl, rfl, rfl, rfl, rfl⟩

/-- C11 at the state in which the scan of the scenario reads the entry `a.txt` of the
root. -/
theorem C11_witness :
    ∃ st2, ScanWorker.scanEntries neverCanceled 0
        [FsEntry.file "a.txt" 42 1000, FsEntry.dir "sub" true [], FsEntry.other "link"]
        { store := [{ DirNode.new with m_name := "root" }]
          stack := []
          progress := { numFiles := 0, numDirs := 0, numSkipped := 0, numErrors := 0 }
          polls := 3
          visited := [0] } =
      ScanWorker.scanEntries neverCanceled 0 [FsEntry.dir "sub" true [], FsEntry.other "link"]
        st2 ∧
      st2.polls = 4 ∧
      st2.progress = { numFiles := 1, numDirs := 0, numSkipped := 0, numErrors := 0 } := by
  have hinv : ScanWorker.Inv
      { store := [{ DirNode.new with m_name := "root" }]
        stack := []
        progress := { numFiles := 0, numDirs := 0, numSkipped := 0, numErrors := 0 }
        polls := 3
        visited := [0] } := by
    obtain ⟨w1, w2, _, _⟩ := ScanWorker.init_inv "root" scanScenario
    exact ⟨w1, w2, fun pe hpe => by simp at hpe, rfl⟩
  obtain ⟨st2, h1, h2, _, _, h5⟩ := C11_entry_changes_one_counter.1 neverCanceled 0
    (FsEntry.file "a.txt" 42 1000) [FsEntry.dir "sub" true [], FsEntry.other "link"] _ hinv
    (by decide) rfl
  exact ⟨st2, h1, h2, ((h5 (by decide)).2.2.1 "a.txt" 42 1000 rfl).1⟩

namespace JsonReportGenerator

/-- The object `comp` builds by its assignments, before `subdirs`. -/
theorem set_chain (n : String) (a b c : Int) (x y : QJsonValue) :
    QJsonObject.set (QJsonObject.set (QJsonObject.set (QJsonObject.set (QJsonObject.set
      (QJsonObject.set [] "name" (QJsonValue.str n)) "numFiles" (QJsonValue.num a))
      "subtreeSize" (QJsonValue.num b)) "filesSize" (QJsonValue.num c)) "subtreeChart" x)
      "filesChart" y =
    [("name", QJsonValue.str n), ("numFiles", QJsonValue.num a),
      ("subtreeSize", QJsonValue.num b), ("filesSize", QJsonValue.num c),
      ("subtreeChart", x), ("filesChart", y)] := by
  simp [QJsonObject.set, QJsonObject.contains]

/-- The object `comp` builds by its assignments, `subdirs` included. -/
theorem set_chain_subdirs (n : String) (a b c : Int) (x y z : QJsonValue) :
    QJsonObject.set [("name", QJsonValue.str n), ("numFiles", QJsonValue.num a),
      ("subtreeSize", QJsonValue.num b), ("filesSize", QJsonValue.num c),
      ("subtreeChart", x), ("filesChart", y)] "subdirs" z =
    [("name", QJsonValue.str n), ("numFiles", QJsonValue.num a),
      ("subtreeSize", QJsonValue.num b), ("filesSize", QJsonValue.num c),
      ("subtreeChart", x), ("filesChart", y), ("subdirs", z)] := by
  simp [QJsonObject.set, QJsonObject.contains]

mutual
/-- A document returned by `comp`: at least one poll was made and every poll made returned
false, both futures of the node hold a chart, the document has the members of the node, and
its `subdirs` are the documents the calls of `comp` on the children returned. -/
theorem comp_some (isCanceled : Nat → Bool) (node : List Nat → DirTree → TmpFuts) :
    ∀ (tree : DirTree) (path : List Nat) (polls : Nat) (doc : QJsonObject) (polls2 : Nat),
    comp isCanceled node path tree polls = (some doc, polls2) →
    polls < polls2 ∧ (∀ k, polls ≤ k → k < polls2 → isCanceled k = false) ∧
    ∃ (c1 c2 : AgeChart) (docs : List QJsonObject),
      (node path tree).subtreeChart = TaskResult.result c1 ∧
      (node path tree).filesChart = TaskResult.result c2 ∧
      doc = [("name", QJsonValue.str tree.name), ("numFiles", QJsonValue.num tree.numFiles),
        ("subtreeSize", QJsonValue.num tree.subtreeSize),
        ("filesSize", QJsonValue.num tree.filesSize),
        ("subtreeChart", chartToJson c1), ("filesChart", chartToJson c2)] ++
        (if 0 < tree.numChildren then [("subdirs", QJsonValue.arr (docs.map QJsonValue.obj))]
         else []) ∧
      docs.length = tree.numChildren ∧
      ∀ (j : Nat) (ch : DirTree), tree.child j = some ch →
        ∃ (d : QJsonObject) (k k2 : Nat), docs[j]? = some d ∧ polls ≤ k ∧ k2 ≤ polls2 ∧
          comp isCanceled node (path ++ [j]) ch k = (some d, k2)
  | DirTree.mk n f s a b, path, polls, doc, polls2, h => by
    rw [comp] at h
    by_cases hc : isCanceled polls = true
    · rw [if_pos hc] at h
      cases h
    · rw [if_neg hc] at h
      have hcf : isCanceled polls = false := by simpa using hc
      simp only at h
      cases hcc : compChildren isCanceled node path 0 s [] (polls + 1) with
      | mk o p =>
        rw [hcc] at h
        cases o with
        | none => cases h
        | some items =>
          simp only at h
          obtain ⟨g1, g2, docs, g3, g4, g5⟩ :=
            compChildren_some isCanceled node s path 0 [] (polls + 1) items p hcc
          cases hs : (node path (DirTree.mk n f s a b)).subtreeChart with
          | noResult => rw [hs] at h; cases h
          | result c1 =>
            rw [hs] at h
            simp only at h
            cases hf : (node path (DirTree.mk n f s a b)).filesChart with
            | noResult => rw [hf] at h; cases h
            | result c2 =>
              rw [hf] at h
              simp only [set_chain] at h
              have hp : p = polls2 := by
                by_cases hn : (DirTree.mk n f s a b).numChildren > 0
                · rw [if_pos hn] at h
                  exact (Prod.mk.inj h).2
                · rw [if_neg hn] at h
                  exact (Prod.mk.inj h).2
              subst hp
              refine ⟨by omega, ?_, c1, c2, docs, rfl, rfl, ?_, ?_, ?_⟩
              · intro k h1 h2
                by_cases hk : k = polls
                · rw [hk]; exact hcf
                · exact g2 k (by omega) h2
              · by_cases hn : (DirTree.mk n f s a b).numChildren > 0
                · rw [if_pos hn] at h
                  simp only [set_chain_subdirs] at h
                  rw [if_pos hn]
                  have h1 := (Prod.mk.inj h).1
                  rw [← Option.some.inj h1, g3]
                  simp
                · rw [if_neg hn] at h
                  rw [if_neg hn]
                  have h1 := (Prod.mk.inj h).1
                  rw [← Option.some.inj h1]
                  simp
              · rw [g4]; rfl
              · intro j ch hj
                obtain ⟨d, k, k2, e1, e2, e3, e4⟩ := g5 j ch hj
                refine ⟨d, k, k2, e1, by omega, e3, ?_⟩
                rw [Nat.zero_add] at e4
                exact e4
/-- The array returned by the loop over the children: every poll made returned false and
the documents appended are those the calls of `comp` on the children returned. -/
theorem compChildren_some (isCanceled : Nat → Bool) (node : List Nat → DirTree → TmpFuts) :
    ∀ (children : List DirTree) (path : List Nat) (i : Nat) (chArr : QJsonArray) (polls : Nat)
      (items : QJsonArray) (polls2 : Nat),
    compChildren isCanceled node path i children chArr polls = (some items, polls2) →
    polls ≤ polls2 ∧ (∀ k, polls ≤ k → k < polls2 → isCanceled k = false) ∧
    ∃ docs : List QJsonObject, items = chArr ++ docs.map QJsonValue.obj ∧
      docs.length = children.length ∧
      ∀ (j : Nat) (ch : DirTree), children[j]? = some ch →
        ∃ (d : QJsonObject) (k k2 : Nat), docs[j]? = some d ∧ polls ≤ k ∧ k2 ≤ polls2 ∧
          comp isCanceled node (path ++ [i + j]) ch k = (some d, k2)
  | [], path, i, chArr, polls, items, polls2, h => by
    rw [compChildren] at h
    have h1 := (Prod.mk.inj h).1
    have h2 := (Prod.mk.inj h).2
    refine ⟨by omega, fun k h3 h4 => by omega, [], ?_, rfl, ?_⟩
    · rw [← Option.some.inj h1]; simp
    · intro j ch hj; simp at hj
  | child :: rest, path, i, chArr, polls, items, polls2, h => by
    rw [compChildren] at h
    cases hcc : comp isCanceled node (path ++ [i]) child polls with
    | mk o p =>
      rw [hcc] at h
      cases o with
      | none => cases h
      | some d =>
        simp only at h
        obtain ⟨g1, g2, _⟩ := comp_some isCanceled node child (path ++ [i]) polls d p hcc
        by_cases hc : isCanceled p = true
        · rw [if_pos hc] at h
          cases h
        · rw [if_neg hc] at h
          have hcf : isCanceled p = false := by simpa using hc
          obtain ⟨r1, r2, docs, r3, r4, r5⟩ :=
            compChildren_some isCanceled node rest path (i + 1) (chArr ++ [QJsonValue.obj d])
              (p + 1) items polls2 h
          refine ⟨by omega, ?_, d :: docs, ?_, ?_, ?_⟩
          · intro k h1 h2
            by_cases hk : k < p
            · exact g2 k h1 hk
            · by_cases hk2 : k = p
              · rw [hk2]; exact hcf
              · exact r2 k (by omega) h2
          · rw [r3]; simp
          · simp [r4]
          · intro j ch hj
            cases j with
            | zero =>
              simp only [List.getElem?_cons_zero, Option.some.injEq] at hj
              subst hj
              exact ⟨d, polls, p, List.getElem?_cons_zero, le_refl _, by omega, hcc⟩
            | succ j =>
              simp only [List.getElem?_cons_succ] at hj
              obtain ⟨d2, k, k2, e1, e2, e3, e4⟩ := r5 j ch hj
              refine ⟨d2, k, k2, by simpa using e1, by omega, e3, ?_⟩
              have : i + 1 + j = i + (j + 1) := by omega
              rw [this] at e4
              exact e4
end

end JsonReportGenerator

namespace JsonReportGenerator

/-- Reading the members of the object `comp` returns. -/
theorem value_members (n : String) (a b c : Int) (x y : QJsonValue) (tl : QJsonObject) :
    QJsonObject.value ([("name", QJsonValue.str n), ("numFiles", QJsonValue.num a),
      ("subtreeSize", QJsonValue.num b), ("filesSize", QJsonValue.num c),
      ("subtreeChart", x), ("filesChart", y)] ++ tl) "name" = some (QJsonValue.str n) ∧
    QJsonObject.value ([("name", QJsonValue.str n), ("numFiles", QJsonValue.num a),
      ("subtreeSize", QJsonValue.num b), ("filesSize", QJsonValue.num c),
      ("subtreeChart", x), ("filesChart", y)] ++ tl) "numFiles" = some (QJsonValue.num a) ∧
    QJsonObject.value ([("name", QJsonValue.str n), ("numFiles", QJsonValue.num a),
      ("subtreeSize", QJsonValue.num b), ("filesSize", QJsonValue.num c),
      ("subtreeChart", x), ("filesChart", y)] ++ tl) "subtreeSize" = some (QJsonValue.num b) ∧
    QJsonObject.value ([("name", QJsonValue.str n), ("numFiles", QJsonValue.num a),
      ("subtreeSize", QJsonValue.num b), ("filesSize", QJsonValue.num c),
      ("subtreeChart", x), ("filesChart", y)] ++ tl) "filesSize" = some (QJsonValue.num c) ∧
    QJsonObject.value ([("name", QJsonValue.str n), ("numFiles", QJsonValue.num a),
      ("subtreeSize", QJsonValue.num b), ("filesSize", QJsonValue.num c),
      ("subtreeChart", x), ("filesChart", y)] ++ tl) "subtreeChart" = some x ∧
    QJsonObject.value ([("name", QJsonValue.str n), ("numFiles", QJsonValue.num a),
      ("subtreeSize", QJsonValue.num b), ("filesSize", QJsonValue.num c),
      ("subtreeChart", x), ("filesChart", y)] ++ tl) "filesChart" = some y := by
  simp [QJsonObject.value]

/-- Reading `subdirs` in the object `comp` returns. -/
theorem value_subdirs (n : String) (a b c : Int) (x y : QJsonValue) (tl : QJsonObject) :
    QJsonObject.value ([("name", QJsonValue.str n), ("numFiles", QJsonValue.num a),
      ("subtreeSize", QJsonValue.num b), ("filesSize", QJsonValue.num c),
      ("subtreeChart", x), ("filesChart", y)] ++ tl) "subdirs" =
      QJsonObject.value tl "subdirs" ∧
    QJsonObject.contains ([("name", QJsonValue.str n), ("numFiles", QJsonValue.num a),
      ("subtreeSize", QJsonValue.num b), ("filesSize", QJsonValue.num c),
      ("subtreeChart", x), ("filesChart", y)] ++ tl) "subdirs" =
      QJsonObject.contains tl "subdirs" := by
  simp [QJsonObject.value, QJsonObject.contains]

/-- Every node of the tree had its document returned by a call of `comp` inside the call
that returned the document of the root, and that document is found in the document of the
root along the path of the node. -/
theorem comp_some_all (isCanceled : Nat → Bool) (node : List Nat → DirTree → TmpFuts) :
    ∀ (p : List Nat) (tree : DirTree) (path : List Nat) (polls : Nat) (doc : QJsonObject)
      (polls2 : Nat), comp isCanceled node path tree polls = (some doc, polls2) →
    ∀ n, DirTree.nodeAt p tree = some n →
      ∃ (d : QJsonObject) (k k2 : Nat), polls ≤ k ∧ k2 ≤ polls2 ∧
        comp isCanceled node (path ++ p) n k = (some d, k2) ∧
        QJsonObject.subdoc p doc = some d := by
  intro p
  induction p with
  | nil =>
    intro tree path polls doc polls2 h n hn
    simp only [DirTree.nodeAt, Option.some.injEq] at hn
    subst hn
    exact ⟨doc, polls, polls2, le_refl _, le_refl _, by rw [List.append_nil]; exact h, rfl⟩
  | cons i p ih =>
    intro tree path polls doc polls2 h n hn
    rw [DirTree.nodeAt] at hn
    cases hch : tree.child i with
    | none => rw [hch] at hn; cases hn
    | some c =>
      rw [hch] at hn
      simp only at hn
      obtain ⟨_, _, c1, c2, docs, _, _, hdoc, hlen, hall⟩ :=
        comp_some isCanceled node tree path polls doc polls2 h
      obtain ⟨d, k, k2, e1, e2, e3, e4⟩ := hall i c hch
      obtain ⟨d2, k3, k4, f1, f2, f3, f4⟩ := ih c (path ++ [i]) k d k2 e4 n hn
      refine ⟨d2, k3, k4, by omega, by omega, ?_, ?_⟩
      · rw [List.append_assoc] at f3
        exact f3
      · have hpos : 0 < tree.numChildren := by
          have := StdHeap.lt_length_of_getElem? hch
          exact Nat.lt_of_le_of_lt (Nat.zero_le _) this
        rw [QJsonObject.subdoc, hdoc, (value_subdirs _ _ _ _ _ _ _).1, if_pos hpos]
        have hv : QJsonObject.value [("subdirs", QJsonValue.arr (docs.map QJsonValue.obj))]
            "subdirs" = some (QJsonValue.arr (docs.map QJsonValue.obj)) := by
          simp [QJsonObject.value]
        rw [hv]
        simp only [List.getElem?_map, e1, Option.map_some']
        exact f4

mutual
/-- Without cancellation, and with both futures of every node of the tree holding a chart,
`comp` returns a document. -/
theorem comp_returns (isCanceled : Nat → Bool) (node : List Nat → DirTree → TmpFuts)
    (hnc : ∀ k, isCanceled k = false) :
    ∀ (tree : DirTree) (path : List Nat) (polls : Nat),
    (∀ p n, DirTree.nodeAt p tree = some n →
      ∃ c1 c2, (node (path ++ p) n).subtreeChart = TaskResult.result c1 ∧
        (node (path ++ p) n).filesChart = TaskResult.result c2) →
    ∃ doc polls2, comp isCanceled node path tree polls = (some doc, polls2)
  | DirTree.mk n f s a b, path, polls, hall => by
    rw [comp, if_neg (by rw [hnc]; exact Bool.false_ne_true)]
    simp only
    obtain ⟨items, p2, hcc⟩ := compChildren_returns isCanceled node hnc s path 0 []
      (polls + 1) (by
        intro j ch hj p m hm
        have h := hall (j :: p) m (by
          rw [DirTree.nodeAt]
          have : (DirTree.mk n f s a b).child j = some ch := hj
          rw [this]
          exact hm)
        simpa using h)
    rw [hcc]
    simp only
    obtain ⟨c1, c2, h1, h2⟩ := hall [] (DirTree.mk n f s a b) rfl
    rw [List.append_nil] at h1 h2
    rw [h1]
    simp only
    rw [h2]
    simp only
    by_cases hn : (DirTree.mk n f s a b).numChildren > 0
    · rw [if_pos hn]; exact ⟨_, _, rfl⟩
    · rw [if_neg hn]; exact ⟨_, _, rfl⟩
/-- Without cancellation, and with both futures of every node below the children holding a
chart, the loop over the children returns an array. -/
theorem compChildren_returns (isCanceled : Nat → Bool) (node : List Nat → DirTree → TmpFuts)
    (hnc : ∀ k, isCanceled k = false) :
    ∀ (children : List DirTree) (path : List Nat) (i : Nat) (chArr : QJsonArray) (polls : Nat),
    (∀ j ch, children[j]? = some ch → ∀ p n, DirTree.nodeAt p ch = some n →
      ∃ c1 c2, (node (path ++ [i + j] ++ p) n).subtreeChart = TaskResult.result c1 ∧
        (node (path ++ [i + j] ++ p) n).filesChart = TaskResult.result c2) →
    ∃ items polls2, compChildren isCanceled node path i children chArr polls =
      (some items, polls2)
  | [], path, i, chArr, polls, _ => by
    rw [compChildren]; exact ⟨_, _, rfl⟩
  | child :: rest, path, i, chArr, polls, hall => by
    rw [compChildren]
    obtain ⟨d, p2, hc⟩ := comp_returns isCanceled node hnc child (path ++ [i]) polls (by
      intro p m hm
      have h := hall 0 child List.getElem?_cons_zero p m hm
      simpa using h)
    rw [hc]
    simp only
    rw [if_neg (by rw [hnc]; exact Bool.false_ne_true)]
    exact compChildren_returns isCanceled node hnc rest path (i + 1) _ (p2 + 1) (by
      intro j ch hj p m hm
      have h := hall (j + 1) ch (by simpa using hj) p m hm
      have e : i + 1 + j = i + (j + 1) := by omega
      rw [e]
      exact h)
end

end JsonReportGenerator

namespace JsonReportGenerator

/-- Every object found in a returned document along a path is the document of a node: the
tree has a node at that path. -/
theorem subdoc_node (isCanceled : Nat → Bool) (node : List Nat → DirTree → TmpFuts) :
    ∀ (p : List Nat) (tree : DirTree) (path : List Nat) (polls : Nat) (doc : QJsonObject)
      (polls2 : Nat), comp isCanceled node path tree polls = (some doc, polls2) →
    ∀ d, QJsonObject.subdoc p doc = some d → ∃ n, DirTree.nodeAt p tree = some n := by
  intro p
  induction p with
  | nil =>
    intro tree path polls doc polls2 _ d _
    exact ⟨tree, rfl⟩
  | cons i p ih =>
    intro tree path polls doc polls2 h d hd
    obtain ⟨_, _, c1, c2, docs, _, _, hdoc, hlen, hall⟩ :=
      comp_some isCanceled node tree path polls doc polls2 h
    rw [QJsonObject.subdoc, hdoc, (value_subdirs _ _ _ _ _ _ _).1] at hd
    by_cases hpos : 0 < tree.numChildren
    · rw [if_pos hpos] at hd
      have hv : QJsonObject.value [("subdirs", QJsonValue.arr (docs.map QJsonValue.obj))]
          "subdirs" = some (QJsonValue.arr (docs.map QJsonValue.obj)) := by
        simp [QJsonObject.value]
      rw [hv] at hd
      simp only [List.getElem?_map] at hd
      cases hdi : docs[i]? with
      | none => rw [hdi] at hd; simp at hd
      | some di =>
        rw [hdi] at hd
        simp only [Option.map_some'] at hd
        have hi : i < tree.subdirs.length := by
          have := StdHeap.lt_length_of_getElem? hdi
          rw [hlen] at this
          exact this
        have hch : tree.child i = some (tree.subdirs.get ⟨i, hi⟩) :=
          List.getElem?_eq_getElem hi
        obtain ⟨d2, k, k2, e1, _, _, e4⟩ := hall i _ hch
        rw [hdi] at e1
        have e5 : di = d2 := Option.some.inj e1
        subst e5
        obtain ⟨n, hn⟩ := ih _ (path ++ [i]) k di k2 e4 d hd
        refine ⟨n, ?_⟩
        rw [DirTree.nodeAt, hch]
        exact hn
    · rw [if_neg hpos] at hd
      simp [QJsonObject.value] at hd

end JsonReportGenerator

/-- C15: the report document carries the fields of every node. When no poll of the
cancellation flag returns true and both futures of every node of the tree hold a chart,
`comp` on the root returns a document and `run` delivers it; for every node `n`, at the
path `p` from the root, the document holds along `p` the document `d` that `comp` returned
for `n`, with `name`, `numFiles`, `subtreeSize` and `filesSize` those of `n`, `subtreeChart`
and `filesChart` the seven fields of the charts of the two futures of `n` in the order min,
lowerWhisker, lowerQuartile, median, upperQuartile, upperWhisker, max, and `subdirs[i]` the
document that `comp` returned for `child(n, i)`. -/
theorem C15_report_document_fields (isCanceled : Nat → Bool)
    (node : List Nat → DirTree → JsonReportGenerator.TmpFuts) (tree : DirTree)
    (hnc : ∀ k, isCanceled k = false)
    (hres : ∀ p n, DirTree.nodeAt p tree = some n →
      ∃ c1 c2, (node p n).subtreeChart = TaskResult.result c1 ∧
        (node p n).filesChart = TaskResult.result c2) :
    ∃ doc polls2, JsonReportGenerator.comp isCanceled node [] tree 0 = (some doc, polls2) ∧
      JsonReportGenerator.run isCanceled node tree = JsonReportGenerator.RunOutcome.result doc ∧
      ∀ p n, DirTree.nodeAt p tree = some n →
        ∃ (d : QJsonObject) (c1 c2 : AgeChart), QJsonObject.subdoc p doc = some d ∧
          (∃ k k2, JsonReportGenerator.comp isCanceled node p n k = (some d, k2)) ∧
          (node p n).subtreeChart = TaskResult.result c1 ∧
          (node p n).filesChart = TaskResult.result c2 ∧
          QJsonObject.value d "name" = some (QJsonValue.str n.name) ∧
          QJsonObject.value d "numFiles" = some (QJsonValue.num n.numFiles) ∧
          QJsonObject.value d "subtreeSize" = some (QJsonValue.num n.subtreeSize) ∧
          QJsonObject.value d "filesSize" = some (QJsonValue.num n.filesSize) ∧
          QJsonObject.value d "subtreeChart" = some (QJsonValue.arr
            [QJsonValue.num c1.min, QJsonValue.num c1.lowerWhisker,
             QJsonValue.num c1.lowerQuartile, QJsonValue.num c1.median,
             QJsonValue.num c1.upperQuartile, QJsonValue.num c1.upperWhisker,
             QJsonValue.num c1.max]) ∧
          QJsonObject.value d "filesChart" = some (QJsonValue.arr
            [QJsonValue.num c2.min, QJsonValue.num c2.lowerWhisker,
             QJsonValue.num c2.lowerQuartile, QJsonValue.num c2.median,
             QJsonValue.num c2.upperQuartile, QJsonValue.num c2.upperWhisker,
             QJsonValue.num c2.max]) ∧
          ∀ i ch, n.child i = some ch →
            ∃ (items : QJsonArray) (di : QJsonObject),
              QJsonObject.value d "subdirs" = some (QJsonValue.arr items) ∧
              items.length = n.numChildren ∧ items[i]? = some (QJsonValue.obj di) ∧
              ∃ k k2, JsonReportGenerator.comp isCanceled node (p ++ [i]) ch k = (some di, k2) := by
  obtain ⟨doc, polls2, hcomp⟩ := JsonReportGenerator.comp_returns isCanceled node hnc tree [] 0
    (by intro p n hn; simpa using hres p n hn)
  refine ⟨doc, polls2, hcomp, ?_, ?_⟩
  · simp only [JsonReportGenerator.run, hcomp]
  · intro p n hn
    obtain ⟨d, k, k2, _, _, e3, e4⟩ :=
      JsonReportGenerator.comp_some_all isCanceled node p tree [] 0 doc polls2 hcomp n hn
    rw [List.nil_append] at e3
    obtain ⟨_, _, c1, c2, docs, g1, g2, g3, g4, g5⟩ :=
      JsonReportGenerator.comp_some isCanceled node n p k d k2 e3
    obtain ⟨v1, v2, v3, v4, v5, v6⟩ := JsonReportGenerator.value_members n.name n.numFiles
      n.subtreeSize n.filesSize (JsonReportGenerator.chartToJson c1)
      (JsonReportGenerator.chartToJson c2)
      (if 0 < n.numChildren then [("subdirs", QJsonValue.arr (docs.map QJsonValue.obj))]
       else [])
    rw [← g3] at v1 v2 v3 v4 v5 v6
    refine ⟨d, c1, c2, e4, ⟨k, k2, e3⟩, g1, g2, v1, v2, v3, v4, v5, v6, ?_⟩
    intro i ch hch
    obtain ⟨di, k3, k4, f1, _, _, f4⟩ := g5 i ch hch
    have hpos : 0 < n.numChildren := by
      have := StdHeap.lt_length_of_getElem? hch
      exact Nat.lt_of_le_of_lt (Nat.zero_le _) this
    refine ⟨docs.map QJsonValue.obj, di, ?_, ?_, ?_, k3, k4, f4⟩
    · rw [g3, (JsonReportGenerator.value_subdirs _ _ _ _ _ _ _).1, if_pos hpos]
      simp [QJsonObject.value]
    · rw [List.length_map, g4]
    · rw [List.getElem?_map, f1]; rfl

/-- C15 at the report scenario, the futures being those of both calculation tasks run to
their end: the document has the fields of the root and of its child. -/
theorem C15_witness :
    ∃ doc polls2, JsonReportGenerator.comp neverCanceled JsonReportGenerator.calculated []
        reportScenario 0 = (some doc, polls2) ∧
      QJsonObject.value doc "name" = some (QJsonValue.str "root") ∧
      QJsonObject.value doc "numFiles" = some (QJsonValue.num 2) ∧
      QJsonObject.value doc "subtreeSize" = some (QJsonValue.num 45) ∧
      QJsonObject.value doc "filesSize" = some (QJsonValue.num 40) := by
  have hres : ∀ p n, DirTree.nodeAt p reportScenario = some n →
      ∃ c1 c2, (JsonReportGenerator.calculated p n).subtreeChart = TaskResult.result c1 ∧
        (JsonReportGenerator.calculated p n).filesChart = TaskResult.result c2 := by
    intro p n hn
    match p, hn with
    | [], hn =>
      simp only [DirTree.nodeAt, Option.some.injEq] at hn
      subst hn
      exact ⟨_, _, rfl, rfl⟩
    | [0], hn =>
      simp only [DirTree.nodeAt, DirTree.child, DirTree.subdirs, reportScenario,
        List.getElem?_cons_zero, Option.some.injEq] at hn
      subst hn
      exact ⟨_, _, rfl, rfl⟩
    | 0 :: i :: q, hn =>
      simp [DirTree.nodeAt, DirTree.child, DirTree.subdirs, reportScenario] at hn
    | (i + 1) :: q, hn =>
      simp [DirTree.nodeAt, DirTree.child, DirTree.subdirs, reportScenario] at hn
  obtain ⟨doc, polls2, h1, _, h3⟩ := C15_report_document_fields neverCanceled
    JsonReportGenerator.calculated reportScenario (fun _ => rfl) hres
  obtain ⟨d, c1, c2, e1, _, _, _, v1, v2, v3, v4, _⟩ := h3 [] reportScenario rfl
  simp only [QJsonObject.subdoc, Option.some.injEq] at e1
  subst e1
  exact ⟨doc, polls2, h1, v1, v2, v3, v4⟩

/-- C16: in a document returned by `comp`, the objects are the documents of the nodes of
the tree, and the object of a node has the key `subdirs` if and only if the node has at
least one child; the value is then an array of `numChildren` elements. -/
theorem C16_subdirs_key_iff_children (isCanceled : Nat → Bool)
    (node : List Nat → DirTree → JsonReportGenerator.TmpFuts) (path : List Nat)
    (tree : DirTree) (polls : Nat) (doc : QJsonObject) (polls2 : Nat)
    (h : JsonReportGenerator.comp isCanceled node path tree polls = (some doc, polls2)) :
    (∀ p d, QJsonObject.subdoc p doc = some d → ∃ n, DirTree.nodeAt p tree = some n) ∧
    ∀ p n, DirTree.nodeAt p tree = some n →
      ∃ d, QJsonObject.subdoc p doc = some d ∧
        (QJsonObject.contains d "subdirs" = true ↔ 0 < n.numChildren) ∧
        (∀ v, QJsonObject.value d "subdirs" = some v →
          ∃ items, v = QJsonValue.arr items ∧ items.length = n.numChildren) := by
  refine ⟨fun p d hd =>
    JsonReportGenerator.subdoc_node isCanceled node p tree path polls doc polls2 h d hd, ?_⟩
  intro p n hn
  obtain ⟨d, k, k2, _, _, e3, e4⟩ :=
    JsonReportGenerator.comp_some_all isCanceled node p tree path polls doc polls2 h n hn
  obtain ⟨_, _, c1, c2, docs, _, _, g3, g4, _⟩ :=
    JsonReportGenerator.comp_some isCanceled node n (path ++ p) k d k2 e3
  refine ⟨d, e4, ?_, ?_⟩
  · rw [g3, (JsonReportGenerator.value_subdirs _ _ _ _ _ _ _).2]
    by_cases hpos : 0 < n.numChildren
    · rw [if_pos hpos]
      simp [QJsonObject.contains, hpos]
    · rw [if_neg hpos]
      simp [QJsonObject.contains, hpos]
  · intro v hv
    rw [g3, (JsonReportGenerator.value_subdirs _ _ _ _ _ _ _).1] at hv
    by_cases hpos : 0 < n.numChildren
    · rw [if_pos hpos] at hv
      simp only [QJsonObject.value, List.find?, beq_self_eq_true, Option.map_some',
        Option.some.injEq] at hv
      exact ⟨_, hv.symm, by rw [List.length_map, g4]⟩
    · rw [if_neg hpos] at hv
      simp [QJsonObject.value] at hv

/-- C16 at the report scenario: the object of the root has `subdirs`, an array of one
element, and the object of its child has no `subdirs`. -/
theorem C16_witness :
    ∃ doc d, (JsonReportGenerator.comp neverCanceled JsonReportGenerator.calculated []
        reportScenario 0).1 = some doc ∧
      QJsonObject.contains doc "subdirs" = true ∧
      QJsonObject.subdoc [0] doc = some d ∧ QJsonObject.contains d "subdirs" = false := by
  have h := (C16_subdirs_key_iff_children neverCanceled JsonReportGenerator.calculated []
    reportScenario 0 _ 3 rfl).2
  obtain ⟨d0, a1, a2, _⟩ := h [] reportScenario rfl
  obtain ⟨d1, b1, b2, _⟩ := h [0] (DirTree.mk "sub" [⟨5, 150⟩] [] 5 5) rfl
  simp only [QJsonObject.subdoc, Option.some.injEq] at a1
  refine ⟨_, d1, rfl, ?_, b1, ?_⟩
  · rw [a1]
    exact a2.2 (by decide)
  · cases hc : QJsonObject.contains d1 "subdirs" with
    | false => rfl
    | true => exact absurd (b2.1 hc) (by decide)

/-- C17: report generation is all or nothing. `comp` returns no document when its first
poll of the cancellation flag returns true, when one of the two futures of the node holds
no chart, or when `comp` returns no document for one of the children; a document it returns
was built with every poll returning false and with both futures of every node of the tree
holding a chart, and it holds the document of every node; `run` delivers a document exactly
when `comp` on the root returns one, and otherwise delivers none. -/
theorem C17_report_all_or_nothing (isCanceled : Nat → Bool)
    (node : List Nat → DirTree → JsonReportGenerator.TmpFuts) (path : List Nat)
    (tree : DirTree) (polls : Nat) :
    (isCanceled polls = true →
      (JsonReportGenerator.comp isCanceled node path tree polls).1 = none) ∧
    ((node path tree).subtreeChart = TaskResult.noResult ∨
      (node path tree).filesChart = TaskResult.noResult →
      (JsonReportGenerator.comp isCanceled node path tree polls).1 = none) ∧
    ((∃ j ch, tree.child j = some ch ∧
        ∀ k, (JsonReportGenerator.comp isCanceled node (path ++ [j]) ch k).1 = none) →
      (JsonReportGenerator.comp isCanceled node path tree polls).1 = none) ∧
    (∀ doc polls2, JsonReportGenerator.comp isCanceled node path tree polls =
        (some doc, polls2) →
      (∀ k, polls ≤ k → k < polls2 → isCanceled k = false) ∧
      ∀ p n, DirTree.nodeAt p tree = some n →
        (∃ c1 c2, (node (path ++ p) n).subtreeChart = TaskResult.result c1 ∧
          (node (path ++ p) n).filesChart = TaskResult.result c2) ∧
        ∃ d, QJsonObject.subdoc p doc = some d) ∧
    (∀ doc, JsonReportGenerator.run isCanceled node tree =
        JsonReportGenerator.RunOutcome.result doc ↔
      (JsonReportGenerator.comp isCanceled node [] tree 0).1 = some doc) ∧
    ((JsonReportGenerator.comp isCanceled node [] tree 0).1 = none →
      JsonReportGenerator.run isCanceled node tree = JsonReportGenerator.RunOutcome.canceled ∨
      JsonReportGenerator.run isCanceled node tree =
        JsonReportGenerator.RunOutcome.exception) := by
  have key : ∀ (pa : List Nat) (t : DirTree) (po : Nat),
      (JsonReportGenerator.comp isCanceled node pa t po).1 ≠ none →
      ∃ doc polls2, JsonReportGenerator.comp isCanceled node pa t po = (some doc, polls2) := by
    intro pa t po hne
    cases hc : JsonReportGenerator.comp isCanceled node pa t po with
    | mk o p2 =>
      rw [hc] at hne
      cases o with
      | none => exact absurd rfl hne
      | some doc => exact ⟨doc, p2, rfl⟩
  refine ⟨?_, ?_, ?_, ?_, ?_, ?_⟩
  · intro hc
    by_contra hne
    obtain ⟨doc, polls2, h⟩ := key _ _ _ hne
    obtain ⟨g1, g2, _⟩ := JsonReportGenerator.comp_some isCanceled node tree path polls doc
      polls2 h
    rw [g2 polls (le_refl _) g1] at hc
    exact Bool.false_ne_true hc
  · intro hf
    by_contra hne
    obtain ⟨doc, polls2, h⟩ := key _ _ _ hne
    obtain ⟨_, _, c1, c2, _, g3, g4, _⟩ :=
      JsonReportGenerator.comp_some isCanceled node tree path polls doc polls2 h
    rcases hf with hf | hf
    · rw [hf] at g3; cases g3
    · rw [hf] at g4; cases g4
  · rintro ⟨j, ch, hch, hnone⟩
    by_contra hne
    obtain ⟨doc, polls2, h⟩ := key _ _ _ hne
    obtain ⟨_, _, c1, c2, docs, _, _, _, _, g5⟩ :=
      JsonReportGenerator.comp_some isCanceled node tree path polls doc polls2 h
    obtain ⟨d, k, k2, _, _, _, e4⟩ := g5 j ch hch
    have := hnone k
    rw [e4] at this
    cases this
  · intro doc polls2 h
    obtain ⟨_, g2, _⟩ :=
      JsonReportGenerator.comp_some isCanceled node tree path polls doc polls2 h
    refine ⟨g2, ?_⟩
    intro p n hn
    obtain ⟨d, k, k2, _, _, e3, e4⟩ :=
      JsonReportGenerator.comp_some_all isCanceled node p tree path polls doc polls2 h n hn
    obtain ⟨_, _, c1, c2, _, g3, g4, _⟩ :=
      JsonReportGenerator.comp_some isCanceled node n (path ++ p) k d k2 e3
    exact ⟨⟨c1, c2, g3, g4⟩, d, e4⟩
  · intro doc
    unfold JsonReportGenerator.run
    cases hc : JsonReportGenerator.comp isCanceled node [] tree 0 with
    | mk o p2 =>
      cases o with
      | none =>
        simp only
        constructor
        · intro h
          by_cases hcc : isCanceled p2 = true
          · rw [if_pos hcc] at h; cases h
          · rw [if_neg hcc] at h; cases h
        · intro h; cases h
      | some d =>
        simp only
        constructor
        · intro h
          cases h
          rfl
        · intro h
          rw [Option.some.inj h]
  · intro hnone
    unfold JsonReportGenerator.run
    cases hc : JsonReportGenerator.comp isCanceled node [] tree 0 with
    | mk o p2 =>
      rw [hc] at hnone
      simp only at hnone
      subst hnone
      simp only
      by_cases hcc : isCanceled p2 = true
      · rw [if_pos hcc]; exact Or.inl rfl
      · rw [if_neg hcc]; exact Or.inr rfl

/-- C17 at the report scenario: with the files chart of the child missing no document is
returned and `run` raises the exception; with the third poll of the cancellation flag
returning true `run` finishes cancelled. -/
theorem C17_witness :
    (JsonReportGenerator.comp neverCanceled
      (fun p t => if p = [0] then { subtreeChart := TaskResult.result AgeChart.unset
                                    filesChart := TaskResult.noResult }
        else JsonReportGenerator.calculated p t) [] reportScenario 0).1 = none ∧
    JsonReportGenerator.run neverCanceled
      (fun p t => if p = [0] then { subtreeChart := TaskResult.result AgeChart.unset
                                    filesChart := TaskResult.noResult }
        else JsonReportGenerator.calculated p t) reportScenario =
      JsonReportGenerator.RunOutcome.exception ∧
    JsonReportGenerator.run (fun k => decide (2 ≤ k)) JsonReportGenerator.calculated
      reportScenario = JsonReportGenerator.RunOutcome.canceled :=
  ⟨(C17_report_all_or_nothing neverCanceled
      (fun p t => if p = [0] then { subtreeChart := TaskResult.result AgeChart.unset
                                    filesChart := TaskResult.noResult }
        else JsonReportGenerator.calculated p t) [] reportScenario 0).2.2.1
      ⟨0, DirTree.mk "sub" [⟨5, 150⟩] [] 5 5, rfl, fun k =>
        (C17_report_all_or_nothing neverCanceled
          (fun p t => if p = [0] then { subtreeChart := TaskResult.result AgeChart.unset
                                        filesChart := TaskResult.noResult }
            else JsonReportGenerator.calculated p t) [0]
          (DirTree.mk "sub" [⟨5, 150⟩] [] 5 5) k).2.1 (Or.inr rfl)⟩,
    rfl, rfl⟩

/-- C18, the claim as stated fails: in the tree the scanner builds for a directory holding
`src`, `src/lib`, `docs` and `build` the node of `src/lib` has the name `lib`, the wildcard
search for `*s*` does not add it, and the search ends with two results, not three; a name
`src/lib` would not match either, `*` not crossing the path separator. -/
theorem C18_counterexample :
    ∃ (st : ScanState) (re : QRegularExpression) (ws : SearchWorker.WorkerState),
      ScanWorker.scanPriv neverCanceled 20 "/work" searchScenario = ScanResult.tree 0 st ∧
      Store.view st.store 10 0 = some searchTree ∧
      searchTree.dirs.map DirTree.name = ["/work", "src", "lib", "docs", "build"] ∧
      QRegularExpression.fromWildcard "*s*" = some re ∧
      SearchWorker.drain (WildcardSearchWorker.process re) 32 10
        { m_queue := [searchTree], results := [] } = some ws ∧
      ws.results.length ≠ 3 ∧
      WildcardSearchWorker.process re (DirTree.mk "lib" [] [] 0 0) = false ∧
      ws.results.map DirTree.name = ["src", "docs"] ∧
      re.hasMatch "src/lib" = false :=
  ⟨_, _, _, rfl, rfl, rfl, rfl, rfl, by decide, rfl, rfl, rfl⟩

/-- C18, amended: in the tree the scanner builds for a directory `/work` holding `src`,
`src/lib`, `docs` and `build` the nodes are named after the last component of their path;
the wildcard search for `*s*`, an anchored match of the whole name, adds the nodes `src`
and `docs` and adds neither `lib` nor `build` nor the root: the result set has size 2. -/
theorem C18_wildcard_scenario :
    ∃ (st : ScanState) (re : QRegularExpression) (ws : SearchWorker.WorkerState),
      ScanWorker.scanPriv neverCanceled 20 "/work" searchScenario = ScanResult.tree 0 st ∧
      Store.view st.store 10 0 = some searchTree ∧
      searchTree.dirs.map DirTree.name = ["/work", "src", "lib", "docs", "build"] ∧
      QRegularExpression.fromWildcard "*s*" = some re ∧
      searchTree.dirs.map (WildcardSearchWorker.process re) =
        [false, true, false, true, false] ∧
      SearchWorker.drain (WildcardSearchWorker.process re) 32 10
        { m_queue := [searchTree], results := [] } = some ws ∧
      ws.m_queue = [] ∧
      ws.results.map DirTree.name = ["src", "docs"] ∧
      ws.results.length = 2 ∧
      ws.results = searchTree.dirs.filter (WildcardSearchWorker.process re) :=
  ⟨_, _, _, rfl, rfl, rfl, rfl, rfl, rfl, rfl, rfl, rfl, rfl⟩

/-- C21, the claim as stated fails: in the tie scenario the direct file `{1, 5}` of the node
and the front entry `{2, 5}` of its child iterator have the same time, and the iteration
yields the entry of the child first and the direct file after it. -/
theorem C21_counterexample :
    tieTree.begin.drain 3 = some [⟨2, 5⟩, ⟨1, 5⟩] ∧
    tieTree.begin.cur = some ⟨2, 5⟩ ∧ tieTree.begin.cur ≠ some ⟨1, 5⟩ := by
  decide

/-- C21, amended: in the advance step of an iterator whose next unvisited direct file is
`f` and whose top child iterator `best` is at the entry `g`, the direct file is yielded,
with the file cursor advanced and the child iterators untouched, exactly when its time is
strictly smaller; when the times are equal (or that of `f` is greater) the entry `g` of the
child is yielded and the direct file stays unvisited. In the tie scenario the entry of the
child comes first and the direct file follows. -/
theorem C21_tie_yields_child_first (t : DirTree) (cur : Option FileInfo)
    (best : DirTree.iterator) (rest : List DirTree.iterator) (pos : Nat) (f g : FileInfo)
    (hf : t.files[pos]? = some f) (hg : best.cur = some g) :
    (f.time < g.time →
      DirTree.iterator.next (DirTree.iterator.mk t cur (best :: rest) pos) =
        DirTree.iterator.mk t (some f) (best :: rest) (pos + 1)) ∧
    (¬ f.time < g.time →
      (DirTree.iterator.next (DirTree.iterator.mk t cur (best :: rest) pos)).cur = some g ∧
      (DirTree.iterator.next (DirTree.iterator.mk t cur (best :: rest) pos)).pos = pos ∧
      (DirTree.iterator.next (DirTree.iterator.mk t cur (best :: rest) pos)).tree = t) ∧
    (f.time = g.time →
      (DirTree.iterator.next (DirTree.iterator.mk t cur (best :: rest) pos)).cur = some g ∧
      (DirTree.iterator.next (DirTree.iterator.mk t cur (best :: rest) pos)).pos = pos) ∧
    tieTree.begin.drain 3 = some [⟨2, 5⟩, ⟨1, 5⟩] := by
  have htime : best.time = g.time := by
    simp only [DirTree.iterator.time, hg]
  have hge : ¬ f.time < g.time →
      (DirTree.iterator.next (DirTree.iterator.mk t cur (best :: rest) pos)).cur = some g ∧
      (DirTree.iterator.next (DirTree.iterator.mk t cur (best :: rest) pos)).pos = pos ∧
      (DirTree.iterator.next (DirTree.iterator.mk t cur (best :: rest) pos)).tree = t := by
    intro h
    rw [DirTree.iterator.next]
    simp only [hf, htime, if_neg h]
    by_cases he : (DirTree.iterator.next best).isEnd = true
    · rw [if_pos he]
      exact ⟨hg, rfl, rfl⟩
    · rw [if_neg he]
      exact ⟨hg, rfl, rfl⟩
  refine ⟨?_, hge, ?_, by decide⟩
  · intro h
    rw [DirTree.iterator.next]
    simp only [hf, htime, if_pos h]
  · intro h
    have h2 := hge (by omega)
    exact ⟨h2.1, h2.2.1⟩

/-- Witness of C21: the first advance step of the iterator of the tie scenario. -/
theorem C21_witness :
    (DirTree.iterator.next (DirTree.iterator.mk tieTree none
      [DirTree.iterator.mk (DirTree.mk "c" [⟨2, 5⟩] [] 2 2) (some ⟨2, 5⟩) [] 1] 0)).cur =
      some ⟨2, 5⟩ ∧
    (DirTree.iterator.next (DirTree.iterator.mk tieTree none
      [DirTree.iterator.mk (DirTree.mk "c" [⟨2, 5⟩] [] 2 2) (some ⟨2, 5⟩) [] 1] 0)).pos = 0 :=
  (C21_tie_yields_child_first tieTree none
    (DirTree.iterator.mk (DirTree.mk "c" [⟨2, 5⟩] [] 2 2) (some ⟨2, 5⟩) [] 1) [] 0
    ⟨1, 5⟩ ⟨2, 5⟩ rfl rfl).2.2.1 rfl

/-- C22: a steal never takes the last item of the victim. When the queue of the victim
holds at most one item `stealFrom` returns no node and leaves the queue and the busy counter
as they were; when it holds more than one item it returns the front item, leaves the other
items in their order and increments the busy counter by exactly one. -/
theorem C22_steal_never_takes_last (m_queue : List DirTree) (busyCounter : Int) :
    (m_queue.length ≤ 1 →
      SearchWorker.stealFrom m_queue busyCounter = (none, m_queue, busyCounter)) ∧
    (1 < m_queue.length →
      ∃ p rest, m_queue = p :: rest ∧
        SearchWorker.stealFrom m_queue busyCounter = (some p, rest, busyCounter + 1)) ∧
    (∀ p rest b, SearchWorker.stealFrom m_queue busyCounter = (some p, rest, b) →
      rest ≠ [] ∧ m_queue = p :: rest ∧ b = busyCounter + 1) := by
  refine ⟨?_, ?_, ?_⟩
  · intro h
    unfold SearchWorker.stealFrom
    rw [if_neg (by omega)]
  · intro h
    cases m_queue with
    | nil => simp at h
    | cons p rest =>
      refine ⟨p, rest, rfl, ?_⟩
      unfold SearchWorker.stealFrom
      rw [if_pos h]
  · intro p rest b h
    by_cases hl : m_queue.length > 1
    · cases m_queue with
      | nil => simp at hl
      | cons q rest2 =>
        unfold SearchWorker.stealFrom at h
        rw [if_pos hl] at h
        simp only [Prod.mk.injEq, Option.some.injEq] at h
        obtain ⟨h1, h2, h3⟩ := h
        subst h1 h2 h3
        refine ⟨?_, rfl, rfl⟩
        intro he
        rw [he] at hl
        simp at hl
    · unfold SearchWorker.stealFrom at h
      rw [if_neg hl] at h
      simp at h

/-- Witness of C22: steals from queues of one and of two items. -/
theorem C22_witness :
    SearchWorker.stealFrom [emptyDir] 1 = (none, [emptyDir], 1) ∧
    ∃ p rest, [oneFile, emptyDir] = p :: rest ∧
      SearchWorker.stealFrom [oneFile, emptyDir] 1 = (some p, rest, 1 + 1) :=
  ⟨(C22_steal_never_takes_last [emptyDir] 1).1 (by decide),
   (C22_steal_never_takes_last [oneFile, emptyDir] 1).2.1 (by decide)⟩

namespace SearchWorker

theorem dirsOfList_append (a b : List DirTree) :
    DirTree.dirsOfList (a ++ b) = DirTree.dirsOfList a ++ DirTree.dirsOfList b := by
  simp [DirTree.dirsOfList_eq_flatMap]

theorem dirs_eq_cons (t : DirTree) : t.dirs = t :: DirTree.dirsOfList t.subdirs := by
  cases t with
  | mk n f s a b => simp [DirTree.dirs, DirTree.subdirs]

/-- Effect of `process`: the node is added to the results when it matches, the queue is
untouched. -/
theorem process_spec (isMatch : DirTree → Bool) (t : DirTree) (st : WorkerState) :
    (process isMatch t st).results = st.results ++ [t].filter isMatch ∧
    (process isMatch t st).m_queue = st.m_queue := by
  unfold process
  by_cases h : isMatch t = true
  · rw [if_pos h]; simp [h]
  · rw [if_neg h]; simp [h]

mutual
/-- Effect of `processChildren`: what is in the results and what is still reachable from
the queue grows by the nodes below `t`; the queue does not grow beyond the capacity. -/
theorem processChildren_spec (isMatch : DirTree → Bool) (capacity : Nat) :
    ∀ (t : DirTree) (st : WorkerState),
    ((processChildren isMatch capacity t st).results : Multiset DirTree) +
        ((DirTree.dirsOfList (processChildren isMatch capacity t st).m_queue).filter isMatch :
          List DirTree) =
      (st.results : Multiset DirTree) +
        ((DirTree.dirsOfList st.m_queue).filter isMatch : List DirTree) +
        ((DirTree.dirsOfList t.subdirs).filter isMatch : List DirTree) ∧
    (processChildren isMatch capacity t st).m_queue.length ≤
      max capacity st.m_queue.length ∧
    (DirTree.dirsOfList (processChildren isMatch capacity t st).m_queue).length ≤
      (DirTree.dirsOfList st.m_queue).length + (DirTree.dirsOfList t.subdirs).length
  | DirTree.mk n f s a b, st => by
    rw [processChildren]
    exact processChildrenLoop_spec isMatch capacity s st
/-- Effect of the loop of `processChildren` over the children `cs`. -/
theorem processChildrenLoop_spec (isMatch : DirTree → Bool) (capacity : Nat) :
    ∀ (cs : List DirTree) (st : WorkerState),
    ((processChildrenLoop isMatch capacity cs st).results : Multiset DirTree) +
        ((DirTree.dirsOfList (processChildrenLoop isMatch capacity cs st).m_queue).filter
          isMatch : List DirTree) =
      (st.results : Multiset DirTree) +
        ((DirTree.dirsOfList st.m_queue).filter isMatch : List DirTree) +
        ((DirTree.dirsOfList cs).filter isMatch : List DirTree) ∧
    (processChildrenLoop isMatch capacity cs st).m_queue.length ≤
      max capacity st.m_queue.length ∧
    (DirTree.dirsOfList (processChildrenLoop isMatch capacity cs st).m_queue).length ≤
      (DirTree.dirsOfList st.m_queue).length + (DirTree.dirsOfList cs).length
  | [], st => by
    rw [processChildrenLoop]
    simp [DirTree.dirsOfList]
  | child :: rest, st => by
    rw [processChildrenLoop]
    by_cases hq : st.m_queue.length < capacity
    · rw [if_pos hq]
      obtain ⟨h1, h2, h3⟩ := processChildrenLoop_spec isMatch capacity rest
        { st with m_queue := st.m_queue ++ [child] }
      refine ⟨?_, ?_, ?_⟩
      · rw [h1]
        simp only [dirsOfList_append, DirTree.dirsOfList, List.append_nil, List.filter_append,
          ← Multiset.coe_add]
        abel
      · simp only [List.length_append, List.length_singleton] at h2
        omega
      · simp only [dirsOfList_append, DirTree.dirsOfList, List.append_nil,
          List.length_append] at h3 ⊢
        omega
    · rw [if_neg hq]
      obtain ⟨p1, p2⟩ := process_spec isMatch child st
      obtain ⟨c1, c2, c3⟩ := processChildren_spec isMatch capacity child
        (process isMatch child st)
      obtain ⟨h1, h2, h3⟩ := processChildrenLoop_spec isMatch capacity rest
        (processChildren isMatch capacity child (process isMatch child st))
      refine ⟨?_, ?_, ?_⟩
      · rw [h1, c1, p1, p2]
        have e : DirTree.dirsOfList (child :: rest) =
            [child] ++ DirTree.dirsOfList child.subdirs ++ DirTree.dirsOfList rest := by
          simp [DirTree.dirsOfList, dirs_eq_cons child]
        rw [e]
        simp only [List.filter_append, ← Multiset.coe_add]
        abel
      · rw [p2] at c2
        omega
      · rw [p2] at c3
        simp only [DirTree.dirsOfList, dirs_eq_cons child, List.length_append,
          List.length_cons] at h3 ⊢
        omega
end

/-- The local loop of `run` with fuel for every node reachable from the queue: it empties
the queue, and the results then hold what they held before and every matching node that was
reachable from the queue. -/
theorem localDrain_spec (isMatch : DirTree → Bool) (capacity : Nat) :
    ∀ (fuel : Nat) (st : WorkerState), (DirTree.dirsOfList st.m_queue).length ≤ fuel →
    ∃ ws, drain isMatch capacity fuel st = some ws ∧ ws.m_queue = [] ∧
      (ws.results : Multiset DirTree) = (st.results : Multiset DirTree) +
        ((DirTree.dirsOfList st.m_queue).filter isMatch : List DirTree) := by
  intro fuel
  induction fuel with
  | zero =>
    intro st h
    cases hq : st.m_queue with
    | nil =>
      refine ⟨st, ?_, hq, ?_⟩
      · rw [drain, hq]
      · simp [DirTree.dirsOfList]
    | cons t q =>
      rw [hq] at h
      simp [DirTree.dirsOfList, dirs_eq_cons t] at h
  | succ fuel ih =>
    intro st h
    cases hq : st.m_queue with
    | nil =>
      refine ⟨st, ?_, hq, ?_⟩
      · rw [drain, hq]
      · simp [DirTree.dirsOfList]
    | cons t q =>
      rw [hq] at h
      rw [drain, hq]
      simp only
      obtain ⟨p1, p2⟩ := process_spec isMatch t { st with m_queue := q }
      obtain ⟨c1, _, c3⟩ := processChildren_spec isMatch capacity t
        (process isMatch t { st with m_queue := q })
      have hfuel : (DirTree.dirsOfList (processChildren isMatch capacity t
          (process isMatch t { st with m_queue := q })).m_queue).length ≤ fuel := by
        rw [p2] at c3
        simp only [DirTree.dirsOfList, dirs_eq_cons t, List.length_append,
          List.length_cons] at h c3
        omega
      obtain ⟨ws, w1, w2, w3⟩ := ih _ hfuel
      refine ⟨ws, w1, w2, ?_⟩
      rw [w3, c1, p1, p2]
      have e : DirTree.dirsOfList (t :: q) =
          [t] ++ DirTree.dirsOfList t.subdirs ++ DirTree.dirsOfList q := by
        simp [DirTree.dirsOfList, dirs_eq_cons t]
      rw [e]
      simp only [List.filter_append, ← Multiset.coe_add]
      abel

end SearchWorker

/-- C23: without steals and cancellation, `process(t)` and `processChildren(t)` followed by
the local loop (dequeue, process, processChildren) with fuel for every node of the subtree
of `t` empties the queue, and the nodes added to the results are, up to order and with their
multiplicity, the nodes of the subtree of `t` that `process` accepts: with a `process` that
accepts every node, each node of the subtree exactly once. In the loop of `processChildren`
a child is enqueued when the queue size is below the capacity and is otherwise processed
inline with its descendants, and the queue never grows beyond the capacity. -/
theorem C23_every_node_processed_once (isMatch : DirTree → Bool) (capacity : Nat)
    (t : DirTree) (fuel : Nat) (hfuel : t.dirs.length ≤ fuel) :
    (∃ ws, SearchWorker.drain isMatch capacity fuel
        (SearchWorker.processChildren isMatch capacity t
          (SearchWorker.process isMatch t { m_queue := [], results := [] })) = some ws ∧
      ws.m_queue = [] ∧ ws.results.Perm (t.dirs.filter isMatch)) ∧
    (∃ ws, SearchWorker.drain (fun _ => true) capacity fuel
        (SearchWorker.processChildren (fun _ => true) capacity t
          (SearchWorker.process (fun _ => true) t { m_queue := [], results := [] })) =
        some ws ∧
      ws.m_queue = [] ∧ ws.results.Perm t.dirs) ∧
    (∀ (child : DirTree) (rest : List DirTree) (st : SearchWorker.WorkerState),
      st.m_queue.length < capacity →
      SearchWorker.processChildrenLoop isMatch capacity (child :: rest) st =
        SearchWorker.processChildrenLoop isMatch capacity rest
          { st with m_queue := st.m_queue ++ [child] }) ∧
    (∀ (child : DirTree) (rest : List DirTree) (st : SearchWorker.WorkerState),
      ¬ st.m_queue.length < capacity →
      SearchWorker.processChildrenLoop isMatch capacity (child :: rest) st =
        SearchWorker.processChildrenLoop isMatch capacity rest
          (SearchWorker.processChildren isMatch capacity child
            (SearchWorker.process isMatch child st))) ∧
    (∀ (n : DirTree) (st : SearchWorker.WorkerState), st.m_queue.length ≤ capacity →
      (SearchWorker.processChildren isMatch capacity n st).m_queue.length ≤ capacity) ∧
    (∀ (cs : List DirTree) (st : SearchWorker.WorkerState), st.m_queue.length ≤ capacity →
      (SearchWorker.processChildrenLoop isMatch capacity cs st).m_queue.length ≤
        capacity) := by
  have main : ∀ (isM : DirTree → Bool),
      ∃ ws, SearchWorker.drain isM capacity fuel
        (SearchWorker.processChildren isM capacity t
          (SearchWorker.process isM t { m_queue := [], results := [] })) = some ws ∧
      ws.m_queue = [] ∧ ws.results.Perm (t.dirs.filter isM) := by
    intro isM
    obtain ⟨p1, p2⟩ := SearchWorker.process_spec isM t { m_queue := [], results := [] }
    obtain ⟨c1, _, c3⟩ := SearchWorker.processChildren_spec isM capacity t
      (SearchWorker.process isM t { m_queue := [], results := [] })
    rw [p2] at c3
    simp only [DirTree.dirsOfList, List.length_nil, Nat.zero_add] at c3
    have hlen : t.dirs.length = 1 + (DirTree.dirsOfList t.subdirs).length := by
      rw [SearchWorker.dirs_eq_cons t]
      simp only [List.length_cons]
      omega
    obtain ⟨ws, w1, w2, w3⟩ := SearchWorker.localDrain_spec isM capacity fuel _
      (by omega : (DirTree.dirsOfList (SearchWorker.processChildren isM capacity t
        (SearchWorker.process isM t { m_queue := [], results := [] })).m_queue).length ≤ fuel)
    refine ⟨ws, w1, w2, ?_⟩
    rw [c1, p1, p2] at w3
    apply Multiset.coe_eq_coe.1
    rw [w3]
    have e : t.dirs = [t] ++ DirTree.dirsOfList t.subdirs := by
      rw [SearchWorker.dirs_eq_cons t]; rfl
    rw [e]
    simp only [DirTree.dirsOfList, List.filter_append, List.filter_nil, List.nil_append,
      ← Multiset.coe_add, Multiset.coe_nil, add_zero]
  refine ⟨main isMatch, ?_, ?_, ?_, ?_, ?_⟩
  · obtain ⟨ws, w1, w2, w3⟩ := main (fun _ => true)
    refine ⟨ws, w1, w2, ?_⟩
    simpa using w3
  · intro child rest st h
    rw [SearchWorker.processChildrenLoop, if_pos h]
  · intro child rest st h
    rw [SearchWorker.processChildrenLoop, if_neg h]
  · intro n st h
    have := (SearchWorker.processChildren_spec isMatch capacity n st).2.1
    omega
  · intro cs st h
    have := (SearchWorker.processChildrenLoop_spec isMatch capacity cs st).2.1
    omega

/-- Witness of C23: the tree of the search scenario with a queue of capacity 1, so that the
second and third child of the root are processed inline. -/
theorem C23_witness :
    searchTree.dirs.length ≤ 5 ∧
    ∃ ws, SearchWorker.drain (fun _ => true) 1 5
        (SearchWorker.processChildren (fun _ => true) 1 searchTree
          (SearchWorker.process (fun _ => true) searchTree { m_queue := [], results := [] })) =
        some ws ∧
      ws.m_queue = [] ∧ ws.results.Perm searchTree.dirs :=
  ⟨by decide, (C23_every_node_processed_once (fun _ => true) 1 searchTree 5 (by decide)).2.1⟩

/-- The store of the scan scenario is what the scanner returns, and it is well formed. -/
theorem scannedStore_wellFormed :
    ScanWorker.run neverCanceled 10 "root" scanScenario = some (scannedStore, 0) ∧
    Store.WellFormed scannedStore (fun x => x) := by
  have hrun : ScanWorker.scanPriv neverCanceled 10 "root" scanScenario =
      ScanResult.tree 0 (ScanState.mk scannedStore [] (Progress.mk 1 1 1 0) 7 [0, 1]) := rfl
  refine ⟨by simp only [ScanWorker.run, hrun], ?_⟩
  rcases ScanWorker.scanPriv_spec neverCanceled 10 "root" scanScenario (by decide) with
    ⟨st, a1, _, a3, _⟩ | ⟨st, _, b2, _⟩
  · rw [hrun] at a1
    have hst := (ScanResult.tree.inj a1).2
    rw [← hst] at a3
    exact a3.1
  · exact absurd b2 (by simp [neverCanceled])

/-- C26: frame of `append(size, time)`. On a well-formed store the call on `n` returns;
`filesSize(n)` has grown by exactly `size`, and so has the subtree size of `n` and of each
ancestor of `n`; the subtree size of every other object is unchanged, and so are, for every
object other than `n`, its name, files, children, parent, position and `filesSize`, and for
`n` itself its name, children, parent and position. No object is added or removed. -/
theorem C26_append_file_frame (H : Store) (rank : Ptr → Nat) (n : Ptr) (nd : DirNode)
    (size time : Int) (fuel : Nat) (hwf : Store.WellFormed H rank) (hn : H[n]? = some nd)
    (hfuel : rank n < fuel) :
    ∃ H2 nd2, Store.append fuel H n size time = some H2 ∧ H2.length = H.length ∧
      H2[n]? = some nd2 ∧
      nd2.m_filesSize = nd.m_filesSize + size ∧
      nd2.m_subtreeSize = nd.m_subtreeSize + size ∧
      nd2.m_name = nd.m_name ∧ nd2.m_subdirs = nd.m_subdirs ∧ nd2.m_parent = nd.m_parent ∧
      nd2.m_parentPos = nd.m_parentPos ∧
      ∀ (q : Ptr) (y : DirNode), H[q]? = some y →
        ∃ y2, H2[q]? = some y2 ∧
          (Store.Above H q n → y2.m_subtreeSize = y.m_subtreeSize + size) ∧
          (¬ Store.Above H q n → y2.m_subtreeSize = y.m_subtreeSize) ∧
          (q ≠ n → y2.m_filesSize = y.m_filesSize ∧ y2.m_files = y.m_files ∧
            y2.m_subdirs = y.m_subdirs ∧ y2.m_parent = y.m_parent ∧
            y2.m_parentPos = y.m_parentPos ∧ y2.m_name = y.m_name) := by
  obtain ⟨H2, e1, e2, ⟨nd2, f1, _, f3, f4, f5, f6, f7⟩, hother, hsize⟩ :=
    Store.append_frame rank fuel H n nd size time hwf hn hfuel
  obtain ⟨y0, g1, g2, _⟩ := hsize n nd hn
  rw [f1] at g1
  have hy0 : nd2 = y0 := Option.some.inj g1
  subst hy0
  refine ⟨H2, nd2, e1, e2, f1, f3, g2 (Store.Above.self n), f4, f5, f6, f7, ?_⟩
  intro q y hy
  obtain ⟨y2, h1, h2, h3⟩ := hsize q y hy
  refine ⟨y2, h1, h2, h3, ?_⟩
  intro hq
  obtain ⟨y3, k1, k2, k3, k4, k5, k6, k7⟩ := hother q y hy hq
  rw [h1] at k1
  have : y2 = y3 := Option.some.inj k1
  subst this
  exact ⟨k7, k3, k4, k5, k6, k2⟩

/-- Witness of C26: a file of size 8 appended to the child `sub` of the store of the scan
scenario; the subtree sizes of `sub` and of the root grow by 8, the files size of the root
stays 42. -/
theorem C26_witness :
    ∃ H2 nd2 r2, Store.append 2 scannedStore 1 8 2000 = some H2 ∧ H2[1]? = some nd2 ∧
      nd2.m_filesSize = 0 + 8 ∧ nd2.m_subtreeSize = 0 + 8 ∧
      H2[0]? = some r2 ∧ r2.m_subtreeSize = 42 + 8 ∧ r2.m_filesSize = 42 := by
  obtain ⟨H2, nd2, h1, _, h3, h4, h5, _, _, _, _, h6⟩ :=
    C26_append_file_frame scannedStore (fun x => x) 1
      { DirNode.new with m_name := "sub", m_parent := some 0, m_parentPos := 0 } 8 2000 2
      scannedStore_wellFormed.2 rfl (by decide)
  obtain ⟨r2, k1, k2, _, k4⟩ := h6 0 _ rfl
  refine ⟨H2, nd2, r2, h1, h3, h4, h5, k1, ?_, ?_⟩
  · exact k2 (Store.Above.step 0 1 0 _ rfl rfl (Store.Above.self 0))
  · exact (k4 (by decide)).1

/-- The iterator of a node without child iterators delivers the direct files from its file
cursor on, in the order of the file list. -/
theorem leaf_next_drain (t : DirTree) :
    ∀ (fuel pos : Nat) (c : Option FileInfo), t.files.length - pos < fuel →
      (DirTree.iterator.next (DirTree.iterator.mk t c [] pos)).drain fuel =
        some (t.files.drop pos) := by
  intro fuel
  induction fuel with
  | zero => intro pos c h; omega
  | succ fuel ih =>
    intro pos c h
    rw [DirTree.iterator.next]
    cases hf : t.files[pos]? with
    | none =>
      simp only
      rw [DirTree.iterator.drain]
      simp only [DirTree.iterator.cur]
      have hle : t.files.length ≤ pos := by
        by_contra hlt
        rw [List.getElem?_eq_getElem (by omega)] at hf
        cases hf
      rw [List.drop_eq_nil_of_le hle]
    | some f =>
      simp only
      rw [DirTree.iterator.drain]
      simp only [DirTree.iterator.cur]
      have hlt : pos < t.files.length := StdHeap.lt_length_of_getElem? hf
      rw [ih (pos + 1) (some f) (by omega)]
      simp only [Option.map_some', Option.some.injEq]
      rw [List.drop_eq_getElem_cons hlt]
      rw [List.getElem?_eq_getElem hlt] at hf
      rw [Option.some.inj hf]

/-- The iterator of a node without subdirectories delivers the file list of the node. -/
theorem leaf_begin_drain (t : DirTree) (fuel : Nat) (hleaf : t.subdirs = [])
    (hfuel : t.files.length < fuel) : t.begin.drain fuel = some t.files := by
  cases t with
  | mk n f s a b =>
    simp only [DirTree.subdirs] at hleaf
    subst hleaf
    rw [DirTree.begin]
    have := leaf_next_drain (DirTree.mk n f [] a b) fuel 0 none (by omega)
    simpa using this

/-- C28: on a node without subdirectories whose `subtreeSize` equals its `filesSize`, and
with `filesSize > 0` or no files, `calculateSubtree` and `calculateFiles` leave the same
result in their promises when the first poll of the cancellation flag returns false, the
later polls returning the same in both tasks; the subtree task runs the same loop body over
the sequence of its iterator, which is the file list of the node. -/
theorem C28_leaf_calculators_agree (isCanceled : Nat → Bool) (t : DirTree) (fuel : Nat)
    (hleaf : t.subdirs = []) (hsize : t.subtreeSize = t.filesSize)
    (hcond : 0 < t.filesSize ∨ t.files = []) (hfuel : t.files.length < fuel)
    (hpoll : isCanceled 0 = false) :
    SubtreeCalculationTask.runPriv isCanceled fuel t =
      some (FilesCalculationTask.runPriv isCanceled t) ∧
    t.begin.drain fuel = some t.files ∧
    SubtreeCalculationTask.step = FilesCalculationTask.step := by
  have hd := leaf_begin_drain t fuel hleaf hfuel
  refine ⟨?_, hd, rfl⟩
  unfold SubtreeCalculationTask.runPriv FilesCalculationTask.runPriv
  simp only [hpoll, Bool.false_eq_true, if_false]
  rw [subtree_loop_eq _ _ _ _ _ _ _ t.files hd, drain_head _ _ _ hd, hsize]
  by_cases hlen : t.files.length = 0
  · have hnil : t.files = [] := List.length_eq_zero.1 hlen
    simp only [hnil, List.length_nil, if_true]
    by_cases h0 : t.filesSize = 0
    · simp only [h0, if_true]
    · simp only [h0, if_false, List.head?_nil, FilesCalculationTask.loop]
  · have hpos : 0 < t.filesSize := by
      rcases hcond with hpos | hnil
      · exact hpos
      · rw [hnil] at hlen
        exact absurd rfl hlen
    have h0 : t.filesSize ≠ 0 := by omega
    simp only [h0, hlen, if_false]

/-- Witness of C28: the node with the four files of the truncation scenario. -/
theorem C28_witness :
    SubtreeCalculationTask.runPriv neverCanceled 5 fourFiles =
      some (FilesCalculationTask.runPriv neverCanceled fourFiles) ∧
    fourFiles.begin.drain 5 = some fourFiles.files ∧
    SubtreeCalculationTask.step = FilesCalculationTask.step :=
  C28_leaf_calculators_agree neverCanceled fourFiles 5 rfl rfl (Or.inl (by decide))
    (by decide) rfl

/-- C29: with exactly one worker the victim selection never exits. For `s = 1` and the
worker number 0 the loop `do victim = rand() % s while (victim == m_num)` has not exited
after any number of iterations, from any state of the generator; so `run` of the sole
worker, entered with an empty queue and a poll of the cancellation flag that returns false,
does not return within any number of steps, whatever the busy counter holds. With a
non-empty queue it first works the queue off and then meets the same loop, so an uncancelled
`run` of the sole worker never reaches `gracefulEnd()`. -/
theorem C29_sole_worker_never_ends :
    (∀ (fuel m_state : Nat), SearchWorker.selectVictim 1 0 fuel m_state = none) ∧
    (∀ (isMatch : DirTree → Bool) (capacity : Nat) (isCanceled : Nat → Bool) (fuel : Nat)
        (rs : SearchWorker.RunState),
      rs.workers.length = 1 → rs.worker.m_queue = [] → isCanceled rs.polls = false →
      SearchWorker.run isMatch capacity isCanceled 0 fuel rs = none) ∧
    (∀ (isMatch : DirTree → Bool) (capacity : Nat) (fuel : Nat) (rs : SearchWorker.RunState),
      rs.workers.length = 1 →
      SearchWorker.run isMatch capacity neverCanceled 0 fuel rs = none) := by
  have hsel : ∀ (fuel m_state : Nat), SearchWorker.selectVictim 1 0 fuel m_state = none := by
    intro fuel
    induction fuel with
    | zero => intro m; rfl
    | succ fuel ih =>
      intro m
      rw [SearchWorker.selectVictim]
      simp only [Nat.mod_one, if_true]
      exact ih _
  have hempty : ∀ (isMatch : DirTree → Bool) (capacity : Nat) (isCanceled : Nat → Bool)
      (fuel : Nat) (rs : SearchWorker.RunState),
      rs.workers.length = 1 → rs.worker.m_queue = [] → isCanceled rs.polls = false →
      SearchWorker.run isMatch capacity isCanceled 0 fuel rs = none := by
    intro isMatch capacity isCanceled fuel rs hw hq hc
    cases fuel with
    | zero => rfl
    | succ fuel =>
      rw [SearchWorker.run]
      simp only [hc, Bool.false_eq_true, if_false, hq, hw, hsel]
  refine ⟨hsel, hempty, ?_⟩
  intro isMatch capacity fuel
  induction fuel with
  | zero => intro rs _; rfl
  | succ fuel ih =>
    intro rs hw
    cases hq : rs.worker.m_queue with
    | nil => exact hempty isMatch capacity neverCanceled (fuel + 1) rs hw hq rfl
    | cons t queue =>
      rw [SearchWorker.run]
      simp only [neverCanceled, Bool.false_eq_true, if_false, hq]
      exact ih _ hw

/-- Witness of C29: the sole worker of a search over the tree of the search scenario. -/
theorem C29_witness :
    SearchWorker.run (fun _ => true) 32 neverCanceled 0 1000
      { worker := { m_queue := [], results := [] }, workers := [[]], busyCounter := 0,
        m_rng := 0, polls := 0 } = none ∧
    SearchWorker.run (fun _ => true) 32 neverCanceled 0 1000
      { worker := { m_queue := [searchTree], results := [] }, workers := [[searchTree]],
        busyCounter := 1, m_rng := 0, polls := 0 } = none :=
  ⟨C29_sole_worker_never_ends.2.1 (fun _ => true) 32 neverCanceled 1000 _ rfl rfl rfl,
   C29_sole_worker_never_ends.2.2 (fun _ => true) 32 1000 _ rfl⟩

namespace DirModel

/-- A call of `calculated` with a chart that is not valid changes nothing. -/
theorem calculated_invalid (H : Store) (a : DirModel) (idx : QModelIndex) (chart : AgeChart)
    (h : chart.valid = false) : calculated H a idx chart = a := by
  unfold calculated
  rw [h]
  simp

/-- The aggregates after a call of `calculated` with a valid chart. -/
theorem calculated_valid (H : Store) (a : DirModel) (idx : QModelIndex) (chart : AgeChart)
    (h : chart.valid = true) :
    ((calculated H a idx chart).m_chartsMin ≤ a.m_chartsMin ∧
      (calculated H a idx chart).m_chartsMin ≤ chart.lowerWhisker ∧
      ((calculated H a idx chart).m_chartsMin = a.m_chartsMin ∨
        (calculated H a idx chart).m_chartsMin = chart.lowerWhisker)) ∧
    (a.m_chartsMax ≤ (calculated H a idx chart).m_chartsMax ∧
      chart.upperWhisker ≤ (calculated H a idx chart).m_chartsMax ∧
      ((calculated H a idx chart).m_chartsMax = a.m_chartsMax ∨
        (calculated H a idx chart).m_chartsMax = chart.upperWhisker)) := by
  have e1 : (calculated H a idx chart).m_chartsMin =
      if a.m_chartsMin > chart.lowerWhisker then chart.lowerWhisker else a.m_chartsMin := by
    unfold calculated
    rw [h]
    rfl
  have e2 : (calculated H a idx chart).m_chartsMax =
      if a.m_chartsMax < chart.upperWhisker then chart.upperWhisker else a.m_chartsMax := by
    unfold calculated
    rw [h]
    rfl
  rw [e1, e2]
  constructor
  · by_cases hc : a.m_chartsMin > chart.lowerWhisker
    · rw [if_pos hc]
      exact ⟨Int.le_of_lt hc, Int.le_refl _, Or.inr rfl⟩
    · rw [if_neg hc]
      exact ⟨Int.le_refl _, Int.not_lt.1 hc, Or.inl rfl⟩
  · by_cases hc : a.m_chartsMax < chart.upperWhisker
    · rw [if_pos hc]
      exact ⟨Int.le_of_lt hc, Int.le_refl _, Or.inr rfl⟩
    · rw [if_neg hc]
      exact ⟨Int.le_refl _, Int.not_lt.1 hc, Or.inl rfl⟩

/-- The aggregates after a sequence of calls of `calculated` from any state: they bound the
whiskers of the valid charts passed, and each is the old value or a whisker of a valid
chart passed; without a valid chart the state is unchanged. -/
theorem calculatedAll_spec (H : Store) :
    ∀ (calls : List (QModelIndex × AgeChart)) (a : DirModel),
      (calculatedAll H a calls).m_chartsMin ≤ a.m_chartsMin ∧
      a.m_chartsMax ≤ (calculatedAll H a calls).m_chartsMax ∧
      (∀ x ∈ calls, x.2.valid = true →
        (calculatedAll H a calls).m_chartsMin ≤ x.2.lowerWhisker ∧
        x.2.upperWhisker ≤ (calculatedAll H a calls).m_chartsMax) ∧
      ((calculatedAll H a calls).m_chartsMin = a.m_chartsMin ∨
        ∃ x ∈ calls, x.2.valid = true ∧
          (calculatedAll H a calls).m_chartsMin = x.2.lowerWhisker) ∧
      ((calculatedAll H a calls).m_chartsMax = a.m_chartsMax ∨
        ∃ x ∈ calls, x.2.valid = true ∧
          (calculatedAll H a calls).m_chartsMax = x.2.upperWhisker) ∧
      ((∀ x ∈ calls, x.2.valid = false) → calculatedAll H a calls = a) := by
  intro calls
  induction calls with
  | nil =>
    intro a
    simp [calculatedAll]
  | cons x rest ih =>
    intro a
    have hstep : calculatedAll H a (x :: rest) =
        calculatedAll H (calculated H a x.1 x.2) rest := rfl
    rw [hstep]
    obtain ⟨i1, i2, i3, i4, i5, i6⟩ := ih (calculated H a x.1 x.2)
    by_cases hv : x.2.valid = true
    · obtain ⟨⟨v1, v2, v3⟩, w1, w2, w3⟩ := calculated_valid H a x.1 x.2 hv
      refine ⟨Int.le_trans i1 v1, Int.le_trans w1 i2, ?_, ?_, ?_, ?_⟩
      · intro y hy hyv
        rcases List.mem_cons.1 hy with h | h
        · subst h
          exact ⟨Int.le_trans i1 v2, Int.le_trans w2 i2⟩
        · exact i3 y h hyv
      · rcases i4 with h | ⟨y, hy, hyv, h⟩
        · rcases v3 with h2 | h2
          · exact Or.inl (h.trans h2)
          · exact Or.inr ⟨x, List.mem_cons_self _ _, hv, h.trans h2⟩
        · exact Or.inr ⟨y, List.mem_cons_of_mem _ hy, hyv, h⟩
      · rcases i5 with h | ⟨y, hy, hyv, h⟩
        · rcases w3 with h2 | h2
          · exact Or.inl (h.trans h2)
          · exact Or.inr ⟨x, List.mem_cons_self _ _, hv, h.trans h2⟩
        · exact Or.inr ⟨y, List.mem_cons_of_mem _ hy, hyv, h⟩
      · intro hall
        have := hall x (List.mem_cons_self _ _)
        rw [hv] at this
        cases this
    · have hf : x.2.valid = false := by simpa using hv
      rw [calculated_invalid H a x.1 x.2 hf] at i1 i2 i3 i4 i5 i6 ⊢
      refine ⟨i1, i2, ?_, ?_, ?_, ?_⟩
      · intro y hy hyv
        rcases List.mem_cons.1 hy with h | h
        · subst h
          rw [hf] at hyv
          cases hyv
        · exact i3 y h hyv
      · rcases i4 with h | ⟨y, hy, hyv, h⟩
        · exact Or.inl h
        · exact Or.inr ⟨y, List.mem_cons_of_mem _ hy, hyv, h⟩
      · rcases i5 with h | ⟨y, hy, hyv, h⟩
        · exact Or.inl h
        · exact Or.inr ⟨y, List.mem_cons_of_mem _ hy, hyv, h⟩
      · intro hall
        exact i6 (fun y hy => hall y (List.mem_cons_of_mem _ hy))

/-- The upper whisker of a chart that passes `valid()` is above `LOW`. -/
theorem valid_upperWhisker (c : AgeChart) (h : c.valid = true) : LOW < c.upperWhisker := by
  simp only [AgeChart.valid, Bool.and_eq_true, decide_eq_true_eq] at h
  obtain ⟨⟨⟨⟨⟨⟨h1, h2⟩, h3⟩, h4⟩, h5⟩, h6⟩, h7⟩ := h
  omega

end DirModel

/-- C25: the aggregates of the chart cache. `reset` leaves `chartsMin = HIGH`,
`chartsMax = LOW` and an empty cache. After any sequence of calls of `calculated` from
there, with whiskers that are `qint64` values, `chartsMin` is the minimum of the lower
whiskers and `chartsMax` the maximum of the upper whiskers of the charts passed that are
valid: they bound all of them and each is attained by one, and they are the initial values
when no valid chart was passed. A call with a chart that is not valid leaves the model as
it is, and `reset` afterwards gives the initial state again. -/
theorem C25_chart_aggregates (H : Store) (self : DirModel) (newTree : Option Ptr)
    (calls : List (QModelIndex × AgeChart))
    (hrange : ∀ x ∈ calls, x.2.lowerWhisker ≤ HIGH) :
    (self.reset newTree).m_chartsMin = HIGH ∧ (self.reset newTree).m_chartsMax = LOW ∧
    (self.reset newTree).m_charts = [] ∧
    (∀ x ∈ calls, x.2.valid = true →
      (DirModel.calculatedAll H (self.reset newTree) calls).m_chartsMin ≤ x.2.lowerWhisker ∧
      x.2.upperWhisker ≤ (DirModel.calculatedAll H (self.reset newTree) calls).m_chartsMax) ∧
    ((∃ x ∈ calls, x.2.valid = true) →
      (∃ x ∈ calls, x.2.valid = true ∧
        (DirModel.calculatedAll H (self.reset newTree) calls).m_chartsMin =
          x.2.lowerWhisker) ∧
      (∃ x ∈ calls, x.2.valid = true ∧
        (DirModel.calculatedAll H (self.reset newTree) calls).m_chartsMax =
          x.2.upperWhisker)) ∧
    ((∀ x ∈ calls, x.2.valid = false) →
      DirModel.calculatedAll H (self.reset newTree) calls = self.reset newTree) ∧
    (∀ (a : DirModel) (idx : QModelIndex) (chart : AgeChart), chart.valid = false →
      DirModel.calculated H a idx chart = a) ∧
    (DirModel.calculatedAll H (self.reset newTree) calls).reset newTree =
      self.reset newTree := by
  obtain ⟨_, _, i3, i4, i5, i6⟩ := DirModel.calculatedAll_spec H calls (self.reset newTree)
  refine ⟨rfl, rfl, rfl, i3, ?_, i6, fun a idx chart h =>
    DirModel.calculated_invalid H a idx chart h, rfl⟩
  rintro ⟨x0, hx0, hv0⟩
  obtain ⟨b1, b2⟩ := i3 x0 hx0 hv0
  have hr0 := hrange x0 hx0
  have hu0 := DirModel.valid_upperWhisker x0.2 hv0
  constructor
  · rcases i4 with h | h
    · refine ⟨x0, hx0, hv0, ?_⟩
      have hm : (self.reset newTree).m_chartsMin = HIGH := rfl
      rw [hm] at h
      omega
    · exact h
  · rcases i5 with h | h
    · have hm : (self.reset newTree).m_chartsMax = LOW := rfl
      rw [hm] at h
      omega
    · exact h

/-- Witness of C25: three calls, the second with the default chart, which is not valid;
the aggregates end as 15 and 90. -/
theorem C25_witness :
    ((∃ x ∈ [(createIndex 0 0 none, AgeChart.mk 10 20 30 40 50 60 70),
          (createIndex 0 0 none, AgeChart.unset),
          (createIndex 0 0 none, AgeChart.mk 5 15 30 40 50 90 95)],
        x.2.valid = true ∧
        (DirModel.calculatedAll [] (DirModel.reset ⟨none, 0, 0, []⟩ none)
          [(createIndex 0 0 none, AgeChart.mk 10 20 30 40 50 60 70),
           (createIndex 0 0 none, AgeChart.unset),
           (createIndex 0 0 none, AgeChart.mk 5 15 30 40 50 90 95)]).m_chartsMin =
          x.2.lowerWhisker) ∧
      (∃ x ∈ [(createIndex 0 0 none, AgeChart.mk 10 20 30 40 50 60 70),
          (createIndex 0 0 none, AgeChart.unset),
          (createIndex 0 0 none, AgeChart.mk 5 15 30 40 50 90 95)],
        x.2.valid = true ∧
        (DirModel.calculatedAll [] (DirModel.reset ⟨none, 0, 0, []⟩ none)
          [(createIndex 0 0 none, AgeChart.mk 10 20 30 40 50 60 70),
           (createIndex 0 0 none, AgeChart.unset),
           (createIndex 0 0 none, AgeChart.mk 5 15 30 40 50 90 95)]).m_chartsMax =
          x.2.upperWhisker)) ∧
    (DirModel.calculatedAll [] (DirModel.reset ⟨none, 0, 0, []⟩ none)
      [(createIndex 0 0 none, AgeChart.mk 10 20 30 40 50 60 70),
       (createIndex 0 0 none, AgeChart.unset),
       (createIndex 0 0 none, AgeChart.mk 5 15 30 40 50 90 95)]).m_chartsMin = 15 ∧
    (DirModel.calculatedAll [] (DirModel.reset ⟨none, 0, 0, []⟩ none)
      [(createIndex 0 0 none, AgeChart.mk 10 20 30 40 50 60 70),
       (createIndex 0 0 none, AgeChart.unset),
       (createIndex 0 0 none, AgeChart.mk 5 15 30 40 50 90 95)]).m_chartsMax = 90 :=
  ⟨(C25_chart_aggregates [] ⟨none, 0, 0, []⟩ none
      [(createIndex 0 0 none, AgeChart.mk 10 20 30 40 50 60 70),
       (createIndex 0 0 none, AgeChart.unset),
       (createIndex 0 0 none, AgeChart.mk 5 15 30 40 50 90 95)]
      (by decide)).2.2.2.2.1
      ⟨(createIndex 0 0 none, AgeChart.mk 10 20 30 40 50 60 70), by simp, by decide⟩,
    by decide, by decide⟩

/-- C30: the index of a node leads back to the node. In a store where every child link is
answered by the child (`parent(child(n,i)) = n` and `parentPos(child(n,i)) = i`), with the
parentless object `root` installed as the tree of the model, every node `t` of that tree
has an index `dirTreeToIndex(t)`, and `indexToDirTree` of it is `(t, ITSELF)`; the index of
the root has a null internal pointer, and the row 0 that the constructor gave it. -/
theorem C30_index_roundtrip (H : Store) (self : DirModel) (root t : Ptr) (rn : DirNode)
    (htree : self.m_tree = some root) (hroot : H[root]? = some rn)
    (hparentless : rn.m_parent = none)
    (hlinks : ∀ (p : Ptr) (nd : DirNode) (i : Nat) (c : Ptr), H[p]? = some nd →
      nd.m_subdirs[i]? = some c →
      ∃ cn : DirNode, H[c]? = some cn ∧ cn.m_parent = some p ∧ cn.m_parentPos = i)
    (ht : Store.InTree H root t) :
    ∃ idx, DirModel.dirTreeToIndex H t = some idx ∧
      DirModel.indexToDirTree H self idx = (some t, IndexTarget.ITSELF) ∧
      (t = root → idx.i = none ∧ (rn.m_parentPos = 0 → idx.r = 0)) := by
  cases ht with
  | root =>
    refine ⟨createIndex rn.m_parentPos 0 none, ?_, ?_, ?_⟩
    · simp only [DirModel.dirTreeToIndex, hroot, hparentless]
    · unfold DirModel.indexToDirTree
      have hv : (createIndex rn.m_parentPos 0 none).isValid = true := by
        simp [QModelIndex.isValid, createIndex]
      simp only [createIndex] at hv
      simp only [hv, not_true_eq_false, if_false, createIndex, htree]
    · intro _
      refine ⟨rfl, fun h => ?_⟩
      simp [createIndex, h]
  | child n _ nd i hn hnd hi =>
    obtain ⟨cn, c1, c2, c3⟩ := hlinks n nd i t hnd hi
    refine ⟨createIndex i 0 (some n), ?_, ?_, ?_⟩
    · simp only [DirModel.dirTreeToIndex, c1, c2, c3]
    · unfold DirModel.indexToDirTree
      have hv : (createIndex i 0 (some n)).isValid = true := by
        simp [QModelIndex.isValid, createIndex]
      have hlt : i < nd.m_subdirs.length := StdHeap.lt_length_of_getElem? hi
      have hlt2 : (i : Int) < (nd.m_subdirs.length : Int) := by omega
      simp only [createIndex] at hv
      simp only [hv, not_true_eq_false, if_false, createIndex, hnd, Int.natCast_nonneg,
        if_true, hlt2, Int.toNat_ofNat, hi]
    · intro h
      subst h
      rw [hroot] at c1
      rw [← Option.some.inj c1, hparentless] at c2
      cases c2

/-- Witness of C30: the child `sub` of the store of the scan scenario. -/
theorem C30_witness :
    ∃ idx, DirModel.dirTreeToIndex scannedStore 1 = some idx ∧
      DirModel.indexToDirTree scannedStore ⟨some 0, HIGH, LOW, []⟩ idx =
        (some 1, IndexTarget.ITSELF) := by
  obtain ⟨idx, h1, h2, _⟩ := C30_index_roundtrip scannedStore ⟨some 0, HIGH, LOW, []⟩ 0 1
    _ rfl rfl rfl scannedStore_wellFormed.2.links
    (Store.InTree.child 0 1 _ 0 Store.InTree.root rfl rfl)
  exact ⟨idx, h1, h2⟩

namespace Store

theorem sameBut_refl (y : DirNode) : SameButSubtreeSize y y :=
  ⟨rfl, rfl, rfl, rfl, rfl, rfl⟩

theorem sameBut_trans {a b c : DirNode} (h1 : SameButSubtreeSize a b)
    (h2 : SameButSubtreeSize b c) : SameButSubtreeSize a c := by
  unfold SameButSubtreeSize at h1 h2 ⊢
  refine ⟨h2.1.trans h1.1, h2.2.1.trans h1.2.1, h2.2.2.1.trans h1.2.2.1, ?_, ?_, ?_⟩
  · rw [h2.2.2.2.1, h1.2.2.2.1]
  · rw [h2.2.2.2.2.1, h1.2.2.2.2.1]
  · rw [h2.2.2.2.2.2, h1.2.2.2.2.2]

end Store

namespace ScanWorker

/-- One directory entry handled by `scanEntry`, seen from the other objects: the stacked
objects stay distinct and empty, the current object is not stacked again, no object other
than the current one changes but in its subtree size, and what is added to the stack is
newly allocated. -/
theorem scanEntry_frame (top : Nat) (ent : FsEntry) (st : ScanState) (hinv : Inv st)
    (htop : top < st.store.length) (hnt : top ∉ st.stack.map Prod.fst) (hfresh : Fresh st) :
    ∃ st2, scanEntry top ent st = some st2 ∧ Fresh st2 ∧ top ∉ st2.stack.map Prod.fst ∧
      st.store.length ≤ st2.store.length ∧
      (∀ (q : Nat) (y : DirNode), st.store[q]? = some y → q ≠ top →
        ∃ y2, st2.store[q]? = some y2 ∧ Store.SameButSubtreeSize y y2) ∧
      (∀ pe ∈ st2.stack, pe ∈ st.stack ∨ st.store.length ≤ pe.1) := by
  obtain ⟨st2, e1, _, _, _, _, s1, s2, s3, s4⟩ := scanEntry_spec top ent st hinv htop
  obtain ⟨hwf, _, hstack, _⟩ := hinv
  obtain ⟨hnodup, hempty⟩ := hfresh
  have trivialCase : ∀ pr : Progress, st2 = { st with progress := pr } →
      Fresh st2 ∧ top ∉ st2.stack.map Prod.fst ∧ st.store.length ≤ st2.store.length ∧
      (∀ (q : Nat) (y : DirNode), st.store[q]? = some y → q ≠ top →
        ∃ y2, st2.store[q]? = some y2 ∧ Store.SameButSubtreeSize y y2) ∧
      (∀ pe ∈ st2.stack, pe ∈ st.stack ∨ st.store.length ≤ pe.1) := by
    intro pr h
    subst h
    exact ⟨⟨hnodup, hempty⟩, hnt, Nat.le_refl _,
      fun q y hy _ => ⟨y, hy, Store.sameBut_refl y⟩, fun pe hpe => Or.inl hpe⟩
  -- the stacked objects keep their files and children when only other objects change
  have keep : ∀ (S : Store),
      (∀ (q : Nat) (y : DirNode), st.store[q]? = some y → q ≠ top →
        ∃ y2, S[q]? = some y2 ∧ Store.SameButSubtreeSize y y2) →
      ∀ pe ∈ st.stack, ∃ nd : DirNode, S[pe.1]? = some nd ∧ nd.m_files = [] ∧
        nd.m_subdirs = [] := by
    intro S hS pe hpe
    obtain ⟨nd, g1, g2, g3⟩ := hempty pe hpe
    have hne : pe.1 ≠ top := by
      intro h
      exact hnt (by rw [← h]; exact List.mem_map_of_mem Prod.fst hpe)
    obtain ⟨y2, k1, k2⟩ := hS pe.1 nd g1 hne
    exact ⟨y2, k1, by rw [k2.2.1, g2], by rw [k2.2.2.1, g3]⟩
  cases ent with
  | statError n => exact ⟨st2, e1, trivialCase _ (s1 n rfl)⟩
  | other n => exact ⟨st2, e1, trivialCase _ (s2 n rfl)⟩
  | file n size mtime =>
    obtain ⟨a1, a2, _⟩ := s3 n size mtime rfl
    obtain ⟨tn, htn⟩ : ∃ tn, st.store[top]? = some tn := ⟨_, List.getElem?_eq_getElem htop⟩
    obtain ⟨H3, f1, f2, _, fo, _⟩ := Store.append_frame (fun x => x) st.store.length st.store
      top tn size mtime hwf htn htop
    rw [a1] at f1
    have hH : st2.store = H3 := Option.some.inj f1
    have hfr : ∀ (q : Nat) (y : DirNode), st.store[q]? = some y → q ≠ top →
        ∃ y2, st2.store[q]? = some y2 ∧ Store.SameButSubtreeSize y y2 := by
      intro q y hy hq
      rw [hH]
      exact fo q y hy hq
    refine ⟨st2, e1, ⟨by rw [a2]; exact hnodup, ?_⟩, by rw [a2]; exact hnt,
      by rw [hH, f2], hfr, fun pe hpe => Or.inl (by rw [a2] at hpe; exact hpe)⟩
    intro pe hpe
    rw [a2] at hpe
    exact keep st2.store hfr pe hpe
  | dir n o es =>
    obtain ⟨a1, _, a3, tn, tn2, cn, _, _, c3, _, _, _, _, _, c9, c10, fo⟩ := s4 n o es rfl
    have hfr : ∀ (q : Nat) (y : DirNode), st.store[q]? = some y → q ≠ top →
        ∃ y2, st2.store[q]? = some y2 ∧ Store.SameButSubtreeSize y y2 :=
      fun q y hy hq => fo q y hy hq
    have hnew : st.store.length ∉ st.stack.map Prod.fst := by
      intro h
      obtain ⟨pe, hpe, hpe2⟩ := List.mem_map.1 h
      have := hstack pe hpe
      rw [hpe2] at this
      exact Nat.lt_irrefl _ this
    refine ⟨st2, e1, ⟨?_, ?_⟩, ?_, by rw [a3]; exact Nat.le_succ _, hfr, ?_⟩
    · rw [a1]
      simp only [List.map_cons, List.nodup_cons]
      exact ⟨hnew, hnodup⟩
    · intro pe hpe
      rw [a1] at hpe
      rcases List.mem_cons.1 hpe with h | h
      · subst h
        exact ⟨cn, c3, c9, c10⟩
      · exact keep st2.store hfr pe h
    · rw [a1]
      simp only [List.map_cons, List.mem_cons, not_or]
      exact ⟨Nat.ne_of_lt htop, hnt⟩
    · intro pe hpe
      rw [a1] at hpe
      rcases List.mem_cons.1 hpe with h | h
      · subst h
        exact Or.inr (Nat.le_refl _)
      · exact Or.inl h

end ScanWorker

namespace ScanWorker

/-- The `readdir` loop run to its end, seen from the other objects. -/
theorem scanEntries_frame (isCanceled : Nat → Bool) (top : Nat) :
    ∀ (es : List FsEntry) (st : ScanState), Inv st → top < st.store.length →
      top ∉ st.stack.map Prod.fst → Fresh st →
      ∀ st2, scanEntries isCanceled top es st = EntriesResult.done st2 →
        Inv st2 ∧ Fresh st2 ∧ top ∉ st2.stack.map Prod.fst ∧
        st.store.length ≤ st2.store.length ∧
        (∀ (q : Nat) (y : DirNode), st.store[q]? = some y → q ≠ top →
          ∃ y2, st2.store[q]? = some y2 ∧ Store.SameButSubtreeSize y y2) ∧
        (∀ pe ∈ st2.stack, pe ∈ st.stack ∨ st.store.length ≤ pe.1) := by
  intro es
  induction es with
  | nil =>
    intro st hinv htop hnt hfresh st2 h
    rw [scanEntries] at h
    cases h
    exact ⟨hinv, hfresh, hnt, Nat.le_refl _, fun q y hy _ => ⟨y, hy, Store.sameBut_refl y⟩,
      fun pe hpe => Or.inl hpe⟩
  | cons ent rest ih =>
    intro st hinv htop hnt hfresh st2 h
    rw [scanEntries] at h
    by_cases hc : isCanceled st.polls = true
    · rw [if_pos hc] at h
      cases h
    · rw [if_neg hc] at h
      simp only at h
      obtain ⟨st1, hst1⟩ : ∃ st1 : ScanState, st1 = { st with polls := st.polls + 1 } :=
        ⟨_, rfl⟩
      rw [← hst1] at h
      have hinv1 : Inv st1 := by
        rw [hst1]
        obtain ⟨w1, w2, w3, w4⟩ := hinv
        exact ⟨w1, w2, w3, w4⟩
      have hfresh1 : Fresh st1 := by
        rw [hst1]
        exact hfresh
      have hstore1 : st1.store = st.store := by rw [hst1]
      have hstack1 : st1.stack = st.stack := by rw [hst1]
      have htop1 : top < st1.store.length := by rw [hstore1]; exact htop
      have hnt1 : top ∉ st1.stack.map Prod.fst := by rw [hstack1]; exact hnt
      by_cases hdot : ent.name = "." ∨ ent.name = ".."
      · rw [if_pos hdot] at h
        obtain ⟨r1, r2, r3, r4, r5, r6⟩ := ih st1 hinv1 htop1 hnt1 hfresh1 st2 h
        rw [hstore1] at r4 r5 r6
        rw [hstack1] at r6
        exact ⟨r1, r2, r3, r4, r5, r6⟩
      · rw [if_neg hdot] at h
        obtain ⟨sm, e1, m2, m3, m4, m5, m6⟩ :=
          scanEntry_frame top ent st1 hinv1 htop1 hnt1 hfresh1
        obtain ⟨sm2, e2, minv, _, _, mtop, _⟩ := scanEntry_spec top ent st1 hinv1 htop1
        rw [e1] at e2
        have hsm : sm = sm2 := Option.some.inj e2
        subst hsm
        rw [e1] at h
        simp only at h
        obtain ⟨r1, r2, r3, r4, r5, r6⟩ := ih sm minv mtop m3 m2 st2 h
        rw [hstore1] at m4 m5 m6
        rw [hstack1] at m6
        refine ⟨r1, r2, r3, Nat.le_trans m4 r4, ?_, ?_⟩
        · intro q y hy hq
          obtain ⟨y2, k1, k2⟩ := m5 q y hy hq
          obtain ⟨y3, k3, k4⟩ := r5 q y2 k1 hq
          exact ⟨y3, k3, Store.sameBut_trans k2 k4⟩
        · intro pe hpe
          rcases r6 pe hpe with h1 | h1
          · exact m6 pe h1
          · exact Or.inr (Nat.le_trans m4 h1)

/-- One iteration of the outer loop run to its end, from the state after the pop. -/
theorem visitDir_frame (isCanceled : Nat → Bool) (top : Nat) (dirEnt : FsEntry)
    (st : ScanState) (hinv : Inv st) (htop : top < st.store.length)
    (hnt : top ∉ st.stack.map Prod.fst) (hfresh : Fresh st) (st2 : ScanState)
    (h : visitDir isCanceled top dirEnt st = EntriesResult.done st2) :
    Inv st2 ∧ Fresh st2 ∧ st.store.length ≤ st2.store.length ∧
    (∀ (q : Nat) (y : DirNode), st.store[q]? = some y → q ≠ top →
      ∃ y2, st2.store[q]? = some y2 ∧ Store.SameButSubtreeSize y y2) ∧
    (∀ pe ∈ st2.stack, pe ∈ st.stack ∨ st.store.length ≤ pe.1) ∧
    (dirEnt.opendir = none → st2 =
      { st with progress := { st.progress with numErrors := st.progress.numErrors + 1 } }) := by
  unfold visitDir at h
  cases hod : dirEnt.opendir with
  | none =>
    rw [hod] at h
    simp only at h
    have h2 := EntriesResult.done.inj h
    subst h2
    obtain ⟨w1, w2, w3, w4⟩ := hinv
    exact ⟨⟨w1, w2, w3, w4⟩, hfresh, Nat.le_refl _,
      fun q y hy _ => ⟨y, hy, Store.sameBut_refl y⟩, fun pe hpe => Or.inl hpe, fun _ => rfl⟩
  | some entries =>
    rw [hod] at h
    simp only at h
    cases hse : scanEntries isCanceled top entries st with
    | canceled s => rw [hse] at h; cases h
    | stuck => rw [hse] at h; cases h
    | done sm =>
      rw [hse] at h
      simp only at h
      obtain ⟨r1, r2, r3, r4, r5, r6⟩ :=
        scanEntries_frame isCanceled top entries st hinv htop hnt hfresh sm hse
      have hmtop : top < sm.store.length := Nat.lt_of_lt_of_le htop r4
      obtain ⟨tn, htn⟩ : ∃ tn, sm.store[top]? = some tn :=
        ⟨_, List.getElem?_eq_getElem hmtop⟩
      have hfin : Store.finalize sm.store top =
          some (sm.store.set top { tn with m_files := Store.sortByTime tn.m_files }) := by
        simp [Store.finalize, htn]
      rw [hfin] at h
      simp only at h
      have h2 := EntriesResult.done.inj h
      subst h2
      obtain ⟨w1, w2, w3, w4⟩ := r1
      obtain ⟨n1, n2⟩ := r2
      refine ⟨⟨Store.wellFormed_set w1 htn rfl rfl rfl, Store.sizeInv_set w2 htn rfl rfl rfl,
        ?_, w4⟩, ⟨n1, ?_⟩, ?_, ?_, r6, ?_⟩
      · intro pe hpe
        simp only [List.length_set]
        exact w3 pe hpe
      · intro pe hpe
        obtain ⟨nd, g1, g2, g3⟩ := n2 pe hpe
        have hne : pe.1 ≠ top := by
          intro he
          exact r3 (by rw [← he]; exact List.mem_map_of_mem Prod.fst hpe)
        refine ⟨nd, ?_, g2, g3⟩
        show (sm.store.set top _)[pe.1]? = some nd
        rw [Store.get_set_ne _ hne]
        exact g1
      · simp only [List.length_set]
        exact r4
      · intro q y hy hq
        obtain ⟨y2, k1, k2⟩ := r5 q y hy hq
        refine ⟨y2, ?_, k2⟩
        show (sm.store.set top _)[q]? = some y2
        rw [Store.get_set_ne _ hq]
        exact k1
      · intro hn
        cases hn

/-- Every state at the head of the outer loop satisfies the invariant, and its stacked
objects are distinct and empty. -/
theorem reached_inv (isCanceled : Nat → Bool) (m_rootPath : String) (root : FsEntry)
    (st : ScanState) (h : Reached isCanceled m_rootPath root st) : Inv st ∧ Fresh st := by
  induction h with
  | start =>
    refine ⟨init_inv m_rootPath root, ?_, ?_⟩
    · simp
    · intro pe hpe
      rw [List.mem_singleton] at hpe
      subst hpe
      exact ⟨_, rfl, rfl, rfl⟩
  | next st st2 top dirEnt rest _ hs _ hv ih =>
    obtain ⟨⟨w1, w2, w3, w4⟩, n1, n2⟩ := ih
    rw [hs] at w3 w4 n1 n2
    simp only [List.map_cons, List.nodup_cons] at n1
    have htop : top < st.store.length := w3 (top, dirEnt) (List.mem_cons_self _ _)
    have hsp : Inv { st with stack := rest, polls := st.polls + 1,
                             visited := st.visited ++ [top] } := by
      refine ⟨w1, w2, fun pe hpe => w3 pe (List.mem_cons_of_mem _ hpe), ?_⟩
      show (st.visited ++ [top]).length + rest.length = st.progress.numDirs + 1
      simp only [List.length_append, List.length_cons, List.length_nil] at w4 ⊢
      omega
    have hfp : Fresh { st with stack := rest, polls := st.polls + 1,
                               visited := st.visited ++ [top] } :=
      ⟨n1.2, fun pe hpe => n2 pe (List.mem_cons_of_mem _ hpe)⟩
    obtain ⟨r1, r2, _⟩ := visitDir_frame isCanceled top dirEnt _ hsp htop n1.1 hfp st2 hv
    exact ⟨r1, r2⟩

/-- One iteration of the outer loop, written with `visitDir`. -/
theorem scanLoop_succ (isCanceled : Nat → Bool) (root : Ptr) (fuel : Nat) (st : ScanState)
    (top : Ptr) (dirEnt : FsEntry) (rest : List (Ptr × FsEntry))
    (hs : st.stack = (top, dirEnt) :: rest) (hc : isCanceled st.polls = false) :
    scanLoop isCanceled root (fuel + 1) st =
      match visitDir isCanceled top dirEnt
        { st with stack := rest, polls := st.polls + 1, visited := st.visited ++ [top] } with
      | EntriesResult.done st2 => scanLoop isCanceled root fuel st2
      | EntriesResult.canceled st2 => ScanResult.null st2
      | EntriesResult.stuck => ScanResult.stuck := by
  rw [scanLoop, hs]
  simp only [hc, Bool.false_eq_true, if_false]
  unfold visitDir
  cases hod : dirEnt.opendir with
  | none => rfl
  | some entries =>
    simp only
    cases hse : scanEntries isCanceled top entries
        { st with stack := rest, polls := st.polls + 1, visited := st.visited ++ [top] } with
    | canceled s => rfl
    | stuck => rfl
    | done sm =>
      simp only
      cases hfin : Store.finalize sm.store top with
      | none => rfl
      | some H2 => rfl

/-- An object that is not on the stack keeps everything but its subtree size until the walk
returns the tree. -/
theorem scanLoop_frame (isCanceled : Nat → Bool) (root : Ptr) :
    ∀ (fuel : Nat) (st : ScanState), Inv st → Fresh st →
      ∀ st2, scanLoop isCanceled root fuel st = ScanResult.tree root st2 →
      ∀ (q : Nat) (y : DirNode), st.store[q]? = some y → q ∉ st.stack.map Prod.fst →
        ∃ y2, st2.store[q]? = some y2 ∧ Store.SameButSubtreeSize y y2 := by
  intro fuel
  induction fuel with
  | zero =>
    intro st _ _ st2 h q y hy _
    rw [scanLoop] at h
    cases hs : st.stack with
    | nil =>
      rw [hs] at h
      simp only at h
      have := (ScanResult.tree.inj h).2
      subst this
      exact ⟨y, hy, Store.sameBut_refl y⟩
    | cons pe rest => rw [hs] at h; cases h
  | succ fuel ih =>
    intro st hinv hfresh st2 h q y hy hq
    cases hs : st.stack with
    | nil =>
      rw [scanLoop, hs] at h
      simp only at h
      have := (ScanResult.tree.inj h).2
      subst this
      exact ⟨y, hy, Store.sameBut_refl y⟩
    | cons pe rest =>
      obtain ⟨top, dirEnt⟩ := pe
      by_cases hc : isCanceled st.polls = true
      · rw [scanLoop, hs] at h
        simp only [hc, if_true] at h
        cases h
      · have hcf : isCanceled st.polls = false := by simpa using hc
        rw [scanLoop_succ isCanceled root fuel st top dirEnt rest hs hcf] at h
        obtain ⟨w1, w2, w3, w4⟩ := hinv
        obtain ⟨n1, n2⟩ := hfresh
        rw [hs] at w3 w4 n1 n2 hq
        simp only [List.map_cons, List.nodup_cons] at n1
        simp only [List.map_cons, List.mem_cons, not_or] at hq
        have htop : top < st.store.length := w3 (top, dirEnt) (List.mem_cons_self _ _)
        have hsp : Inv { st with stack := rest, polls := st.polls + 1,
                                 visited := st.visited ++ [top] } := by
          refine ⟨w1, w2, fun pe hpe => w3 pe (List.mem_cons_of_mem _ hpe), ?_⟩
          show (st.visited ++ [top]).length + rest.length = st.progress.numDirs + 1
          simp only [List.length_append, List.length_cons, List.length_nil] at w4 ⊢
          omega
        have hfp : Fresh { st with stack := rest, polls := st.polls + 1,
                                   visited := st.visited ++ [top] } :=
          ⟨n1.2, fun pe hpe => n2 pe (List.mem_cons_of_mem _ hpe)⟩
        cases hv : visitDir isCanceled top dirEnt
            { st with stack := rest, polls := st.polls + 1,
                      visited := st.visited ++ [top] } with
        | canceled s => rw [hv] at h; cases h
        | stuck => rw [hv] at h; cases h
        | done sm =>
          rw [hv] at h
          simp only at h
          obtain ⟨r1, r2, r3, r4, r5, _⟩ :=
            visitDir_frame isCanceled top dirEnt _ hsp htop n1.1 hfp sm hv
          obtain ⟨y2, k1, k2⟩ := r4 q y hy hq.1
          have hqlt : q < st.store.length := StdHeap.lt_length_of_getElem? hy
          have hq2 : q ∉ sm.stack.map Prod.fst := by
            intro hmem
            obtain ⟨pe, hpe, hpe2⟩ := List.mem_map.1 hmem
            rcases r5 pe hpe with h1 | h1
            · exact hq.2 (by rw [← hpe2]; exact List.mem_map_of_mem Prod.fst h1)
            · have h2 : st.store.length ≤ q := by rw [← hpe2]; exact h1
              exact Nat.lt_irrefl _ (Nat.lt_of_lt_of_le hqlt h2)
          obtain ⟨y3, k3, k4⟩ := ih sm r1 r2 st2 h q y2 k1 hq2
          exact ⟨y3, k3, Store.sameBut_trans k2 k4⟩

end ScanWorker

/-- C24: a stacked directory that cannot be opened. In every state the scan reaches at the
head of its outer loop with the directory object `top` on top of the stack, `opendir`
failing for it and the poll of the cancellation flag returning false: the object has no
files and no children; the iteration leaves the store as it is, increments `numErrors` by
one and no other counter, and the scan goes on from the rest of the stack; with fuel for the
entries of the stacked directories and no poll returning true the walk returns the tree, in
which the object still has no files and no children, its name, and its place under its
parent. -/
theorem C24_unopenable_directory (isCanceled : Nat → Bool) (m_rootPath : String)
    (root : FsEntry) (st : ScanState) (top : Ptr) (dirEnt : FsEntry)
    (rest : List (Ptr × FsEntry))
    (hreach : ScanWorker.Reached isCanceled m_rootPath root st)
    (hs : st.stack = (top, dirEnt) :: rest) (hopen : dirEnt.opendir = none)
    (hpoll : isCanceled st.polls = false) :
    ∃ nd : DirNode, st.store[top]? = some nd ∧ nd.m_files = [] ∧ nd.m_subdirs = [] ∧
      ScanWorker.Reached isCanceled m_rootPath root
        { st with stack := rest, polls := st.polls + 1, visited := st.visited ++ [top],
                  progress := { st.progress with numErrors := st.progress.numErrors + 1 } } ∧
      (∀ fuel, ScanWorker.scanLoop isCanceled 0 (fuel + 1) st =
        ScanWorker.scanLoop isCanceled 0 fuel
          { st with stack := rest, polls := st.polls + 1, visited := st.visited ++ [top],
                    progress := { st.progress with
                                  numErrors := st.progress.numErrors + 1 } }) ∧
      (∀ fuel, ScanWorker.stackWeight rest ≤ fuel → (∀ k, isCanceled k = false) →
        ∃ (st2 : ScanState) (nd2 : DirNode),
          ScanWorker.scanLoop isCanceled 0 (fuel + 1) st = ScanResult.tree 0 st2 ∧
          st2.stack = [] ∧ st2.store[top]? = some nd2 ∧
          nd2.m_files = [] ∧ nd2.m_subdirs = [] ∧ nd2.m_name = nd.m_name ∧
          nd2.m_parent = nd.m_parent ∧ nd2.m_parentPos = nd.m_parentPos ∧
          ∀ q, nd.m_parent = some q →
            ∃ qn : DirNode, st2.store[q]? = some qn ∧
              qn.m_subdirs[nd.m_parentPos]? = some top) := by
  obtain ⟨hinv, hfresh⟩ := ScanWorker.reached_inv isCanceled m_rootPath root st hreach
  obtain ⟨nd, g1, g2, g3⟩ := hfresh.2 (top, dirEnt) (by rw [hs]; exact List.mem_cons_self _ _)
  have hv : ScanWorker.visitDir isCanceled top dirEnt
      { st with stack := rest, polls := st.polls + 1, visited := st.visited ++ [top] } =
      EntriesResult.done
        { st with stack := rest, polls := st.polls + 1, visited := st.visited ++ [top],
                  progress := { st.progress with
                                numErrors := st.progress.numErrors + 1 } } := by
    unfold ScanWorker.visitDir
    rw [hopen]
  have hreach1 := ScanWorker.Reached.next st _ top dirEnt rest hreach hs hpoll hv
  have hstep : ∀ fuel, ScanWorker.scanLoop isCanceled 0 (fuel + 1) st =
      ScanWorker.scanLoop isCanceled 0 fuel
        { st with stack := rest, polls := st.polls + 1, visited := st.visited ++ [top],
                  progress := { st.progress with
                                numErrors := st.progress.numErrors + 1 } } := by
    intro fuel
    rw [ScanWorker.scanLoop_succ isCanceled 0 fuel st top dirEnt rest hs hpoll, hv]
  refine ⟨nd, g1, g2, g3, hreach1, hstep, ?_⟩
  intro fuel hfuel hall
  obtain ⟨hinv1, hfresh1⟩ := ScanWorker.reached_inv isCanceled m_rootPath root _ hreach1
  have hnt : top ∉ rest.map Prod.fst := by
    have := hfresh.1
    rw [hs] at this
    simp only [List.map_cons, List.nodup_cons] at this
    exact this.1
  rcases ScanWorker.scanLoop_spec isCanceled 0 fuel _ hinv1 hfuel with
    ⟨st2, a1, a2, a3, _⟩ | ⟨st2, _, b2, _⟩
  · obtain ⟨nd2, k1, k2⟩ := ScanWorker.scanLoop_frame isCanceled 0 fuel _ hinv1 hfresh1 st2 a1
      top nd g1 hnt
    obtain ⟨s1, s2, s3, s4, s5, _⟩ := k2
    refine ⟨st2, nd2, by rw [hstep fuel]; exact a1, a2, k1, by rw [s2, g2], by rw [s3, g3],
      s1, s4, s5, ?_⟩
    intro q hq
    obtain ⟨qn, q1, q2⟩ := a3.1.backlinks top nd2 q k1 (by rw [s4]; exact hq)
    exact ⟨qn, q1, by rw [← s5]; exact q2⟩
  · rw [hall] at b2
    cases b2

/-- Witness of C24: the directory `locked` of the locked scenario, on top of the stack after
the root was read. -/
theorem C24_witness :
    ScanWorker.Reached neverCanceled "/r" lockedScenario lockedState ∧
    ∃ (st2 : ScanState) (nd2 : DirNode),
      ScanWorker.scanLoop neverCanceled 0 (5 + 1) lockedState = ScanResult.tree 0 st2 ∧
      st2.stack = [] ∧ st2.store[2]? = some nd2 ∧ nd2.m_files = [] ∧ nd2.m_subdirs = [] ∧
      nd2.m_name = "locked" := by
  have hreach : ScanWorker.Reached neverCanceled "/r" lockedScenario lockedState :=
    ScanWorker.Reached.next _ lockedState 0 lockedScenario []
      ScanWorker.Reached.start rfl rfl rfl
  refine ⟨hreach, ?_⟩
  obtain ⟨nd, g1, _, _, _, _, h⟩ := C24_unopenable_directory neverCanceled "/r" lockedScenario
    lockedState 2 (FsEntry.dir "locked" false [FsEntry.file "hidden" 9 50])
    [(1, FsEntry.dir "open" true [FsEntry.file "g" 3 200])] hreach rfl rfl rfl
  obtain ⟨st2, nd2, h1, h2, h3, h4, h5, h6, _⟩ := h 5 (by decide) (fun _ => rfl)
  have hnd : nd = { DirNode.new with m_name := "locked", m_parent := some 0,
                                     m_parentPos := 1 } := by
    have e : lockedState.store[2]? =
        some { DirNode.new with m_name := "locked", m_parent := some 0, m_parentPos := 1 } :=
      rfl
    rw [e] at g1
    exact (Option.some.inj g1).symm
  exact ⟨st2, nd2, h1, h2, h3, h4, h5, by rw [h6, hnd]⟩

/-- C27, the claim as stated fails: in the walk scenario the root holds `a` and `b`, and
`b` holds `b1`; the scanner opens the root, then `b`, then `b1` at depth 2, and only then
`a` at depth 1, so the directories are not opened level by level. -/
theorem C27_counterexample :
    ∃ st : ScanState,
      ScanWorker.scanPriv neverCanceled 20 "/r" walkScenario = ScanResult.tree 0 st ∧
      st.store.map DirNode.m_name = ["/r", "a", "b", "b1"] ∧
      st.visited = [0, 2, 3, 1] ∧
      st.visited.map (Store.depth st.store 4) = [0, 1, 2, 1] ∧
      ¬ (st.visited.map (Store.depth st.store 4)).Pairwise (fun d e => d ≤ e) := by
  refine ⟨_, rfl, rfl, rfl, rfl, ?_⟩
  have e : ∀ (st : ScanState),
      ScanWorker.scanPriv neverCanceled 20 "/r" walkScenario = ScanResult.tree 0 st →
      st.visited.map (Store.depth st.store 4) = [0, 1, 2, 1] := by
    intro st h
    have h0 : ScanWorker.scanPriv neverCanceled 20 "/r" walkScenario =
        ScanResult.tree 0 _ := rfl
    rw [h0] at h
    rw [← (ScanResult.tree.inj h).2]
    rfl
  rw [e _ rfl]
  decide

namespace ScanWorker

/-- Reading the name of an object that is there. -/
theorem nameAt_some {H : Store} {p : Ptr} {nd : DirNode} (h : H[p]? = some nd) :
    H.nameAt p = nd.m_name := by
  unfold Store.nameAt
  rw [h]

/-- The walk order of the stack depends on the store only through the names of the stacked
objects. -/
theorem stackWalk_congr (H H2 : Store) (stack : List (Ptr × FsEntry))
    (h : ∀ pe ∈ stack, H2.nameAt pe.1 = H.nameAt pe.1) :
    stackWalk H2 stack = stackWalk H stack := by
  induction stack with
  | nil => rfl
  | cons pe rest ih =>
    unfold stackWalk at ih ⊢
    rw [List.flatMap_cons, List.flatMap_cons, h pe (List.mem_cons_self _ _),
      ih (fun x hx => h x (List.mem_cons_of_mem _ hx))]

theorem walkEntry_dir (n : String) (o : Bool) (es : List FsEntry) :
    FsEntry.walkEntry (FsEntry.dir n o es) = FsEntry.walkFrom n (FsEntry.dir n o es) := by
  cases o <;> simp [FsEntry.walkEntry, FsEntry.walkFrom, FsEntry.opendir]

/-- No call of `scanEntry` changes the name of an object. -/
theorem scanEntry_names (top : Nat) (ent : FsEntry) (st st2 : ScanState) (hinv : Inv st)
    (htop : top < st.store.length) (h : scanEntry top ent st = some st2) :
    ∀ (q : Nat) (y : DirNode), st.store[q]? = some y →
      ∃ y2, st2.store[q]? = some y2 ∧ y2.m_name = y.m_name := by
  obtain ⟨hwf, hsz, _, _⟩ := hinv
  obtain ⟨tn, htn⟩ : ∃ tn, st.store[top]? = some tn := ⟨_, List.getElem?_eq_getElem htop⟩
  cases ent with
  | statError n =>
    simp only [scanEntry, Option.some.injEq] at h
    subst h
    exact fun q y hy => ⟨y, hy, rfl⟩
  | other n =>
    simp only [scanEntry, Option.some.injEq] at h
    subst h
    exact fun q y hy => ⟨y, hy, rfl⟩
  | file n size mtime =>
    obtain ⟨H3, f1, _, ⟨nd2, g1, _, _, g4, _⟩, fo, _⟩ := Store.append_frame (fun x => x)
      st.store.length st.store top tn size mtime hwf htn htop
    simp only [scanEntry, f1, Option.some.injEq] at h
    subst h
    intro q y hy
    by_cases hq : q = top
    · subst hq
      rw [htn] at hy
      rw [← Option.some.inj hy]
      exact ⟨nd2, g1, g4⟩
    · obtain ⟨y2, k1, k2⟩ := fo q y hy hq
      exact ⟨y2, k1, k2.1⟩
  | dir n o es =>
    obtain ⟨x, hx⟩ : ∃ x : DirNode, x = { DirNode.new with m_name := n } := ⟨_, rfl⟩
    obtain ⟨hwf1, _⟩ := Store.snoc_inv (fun x => x) st.store x hwf hsz
      (by rw [hx]; rfl) (by rw [hx]; rfl) (by rw [hx]; rfl) (by rw [hx]; rfl)
    have hlen1 : (st.store ++ [x]).length = st.store.length + 1 := by simp
    have htn1 : (st.store ++ [x])[top]? = some tn := by
      rw [List.getElem?_append_left htop]; exact htn
    have hx1 : (st.store ++ [x])[st.store.length]? = some x := by
      rw [List.getElem?_append_right (le_refl _)]; simp
    have habove : ¬ Store.Above (st.store ++ [x]) st.store.length top := by
      intro hab
      have := Store.above_rank hwf1 hab
      simp only at this
      omega
    obtain ⟨H3, f1, _, ⟨tn2, t1, _, _, _, _, _, t7⟩, _, fo, _⟩ :=
      Store.appendDir_frame (fun x => x) (st.store ++ [x]).length (st.store ++ [x]) top
        st.store.length tn x hwf1 htn1 hx1 (by rw [hx]; rfl) habove
        (by show top < _; rw [hlen1]; omega)
    simp only [scanEntry] at h
    rw [← hx, f1] at h
    simp only [Option.some.injEq] at h
    subst h
    intro q y hy
    have hqlt : q < st.store.length := StdHeap.lt_length_of_getElem? hy
    by_cases hq : q = top
    · subst hq
      rw [htn] at hy
      rw [← Option.some.inj hy]
      exact ⟨tn2, t1, t7⟩
    · have hy1 : (st.store ++ [x])[q]? = some y := by
        rw [List.getElem?_append_left hqlt]; exact hy
      obtain ⟨y2, k1, k2⟩ := fo q y hy1 hq (Nat.ne_of_lt hqlt)
      exact ⟨y2, k1, k2.1⟩

/-- One directory entry handled by `scanEntry`: a directory is put on the stack under its
name, so the walk order of the stack grows at its front by the walk order of the entry. -/
theorem scanEntry_walk (top : Nat) (ent : FsEntry) (st : ScanState) (hinv : Inv st)
    (htop : top < st.store.length) :
    ∃ st2, scanEntry top ent st = some st2 ∧ Inv st2 ∧ top < st2.store.length ∧
      st2.visited = st.visited ∧ st2.polls = st.polls ∧
      (∀ (q : Nat) (y : DirNode), st.store[q]? = some y →
        ∃ y2, st2.store[q]? = some y2 ∧ y2.m_name = y.m_name) ∧
      stackWalk st2.store st2.stack = FsEntry.walkEntry ent ++ stackWalk st.store st.stack := by
  obtain ⟨st2, e1, hinv2, e3, e4, htop2, s1, s2, s3, s4⟩ := scanEntry_spec top ent st hinv htop
  have hnames := scanEntry_names top ent st st2 hinv htop e1
  have hold : stackWalk st2.store st.stack = stackWalk st.store st.stack := by
    apply stackWalk_congr
    intro pe hpe
    have hlt : pe.1 < st.store.length := hinv.2.2.1 pe hpe
    obtain ⟨y, hy⟩ : ∃ y, st.store[pe.1]? = some y := ⟨_, List.getElem?_eq_getElem hlt⟩
    obtain ⟨y2, k1, k2⟩ := hnames pe.1 y hy
    rw [nameAt_some k1, nameAt_some hy, k2]
  refine ⟨st2, e1, hinv2, htop2, e4, e3, hnames, ?_⟩
  cases ent with
  | statError n =>
    rw [s1 n rfl] at hold ⊢
    exact hold
  | other n =>
    rw [s2 n rfl] at hold ⊢
    exact hold
  | file n size mtime =>
    obtain ⟨_, a2, _⟩ := s3 n size mtime rfl
    rw [a2]
    exact hold
  | dir n o es =>
    obtain ⟨a1, _, _, tn, tn2, cn, _, _, c3, _, _, c6, _⟩ := s4 n o es rfl
    rw [a1, walkEntry_dir]
    unfold stackWalk at hold ⊢
    rw [List.flatMap_cons, hold, nameAt_some c3, c6]

/-- The `readdir` loop run to its end: the walk order of the stack grows at its front by the
walk order below the entries read; names and the visit log are as before. -/
theorem scanEntries_walk (isCanceled : Nat → Bool) (top : Nat) :
    ∀ (es : List FsEntry) (st : ScanState), Inv st → top < st.store.length →
      ∀ st2, scanEntries isCanceled top es st = EntriesResult.done st2 →
        Inv st2 ∧ top < st2.store.length ∧ st2.visited = st.visited ∧
        (∀ (q : Nat) (y : DirNode), st.store[q]? = some y →
          ∃ y2, st2.store[q]? = some y2 ∧ y2.m_name = y.m_name) ∧
        stackWalk st2.store st2.stack = FsEntry.walkRev es ++ stackWalk st.store st.stack := by
  intro es
  induction es with
  | nil =>
    intro st hinv htop st2 h
    rw [scanEntries] at h
    cases h
    exact ⟨hinv, htop, rfl, fun q y hy => ⟨y, hy, rfl⟩, by simp [FsEntry.walkRev]⟩
  | cons ent rest ih =>
    intro st hinv htop st2 h
    rw [scanEntries] at h
    by_cases hc : isCanceled st.polls = true
    · rw [if_pos hc] at h
      cases h
    · rw [if_neg hc] at h
      simp only at h
      obtain ⟨st1, hst1⟩ : ∃ st1 : ScanState, st1 = { st with polls := st.polls + 1 } :=
        ⟨_, rfl⟩
      rw [← hst1] at h
      have hinv1 : Inv st1 := by
        rw [hst1]
        obtain ⟨w1, w2, w3, w4⟩ := hinv
        exact ⟨w1, w2, w3, w4⟩
      have hstore1 : st1.store = st.store := by rw [hst1]
      have hstack1 : st1.stack = st.stack := by rw [hst1]
      have hvis1 : st1.visited = st.visited := by rw [hst1]
      have htop1 : top < st1.store.length := by rw [hstore1]; exact htop
      rw [FsEntry.walkRev]
      by_cases hdot : ent.name = "." ∨ ent.name = ".."
      · rw [if_pos hdot] at h ⊢
        obtain ⟨r1, r2, r3, r4, r5⟩ := ih st1 hinv1 htop1 st2 h
        rw [hstore1] at r4 r5
        rw [hstack1] at r5
        rw [hvis1] at r3
        exact ⟨r1, r2, r3, r4, r5⟩
      · rw [if_neg hdot] at h ⊢
        obtain ⟨sm, e1, minv, mtop, mvis, _, mnames, mwalk⟩ :=
          scanEntry_walk top ent st1 hinv1 htop1
        rw [e1] at h
        simp only at h
        obtain ⟨r1, r2, r3, r4, r5⟩ := ih sm minv mtop st2 h
        rw [hstore1] at mnames mwalk
        rw [hstack1] at mwalk
        refine ⟨r1, r2, by rw [r3, mvis, hvis1], ?_, ?_⟩
        · intro q y hy
          obtain ⟨y2, k1, k2⟩ := mnames q y hy
          obtain ⟨y3, k3, k4⟩ := r4 q y2 k1
          exact ⟨y3, k3, k4.trans k2⟩
        · rw [r5, mwalk, List.append_assoc]

/-- One iteration of the outer loop run to its end, from the state after the pop: the walk
order of the stack grows at its front by the walk order below the directory. -/
theorem visitDir_walk (isCanceled : Nat → Bool) (top : Nat) (dirEnt : FsEntry)
    (st : ScanState) (hinv : Inv st) (htop : top < st.store.length) (st2 : ScanState)
    (h : visitDir isCanceled top dirEnt st = EntriesResult.done st2) :
    Inv st2 ∧ st2.visited = st.visited ∧
    (∀ (q : Nat) (y : DirNode), st.store[q]? = some y →
      ∃ y2, st2.store[q]? = some y2 ∧ y2.m_name = y.m_name) ∧
    stackWalk st2.store st2.stack =
      (match dirEnt.opendir with
       | some entries => FsEntry.walkRev entries
       | none => []) ++ stackWalk st.store st.stack := by
  unfold visitDir at h
  cases hod : dirEnt.opendir with
  | none =>
    rw [hod] at h
    simp only at h
    have h2 := EntriesResult.done.inj h
    subst h2
    obtain ⟨w1, w2, w3, w4⟩ := hinv
    exact ⟨⟨w1, w2, w3, w4⟩, rfl, fun q y hy => ⟨y, hy, rfl⟩, rfl⟩
  | some entries =>
    rw [hod] at h
    simp only at h
    cases hse : scanEntries isCanceled top entries st with
    | canceled s => rw [hse] at h; cases h
    | stuck => rw [hse] at h; cases h
    | done sm =>
      rw [hse] at h
      simp only at h
      obtain ⟨r1, r2, r3, r4, r5⟩ := scanEntries_walk isCanceled top entries st hinv htop sm hse
      obtain ⟨tn, htn⟩ : ∃ tn, sm.store[top]? = some tn := ⟨_, List.getElem?_eq_getElem r2⟩
      have hfin : Store.finalize sm.store top =
          some (sm.store.set top { tn with m_files := Store.sortByTime tn.m_files }) := by
        simp [Store.finalize, htn]
      rw [hfin] at h
      simp only at h
      have h2 := EntriesResult.done.inj h
      subst h2
      obtain ⟨w1, w2, w3, w4⟩ := r1
      have hset : ∀ (q : Nat) (y : DirNode), sm.store[q]? = some y →
          ∃ y2, (sm.store.set top { tn with m_files := Store.sortByTime tn.m_files })[q]? =
            some y2 ∧ y2.m_name = y.m_name := by
        intro q y hy
        by_cases hq : q = top
        · subst hq
          rw [htn] at hy
          rw [← Option.some.inj hy]
          exact ⟨_, Store.get_set_self _ htn, rfl⟩
        · exact ⟨y, by rw [Store.get_set_ne _ hq]; exact hy, rfl⟩
      refine ⟨⟨Store.wellFormed_set w1 htn rfl rfl rfl, Store.sizeInv_set w2 htn rfl rfl rfl,
        ?_, w4⟩, r3, ?_, ?_⟩
      · intro pe hpe
        simp only [List.length_set]
        exact w3 pe hpe
      · intro q y hy
        obtain ⟨y2, k1, k2⟩ := r4 q y hy
        obtain ⟨y3, k3, k4⟩ := hset q y2 k1
        exact ⟨y3, k3, k4.trans k2⟩
      · show stackWalk (sm.store.set top _) sm.stack = _
        rw [← r5]
        apply stackWalk_congr
        intro pe hpe
        have hlt : pe.1 < sm.store.length := w3 pe hpe
        obtain ⟨y, hy⟩ : ∃ y, sm.store[pe.1]? = some y := ⟨_, List.getElem?_eq_getElem hlt⟩
        obtain ⟨y3, k3, k4⟩ := hset pe.1 y hy
        rw [nameAt_some k3, nameAt_some hy, k4]

/-- The walk that returns the tree takes the stacked directories off in their depth-first
order: what it adds to the visit log, read as names in the final store, is the walk order
of the stack. No object changes its name. -/
theorem scanLoop_walk (isCanceled : Nat → Bool) (root : Ptr) :
    ∀ (fuel : Nat) (st : ScanState), Inv st →
      ∀ st2, scanLoop isCanceled root fuel st = ScanResult.tree root st2 →
        (∀ (q : Nat) (y : DirNode), st.store[q]? = some y →
          ∃ y2, st2.store[q]? = some y2 ∧ y2.m_name = y.m_name) ∧
        ∃ added : List Ptr, st2.visited = st.visited ++ added ∧
          added.map st2.store.nameAt = stackWalk st.store st.stack := by
  intro fuel
  induction fuel with
  | zero =>
    intro st _ st2 h
    rw [scanLoop] at h
    cases hs : st.stack with
    | nil =>
      rw [hs] at h
      simp only at h
      have := (ScanResult.tree.inj h).2
      subst this
      exact ⟨fun q y hy => ⟨y, hy, rfl⟩, [], by simp, rfl⟩
    | cons pe rest => rw [hs] at h; cases h
  | succ fuel ih =>
    intro st hinv st2 h
    cases hs : st.stack with
    | nil =>
      rw [scanLoop, hs] at h
      simp only at h
      have := (ScanResult.tree.inj h).2
      subst this
      exact ⟨fun q y hy => ⟨y, hy, rfl⟩, [], by simp, rfl⟩
    | cons pe rest =>
      obtain ⟨top, dirEnt⟩ := pe
      by_cases hc : isCanceled st.polls = true
      · rw [scanLoop, hs] at h
        simp only [hc, if_true] at h
        cases h
      · have hcf : isCanceled st.polls = false := by simpa using hc
        rw [scanLoop_succ isCanceled root fuel st top dirEnt rest hs hcf] at h
        obtain ⟨w1, w2, w3, w4⟩ := hinv
        rw [hs] at w3 w4
        have htop : top < st.store.length := w3 (top, dirEnt) (List.mem_cons_self _ _)
        have hsp : Inv { st with stack := rest, polls := st.polls + 1,
                                 visited := st.visited ++ [top] } := by
          refine ⟨w1, w2, fun pe hpe => w3 pe (List.mem_cons_of_mem _ hpe), ?_⟩
          show (st.visited ++ [top]).length + rest.length = st.progress.numDirs + 1
          simp only [List.length_append, List.length_cons, List.length_nil] at w4 ⊢
          omega
        cases hv : visitDir isCanceled top dirEnt
            { st with stack := rest, polls := st.polls + 1,
                      visited := st.visited ++ [top] } with
        | canceled s => rw [hv] at h; cases h
        | stuck => rw [hv] at h; cases h
        | done sm =>
          rw [hv] at h
          simp only at h
          obtain ⟨r1, r2, r3, r4⟩ := visitDir_walk isCanceled top dirEnt _ hsp htop sm hv
          obtain ⟨i1, added, i2, i3⟩ := ih sm r1 st2 h
          have hnames : ∀ (q : Nat) (y : DirNode), st.store[q]? = some y →
              ∃ y2, st2.store[q]? = some y2 ∧ y2.m_name = y.m_name := by
            intro q y hy
            obtain ⟨y2, k1, k2⟩ := r3 q y hy
            obtain ⟨y3, k3, k4⟩ := i1 q y2 k1
            exact ⟨y3, k3, k4.trans k2⟩
          refine ⟨hnames, top :: added, ?_, ?_⟩
          · rw [i2, r2]
            show (st.visited ++ [top]) ++ added = st.visited ++ top :: added
            simp
          · obtain ⟨tn, htn⟩ : ∃ tn, st.store[top]? = some tn :=
              ⟨_, List.getElem?_eq_getElem htop⟩
            obtain ⟨tn2, t1, t2⟩ := hnames top tn htn
            rw [List.map_cons, i3, r4, nameAt_some t1, t2]
            unfold stackWalk
            rw [List.flatMap_cons, nameAt_some htn]
            rfl

end ScanWorker

/-- C27, amended: the walk of the scanner is depth-first over its stack. With fuel for
every entry of the filesystem and no poll of the cancellation flag returning true,
`scanPriv` returns the tree, and the directories it took off the stack to open them, read
in their order as the names of their objects, are the root followed, for each directory
that could be opened, by its subdirectories last-read first, each with everything below it
before the next: the order `walkFrom` of the filesystem. -/
theorem C27_walk_is_depth_first (isCanceled : Nat → Bool) (fuel : Nat) (m_rootPath : String)
    (root : FsEntry) (hfuel : root.weight ≤ fuel) (hnc : ∀ k, isCanceled k = false) :
    ∃ st, ScanWorker.scanPriv isCanceled fuel m_rootPath root = ScanResult.tree 0 st ∧
      st.stack = [] ∧
      st.visited.map st.store.nameAt = FsEntry.walkFrom m_rootPath root := by
  rcases ScanWorker.scanPriv_spec isCanceled fuel m_rootPath root hfuel with
    ⟨st, a1, a2, _⟩ | ⟨st, _, b2, _⟩
  · refine ⟨st, a1, a2, ?_⟩
    unfold ScanWorker.scanPriv at a1
    obtain ⟨_, added, h1, h2⟩ := ScanWorker.scanLoop_walk isCanceled 0 fuel _
      (ScanWorker.init_inv m_rootPath root) st a1
    simp only [List.nil_append] at h1
    rw [h1, h2]
    simp [ScanWorker.stackWalk, Store.nameAt]
  · rw [hnc] at b2
    cases b2

/-- Witness of C27 amended: in the walk scenario the directories are opened in the order
root, `b`, `b1`, `a`. -/
theorem C27_witness :
    walkScenario.weight ≤ 20 ∧
    ∃ st, ScanWorker.scanPriv neverCanceled 20 "/r" walkScenario = ScanResult.tree 0 st ∧
      st.stack = [] ∧ st.visited.map st.store.nameAt = ["/r", "b", "b1", "a"] := by
  have e : FsEntry.walkFrom "/r" walkScenario = ["/r", "b", "b1", "a"] := by decide
  refine ⟨by decide, ?_⟩
  rw [← e]
  exact C27_walk_is_depth_first neverCanceled 20 "/r" walkScenario (by decide) (fun _ => rfl)
